import Mathlib

/-!
Verification development for the deployment-orchestration tool
(YAML document merger, component patcher, release operations, process
runner and secrets transforms).

The Python sources are embedded shallowly:
* YAML values (as produced by `yaml.Loader` / `yaml.BaseLoader`) become the
  inductive type `Yaml`; mappings keep insertion order, as Python dicts do.
* Functions that can raise become `Except String` computations, the string
  naming the Python exception class raised at that point.
* Machine-level aspects that cannot occur in parsed YAML documents
  (generator objects, float/complex scalars) are outside the embedding; the
  code paths guarded by them are modelled by the branch actually taken for
  parsed documents.
-/

/-- A YAML value as loaded by PyYAML.  `yaml.Loader` produces typed scalars
(`null`, `str`, `int`, `bool`); `yaml.BaseLoader` produces only `str`
scalars (so the literal text of `~` stays the string "~").  Mappings are
Python dicts: ordered association lists with unique keys. -/
inductive Yaml where
  | null : Yaml
  | str (s : String) : Yaml
  | int (n : Int) : Yaml
  | bool (b : Bool) : Yaml
  | map (kvs : List (String × Yaml)) : Yaml
  | seq (xs : List Yaml) : Yaml
  deriving Repr

mutual
/-- Decidable equality for `Yaml` (hand-rolled because the nested
occurrence in `List (String × Yaml)` defeats automatic derivation). -/
def Yaml.decEq : (a b : Yaml) → Decidable (a = b)
  | .null, .null => isTrue rfl
  | .str a, .str b =>
    if h : a = b then isTrue (by rw [h]) else isFalse (by simp [h])
  | .int a, .int b =>
    if h : a = b then isTrue (by rw [h]) else isFalse (by simp [h])
  | .bool a, .bool b =>
    if h : a = b then isTrue (by rw [h]) else isFalse (by simp [h])
  | .map a, .map b =>
    match Yaml.decEqPairs a b with
    | isTrue h => isTrue (by rw [h])
    | isFalse h => isFalse (by simp [h])
  | .seq a, .seq b =>
    match Yaml.decEqSeq a b with
    | isTrue h => isTrue (by rw [h])
    | isFalse h => isFalse (by simp [h])
  | .null, .str _ => isFalse (by simp)
  | .null, .int _ => isFalse (by simp)
  | .null, .bool _ => isFalse (by simp)
  | .null, .map _ => isFalse (by simp)
  | .null, .seq _ => isFalse (by simp)
  | .str _, .null => isFalse (by simp)
  | .str _, .int _ => isFalse (by simp)
  | .str _, .bool _ => isFalse (by simp)
  | .str _, .map _ => isFalse (by simp)
  | .str _, .seq _ => isFalse (by simp)
  | .int _, .null => isFalse (by simp)
  | .int _, .str _ => isFalse (by simp)
  | .int _, .bool _ => isFalse (by simp)
  | .int _, .map _ => isFalse (by simp)
  | .int _, .seq _ => isFalse (by simp)
  | .bool _, .null => isFalse (by simp)
  | .bool _, .str _ => isFalse (by simp)
  | .bool _, .int _ => isFalse (by simp)
  | .bool _, .map _ => isFalse (by simp)
  | .bool _, .seq _ => isFalse (by simp)
  | .map _, .null => isFalse (by simp)
  | .map _, .str _ => isFalse (by simp)
  | .map _, .int _ => isFalse (by simp)
  | .map _, .bool _ => isFalse (by simp)
  | .map _, .seq _ => isFalse (by simp)
  | .seq _, .null => isFalse (by simp)
  | .seq _, .str _ => isFalse (by simp)
  | .seq _, .int _ => isFalse (by simp)
  | .seq _, .bool _ => isFalse (by simp)
  | .seq _, .map _ => isFalse (by simp)

/-- Decidable equality of mapping entry lists. -/
def Yaml.decEqPairs : (a b : List (String × Yaml)) → Decidable (a = b)
  | [], [] => isTrue rfl
  | (k, v) :: r, (k2, v2) :: r2 =>
    if hk : k = k2 then
      match Yaml.decEq v v2 with
      | isTrue hv =>
        match Yaml.decEqPairs r r2 with
        | isTrue hr => isTrue (by rw [hk, hv, hr])
        | isFalse hr => isFalse (by simp [hr])
      | isFalse hv => isFalse (by simp [hv])
    else isFalse (by simp [hk])
  | [], _ :: _ => isFalse (by simp)
  | _ :: _, [] => isFalse (by simp)

/-- Decidable equality of sequence entry lists. -/
def Yaml.decEqSeq : (a b : List Yaml) → Decidable (a = b)
  | [], [] => isTrue rfl
  | v :: r, v2 :: r2 =>
    match Yaml.decEq v v2 with
    | isTrue hv =>
      match Yaml.decEqSeq r r2 with
      | isTrue hr => isTrue (by rw [hv, hr])
      | isFalse hr => isFalse (by simp [hr])
    | isFalse hv => isFalse (by simp [hv])
  | [], _ :: _ => isFalse (by simp)
  | _ :: _, [] => isFalse (by simp)
end

instance : DecidableEq Yaml := Yaml.decEq

/-- `type(x) in (str, int, bool, float, complex)` — the scalar test of
`merge_docs` (`utils.py` line 175/224).  Float and complex scalars are
outside the embedding; str, int and bool are the scalar types PyYAML
produces for the documents at hand. -/
def Yaml.isScalarPy : Yaml → Bool
  | .str _ => true
  | .int _ => true
  | .bool _ => true
  | _ => false

/-- `type(_overrides)()` — the empty value of the same Python type
(`utils.py` line 162): `dict()` is `{}`, `list()` is `[]`, `str()` is `""`,
`int()` is `0`, `bool()` is `False`, `NoneType()` is `None`. -/
def Yaml.emptyLike : Yaml → Yaml
  | .map _ => .map []
  | .seq _ => .seq []
  | .str _ => .str ""
  | .int _ => .int 0
  | .bool _ => .bool false
  | .null => .null

/-- Python `len(x)` on a YAML value; `TypeError` on `None`, numbers and
booleans. -/
def Yaml.pyLen : Yaml → Except String Nat
  | .seq xs => .ok xs.length
  | .map kvs => .ok kvs.length
  | .str s => .ok s.length
  | _ => .error "TypeError"

/-- Ordered-dict lookup: the value of the first (and, for Python dicts,
only) binding of `k`. -/
def lookupKey (kvs : List (String × Yaml)) (k : String) : Option Yaml :=
  match kvs with
  | [] => none
  | (k2, v) :: rest => if k2 = k then some v else lookupKey rest k

/-- `if key in doc: del doc[key]` — removes the binding of `k` when
present, keeps the order of the others. -/
def eraseKey (kvs : List (String × Yaml)) (k : String) : List (String × Yaml) :=
  match kvs with
  | [] => []
  | (k2, v) :: rest => if k2 = k then rest else (k2, v) :: eraseKey rest k

/-- `overrides[key]` for a string key: dict lookup (KeyError when absent),
TypeError when `overrides` is not a dict. -/
def ovSubscript (ov : Yaml) (k : String) : Except String Yaml :=
  match ov with
  | .map okvs =>
    match lookupKey okvs k with
    | some v => .ok v
    | none => .error "KeyError"
  | _ => .error "TypeError"

mutual
/-- `_merge_part(doc, overrides, base_overrides)` of `merge_docs`
(`utils.py` lines 152-240).  Dispatches on the type of the *source* node:
dicts iterate the keys of `base_overrides`, lists iterate its positions,
anything else raises `NotImplementedError`.  An empty override document
parses to `None` (Loader) and `""` (BaseLoader); iterating the empty
string runs the dict loop zero times, so such documents leave the source
unchanged.  A nonempty non-mapping `base_overrides` against a dict source
(impossible when both override dialects parse the same file) is modelled
as the `TypeError` Python raises when subscripting it. -/
def mergePart : Yaml → Yaml → Yaml → Except String Yaml
  | .map dkvs, ov, base =>
    match base with
    | .map bkvs =>
      match mergeMapGo dkvs ov bkvs with
      | .ok (res, rem) => .ok (.map (res ++ rem))
      | .error e => .error e
    | .str s => if s = "" then .ok (.map dkvs) else .error "TypeError"
    | .seq [] => .ok (.map dkvs)
    | _ => .error "TypeError"
  | .seq ds, ov, base =>
    match base with
    | .seq bs =>
      match ov with
      | .seq os =>
        match mergeSeqGo ds os bs with
        | .ok rs => .ok (.seq rs)
        | .error e => .error e
      | _ =>
        match bs with
        | [] =>
          match Yaml.pyLen ov with
          | .ok n => .ok (.seq (List.drop n ds))
          | .error e => .error e
        | _ :: _ => .error "TypeError"
    | .str s =>
      if s = "" then
        match Yaml.pyLen ov with
        | .ok n => .ok (.seq (List.drop n ds))
        | .error e => .error e
      else .error "TypeError"
    | _ => .error "TypeError"
  | _, _, _ => .error "NotImplementedError"
termination_by structural _doc _ov base => base

/-- The dict half of `_merge_part` (`utils.py` lines 166-197): one step
per key of `base_overrides`, threading the source dict through the
`del doc[key]` bookkeeping; returns the override-driven entries (in
override-key order) and the surviving source entries (carryovers). -/
def mergeMapGo : List (String × Yaml) → Yaml → List (String × Yaml) →
    Except String (List (String × Yaml) × List (String × Yaml))
  | dkvs, _, [] => .ok ([], dkvs)
  | dkvs, ov, (k, b) :: rest =>
    if b = .str "~" then
      -- Remove these from target
      mergeMapGo (eraseKey dkvs k) ov rest
    else
      match ovSubscript ov k with
      | .error e => .error e
      | .ok o =>
        if o = .str "" then
          -- Use original value (`res[key] = doc[key]`)
          match lookupKey dkvs k with
          | none => .error "KeyError"
          | some d =>
            match mergeMapGo (eraseKey dkvs k) ov rest with
            | .ok (res, rem) => .ok ((k, d) :: res, rem)
            | .error e => .error e
        else if o.isScalarPy then
          -- Simply overridden values
          match mergeMapGo (eraseKey dkvs k) ov rest with
          | .ok (res, rem) => .ok ((k, o) :: res, rem)
          | .error e => .error e
        else
          match lookupKey dkvs k with
          | none =>
            -- Added values: `_nest(None, ...)` starts from `type(ov)()`
            match mergePart (Yaml.emptyLike o) o b with
            | .ok v =>
              match mergeMapGo (eraseKey dkvs k) ov rest with
              | .ok (res, rem) => .ok ((k, v) :: res, rem)
              | .error e => .error e
            | .error e => .error e
          | some d =>
            -- Nesting: `_nest(doc[key], ...)`
            match mergePart (match d with | .null => Yaml.emptyLike o | x => x) o b with
            | .ok v =>
              match mergeMapGo (eraseKey dkvs k) ov rest with
              | .ok (res, rem) => .ok ((k, v) :: res, rem)
              | .error e => .error e
            | .error e => .error e

/-- The list half of `_merge_part` (`utils.py` lines 198-238): one step per
element of `base_overrides`, consuming the source positionally.  When the
source has run out the typed override value is appended verbatim (parsed
YAML never contains generator objects, so the `GeneratorType` test of line
204 is always false).  When `base_overrides` runs out, the source tail
from position `len(overrides)` onward is appended. -/
def mergeSeqGo : List Yaml → List Yaml → List Yaml → Except String (List Yaml)
  | ds, os, [] => .ok (List.drop os.length ds)
  | _, [], _ :: _ => .error "IndexError"
  | [], o :: os, _ :: bs =>
    -- Added values
    match mergeSeqGo [] os bs with
    | .ok rs => .ok (o :: rs)
    | .error e => .error e
  | d :: ds, o :: os, b :: bs =>
    if b = .str "~" then
      -- Remove these from target
      mergeSeqGo ds os bs
    else if b = .str "" then
      -- Use original value
      match mergeSeqGo ds os bs with
      | .ok rs => .ok (d :: rs)
      | .error e => .error e
    else if o.isScalarPy then
      -- Simply overridden values
      match mergeSeqGo ds os bs with
      | .ok rs => .ok (o :: rs)
      | .error e => .error e
    else
      match mergePart (match d with | .null => Yaml.emptyLike o | x => x) o b with
      | .ok v =>
        match mergeSeqGo ds os bs with
        | .ok rs => .ok (v :: rs)
        | .error e => .error e
      | .error e => .error e
end

/-- The document loop of `merge_docs` (`utils.py` lines 242-244):
`docs[i] = _merge_part(docs[i], overrides[i], base_overrides[i])`, raising
`IndexError` when either override stream is shorter than the source
stream; extra override documents are ignored. -/
def mergeDocsGo : List Yaml → List Yaml → List Yaml → Except String (List Yaml)
  | [], _, _ => .ok []
  | _ :: _, [], _ => .error "IndexError"
  | _ :: _, _ :: _, [] => .error "IndexError"
  | d :: ds, o :: os, b :: bs =>
    match mergePart d o b with
    | .ok r =>
      match mergeDocsGo ds os bs with
      | .ok rs => .ok (r :: rs)
      | .error e => .error e
    | .error e => .error e

/-- `merge_docs(src, overrides, base_overrides)` (`utils.py` lines
133-245).  The `deepcopy` of the source is the identity on values; the
result is the per-document merge. -/
def merge_docs (src overrides base_overrides : List Yaml) :
    Except String (List Yaml) :=
  mergeDocsGo src overrides base_overrides

instance {e a : Type} [DecidableEq e] [DecidableEq a] : DecidableEq (Except e a)
  | .ok x, .ok y => if h : x = y then isTrue (by rw [h]) else isFalse (by simp [h])
  | .error x, .error y =>
    if h : x = y then isTrue (by rw [h]) else isFalse (by simp [h])
  | .ok _, .error _ => isFalse (by simp)
  | .error _, .ok _ => isFalse (by simp)

/-! ## The component patcher (`component.py`) -/

/-- The slice of `Component` state read by the patch methods: `self.image`
(`None` until overridden), `self.tag` (initialised to `"latest"`) and
`self.image_pull_secrets` (a dict mapping registry host to secret name).
`none` models Python `None`; truthiness tests (`if self.image:`) are false
for `None` and for the empty string. -/
structure Component where
  image : Option String
  tag : Option String
  image_pull_secrets : List (String × String)

/-- Python truthiness of an optional string: `None` and `""` are falsy. -/
def pyTruthy : Option String → Bool
  | none => false
  | some s => !(s == "")

/-- Splitting a character list at every occurrence of `sep`, keeping
empty pieces (`"a::b"` gives `["a", "", "b"]`, `""` gives `[""]`). -/
def splitChunks (sep : Char) : List Char → List (List Char)
  | [] => [[]]
  | c :: rest =>
    match splitChunks sep rest with
    | [] => [[]]
    | g :: gs => if c = sep then [] :: g :: gs else (c :: g) :: gs

/-- Python `s.split(sep)` for a one-character separator (the code only
splits on `":"` and `"/"`): split at every occurrence, keeping empty
pieces. -/
def pySplit (s : String) (sep : Char) : List String :=
  (splitChunks sep s.data).map (fun cs => String.mk cs)

/-- Python `c in s` for a one-character needle: substring containment of a
single character is membership. -/
def pyContains (s : String) (c : Char) : Bool :=
  s.data.contains c

/-- Python `s.endswith(suffix)`. -/
def pyEndsWith (s suffix : String) : Bool :=
  List.isSuffixOf suffix.data s.data

/-- `m[k]` on a YAML node: dict lookup raising `KeyError` when the key is
absent and `TypeError` when the node is not a mapping. -/
def getItem (m : Yaml) (k : String) : Except String Yaml :=
  match m with
  | .map kvs =>
    match lookupKey kvs k with
    | some v => .ok v
    | none => .error "KeyError"
  | _ => .error "TypeError"

/-- Ordered-dict assignment `m[k] = v`: replaces in place when the key
exists, appends otherwise. -/
def setKey (kvs : List (String × Yaml)) (k : String) (v : Yaml) :
    List (String × Yaml) :=
  match kvs with
  | [] => [(k, v)]
  | (k2, w) :: rest =>
    if k2 = k then (k2, v) :: rest else (k2, w) :: setKey rest k v

/-- `m[k] = v` on a YAML node. -/
def setItem (m : Yaml) (k : String) (v : Yaml) : Except String Yaml :=
  match m with
  | .map kvs => .ok (.map (setKey kvs k v))
  | _ => .error "TypeError"

/-- `if self.image: image = self.image` — keep the fallback unless the
override is truthy (`component.py` lines 392-397). -/
def pickOverride (ov : Option String) (fallback : String) : String :=
  match ov with
  | some v => if v == "" then fallback else v
  | none => fallback

/-- The body of the loop of `Component._patch_containers` (`component.py`
lines 390-398): `image, tag = container["image"].split(":")` (a two-value
unpacking, raising `ValueError` unless the split yields exactly two
parts), the truthiness-guarded replacements, and the recomposition
`f"IMAGE:TAG"`. -/
def patchOneContainer (c : Component) (cont : Yaml) : Except String Yaml :=
  match getItem cont "image" with
  | .error e => .error e
  | .ok img =>
    match img with
    | .str s =>
      match pySplit s ':' with
      | [image0, tag0] =>
        setItem cont "image"
          (.str (pickOverride c.image image0 ++ ":" ++ pickOverride c.tag tag0))
      | _ => .error "ValueError"
    | _ => .error "AttributeError"

/-- Helper: patch every container in order, propagating the first
exception. -/
def patchContainersList (c : Component) : List Yaml → Except String (List Yaml)
  | [] => .ok []
  | cont :: rest =>
    match patchOneContainer c cont with
    | .error e => .error e
    | .ok cont2 =>
      match patchContainersList c rest with
      | .error e => .error e
      | .ok rest2 => .ok (cont2 :: rest2)

/-- `Component._patch_containers(doc)` (`component.py` lines 387-398):
walks `doc["spec"]["template"]["spec"]["containers"]` and rewrites each
container image.  The Python code mutates the document; the model returns
the updated document. -/
def _patch_containers (c : Component) (doc : Yaml) : Except String Yaml :=
  match getItem doc "spec" with
  | .error e => .error e
  | .ok spec =>
  match getItem spec "template" with
  | .error e => .error e
  | .ok tpl =>
  match getItem tpl "spec" with
  | .error e => .error e
  | .ok tplSpec =>
  match getItem tplSpec "containers" with
  | .error e => .error e
  | .ok containers =>
  match containers with
  | .seq cs =>
    (match patchContainersList c cs with
     | .error e => .error e
     | .ok cs2 =>
       match setItem tplSpec "containers" (.seq cs2) with
       | .error e => .error e
       | .ok tplSpec2 =>
       match setItem tpl "spec" tplSpec2 with
       | .error e => .error e
       | .ok tpl2 =>
       match setItem spec "template" tpl2 with
       | .error e => .error e
       | .ok spec2 => setItem doc "spec" spec2)
  | _ => .error "TypeError"

/-- String lookup in a Python dict modelled as an association list. -/
def lookupStr (kvs : List (String × String)) (k : String) : Option String :=
  match kvs with
  | [] => none
  | (k2, v) :: rest => if k2 = k then some v else lookupStr rest k

/-- The loop of `Component._patch_image_pull_secrets` (`component.py`
lines 412-414): `image, _ = container["image"].split(":")` on the first
container, then `break`; when there is no container the initial `""` is
kept.  The two-value unpacking raises `ValueError` unless the split gives
exactly two parts. -/
def firstContainerRef (containers : Yaml) : Except String String :=
  match containers with
  | .seq [] => .ok ""
  | .seq (c0 :: _) =>
    (match getItem c0 "image" with
     | .error e => .error e
     | .ok (.str s) =>
       match pySplit s ':' with
       | [image0, _] => .ok image0
       | _ => .error "ValueError"
     | .ok _ => .error "AttributeError")
  | _ => .error "TypeError"

/-- `component.py` lines 408-414: the effective image ref is `self.image`
when truthy, otherwise the first container's ref. -/
def effectiveImage (c : Component) (containers : Yaml) : Except String String :=
  if pyTruthy c.image then .ok (c.image.getD "") else firstContainerRef containers

/-- `Component._patch_image_pull_secrets(doc)` (`component.py` lines
405-422): pick the effective image ref; when the ref contains `/`,
`host, _ = image.split("/")` (two-value unpacking, `ValueError` when the
split does not yield exactly two parts); when the host is a key of
`image_pull_secrets`, set `spec.template.spec.imagePullSecrets` to the
one-element list. -/
def _patch_image_pull_secrets (c : Component) (doc : Yaml) : Except String Yaml :=
  match getItem doc "spec" with
  | .error e => .error e
  | .ok spec =>
  match getItem spec "template" with
  | .error e => .error e
  | .ok tpl =>
  match getItem tpl "spec" with
  | .error e => .error e
  | .ok tplSpec =>
  match getItem tplSpec "containers" with
  | .error e => .error e
  | .ok containers =>
  match effectiveImage c containers with
  | .error e => .error e
  | .ok image =>
  if pyContains image '/' then
    match pySplit image '/' with
    | [host, _] =>
      (match lookupStr c.image_pull_secrets host with
       | some secret =>
         (match setItem tplSpec "imagePullSecrets"
             (.seq [.map [("name", .str secret)]]) with
          | .error e => .error e
          | .ok tplSpec2 =>
          match setItem tpl "spec" tplSpec2 with
          | .error e => .error e
          | .ok tpl2 =>
          match setItem spec "template" tpl2 with
          | .error e => .error e
          | .ok spec2 => setItem doc "spec" spec2)
       | none => .ok doc)
    | _ => .error "ValueError"
  else .ok doc

/-! ## Release operations -/

/-- The delete loop of `Component._do_release` (`component.py` lines
205-207): for each entry of `obsolete_kube_configs` the path passed to
`kubectl delete -f` is looked up in `self.kube_configs` — `KeyError`
when the name is not a prepared manifest.  The path stored in
`obsolete_kube_configs` itself is never read. -/
def doReleaseDeletes (kube_configs : List (String × String)) :
    List (String × String) → Bool → Except String (List (List String))
  | [], _ => .ok []
  | (name, _obsPath) :: rest, dry_run =>
    match lookupStr kube_configs name with
    | none => .error "KeyError"
    | some path =>
      match doReleaseDeletes kube_configs rest dry_run with
      | .error e => .error e
      | .ok cmds =>
        .ok ((if dry_run then [] else [["kubectl", "delete", "-f", path]]) ++ cmds)

/-- `Component._do_release(ctx, dry_run)` (`component.py` lines 199-207):
apply every prepared manifest, then delete every obsolete one; the result
is the sequence of `kubectl` invocations issued (none in dry-run). -/
def _do_release (kube_configs obsolete_kube_configs : List (String × String))
    (dry_run : Bool) : Except String (List (List String)) :=
  let applies :=
    if dry_run then []
    else kube_configs.map (fun p => ["kubectl", "apply", "-f", p.2])
  match doReleaseDeletes kube_configs obsolete_kube_configs dry_run with
  | .error e => .error e
  | .ok deletes => .ok (applies ++ deletes)

/-- Modelled from the spec: the constant `UNSEALED_SECRETS_EXTENSION`
imported from `devops/settings.py` is absent from the source snapshot;
section 6 of the specification names the unsealed files
`envs/<env>/secrets/*.unsealed.yaml`, and `seal_secrets` builds the sealed
name by stripping this extension and appending `.yaml`. -/
def UNSEALED_SECRETS_EXTENSION : String := ".unsealed.yaml"

/-- Python string comparison `a <= b` on character lists: codepoint
lexicographic. -/
def chListLe : List Char → List Char → Bool
  | [], _ => true
  | _ :: _, [] => false
  | a :: as, b :: bs =>
    if a.toNat < b.toNat then true
    else if b.toNat < a.toNat then false
    else chListLe as bs

/-- Python `a <= b` on strings: codepoint lexicographic order (what
`sorted` uses on the path names of a directory listing). -/
def pyStrLe (a b : String) : Bool := chListLe a.data b.data

/-- Python `sorted` on filenames: ascending lexicographic order (paths in
one directory compare by their string form; stability is irrelevant for
the distinct names a directory listing yields). -/
def sortedAsc (xs : List String) : List String :=
  xs.insertionSort (fun a b => pyStrLe a b = true)

/-- Python `sorted(..., reverse=True)` on filenames. -/
def sortedDesc (xs : List String) : List String :=
  xs.insertionSort (fun a b => pyStrLe b a = true)

/-- `release_env(ctx, env, dry_run)` (`tasks.py` lines 103-131) as the
sequence of `kubectl` invocations issued: apply the sorted `*.yaml` files
of `envs/<env>/secrets` that do not end in `UNSEALED_SECRETS_EXTENSION`,
then delete the reverse-sorted `*.yaml` files of the `obsolete`
subdirectory; in dry-run each step only logs. -/
def release_env (secretFiles obsoleteFiles : List String) (dry_run : Bool) :
    List (List String) :=
  let secrets := sortedAsc
    (secretFiles.filter (fun f => !(pyEndsWith f UNSEALED_SECRETS_EXTENSION)))
  let applies :=
    if dry_run then [] else secrets.map (fun f => ["kubectl", "apply", "-f", f])
  let olds := sortedDesc obsoleteFiles
  let deletes :=
    if dry_run then [] else olds.map (fun f => ["kubectl", "delete", "-f", f])
  applies ++ deletes

/-! ## The process runner (`utils.py` lines 52-93) -/

/-- What the child process does: run to completion with an exit status and
captured output bytes, or exceed the configured timeout. -/
inductive ChildResult where
  | completed (returncode : Int) (stdout stderr : List Nat) : ChildResult
  | timedOut : ChildResult
  deriving DecidableEq, Repr

/-- `subprocess.CompletedProcess` as returned by `run`: when `stream` is
set, stdio is inherited and the captured fields are `None`. -/
structure CompletedProcess where
  returncode : Int
  stdout : Option (List Nat)
  stderr : Option (List Nat)
  deriving DecidableEq, Repr

/-- The failures `run` can propagate: `subprocess.CalledProcessError`
(the spec's *ProcessFailure*, carrying the captured streams) and
`subprocess.TimeoutExpired` (the spec's *ProcessTimeout*). -/
inductive RunError where
  | processFailure (returncode : Int) (stdout stderr : Option (List Nat)) : RunError
  | processTimeout : RunError
  deriving DecidableEq, Repr

/-- `run(args, check=check, stream=stream, ...)` (`utils.py` lines
52-93): capture stdout/stderr unless streaming, delegate the `check`
semantics to `subprocess.run` (which raises `CalledProcessError` exactly
when `check` is set and the exit status is nonzero), re-raise failures
after logging, return the completed process otherwise. -/
def run (child : ChildResult) (check stream : Bool) :
    Except RunError CompletedProcess :=
  match child with
  | .timedOut => .error .processTimeout
  | .completed rc out err =>
    let so := if stream then none else some out
    let se := if stream then none else some err
    if check ∧ rc ≠ 0 then .error (.processFailure rc so se)
    else .ok ⟨rc, so, se⟩

/-! ## Concrete documents (from the repository's test suite) -/

/-- The test Deployment of `test_component.py`, parameterised by the
container image string. -/
def deploymentWithImage (img : String) : Yaml :=
  .map [
    ("apiVersion", .str "apps/v1"), ("kind", .str "Deployment"),
    ("metadata", .map [("name", .str "test-deployment")]),
    ("spec", .map [
      ("replicas", .int 2),
      ("selector", .map [("matchLabels", .map [("app", .str "test-deployment")])]),
      ("template", .map [
        ("metadata", .map [("labels", .map [("app", .str "test-deployment")])]),
        ("spec", .map [
          ("containers", .seq [
            .map [("name", .str "test-deployment"),
                  ("imagePullPolicy", .str "IfNotPresent"),
                  ("image", .str img)]])])])])]

/-- The `DEPLOYMENT` document of `test_component.py`. -/
def testDeployment : Yaml :=
  deploymentWithImage "imagined.registry.tld/myproj-service-test-deployment:latest"

/-- Document 2 of the `MERGE_TEST` stream of `test_utils.py`. -/
def srcDoc2 : Yaml := .map [
  ("apiVersion", .str "v1"), ("kind", .str "ConfigMap"),
  ("metadata", .map [("name", .str "myproj-settings")]),
  ("data", .map [("MY_SETTING", .str "foo")])]

/-- Document 2 of `MERGE_CHANGES` (identical under both loaders: all
scalars are quoted strings). -/
def ovDoc2 : Yaml := .map [
  ("data", .map [("MY_SETTING", .str "bar"), ("DEBUG", .str "True")])]

/-- The merge of `srcDoc2` with `ovDoc2`: override keys first, then the
carried-over source keys. -/
def expDoc2 : Yaml := .map [
  ("data", .map [("MY_SETTING", .str "bar"), ("DEBUG", .str "True")]),
  ("apiVersion", .str "v1"), ("kind", .str "ConfigMap"),
  ("metadata", .map [("name", .str "myproj-settings")])]

/-- A container entry of the test Deployment stream. -/
def mkContainer (nm pol img : String) : Yaml :=
  .map [("name", .str nm), ("imagePullPolicy", .str pol), ("image", .str img)]

/-- The `volumeMounts` value of document 3 of `MERGE_CHANGES`. -/
def vmSeq : Yaml :=
  .seq [.map [("mountPath", .str "/var/run/docker.sock"),
              ("name", .str "docker-volume")]]

/-- The appended volume of document 3 of `MERGE_CHANGES`. -/
def dockerVol : Yaml :=
  .map [("name", .str "docker-volume"),
        ("hostPath", .map [("path", .str "/var/run/docker.sock")])]

/-- Document 3 of `MERGE_TEST`: the big Deployment. -/
def srcDoc3 : Yaml := .map [
  ("apiVersion", .str "apps/v1"), ("kind", .str "Deployment"),
  ("metadata", .map [("name", .str "big-deployment")]),
  ("spec", .map [
    ("replicas", .int 2),
    ("selector", .map [("matchLabels", .map [("app", .str "big-deployment")])]),
    ("template", .map [
      ("metadata", .map [("labels", .map [("app", .str "big-deployment")])]),
      ("spec", .map [
        ("containers", .seq [
          mkContainer "first-container" "IfNotPresent" "first-container:latest",
          mkContainer "second-container" "IfNotPresent" "second-container:latest",
          mkContainer "third-container" "Never" "third-container:latest"]),
        ("volumes", .seq [
          .map [("name", .str "some-data"),
                ("persistentVolumeClaim",
                 .map [("claimName", .str "some-data")])]])])])])]

/-- Document 3 of `MERGE_CHANGES` under `yaml.Loader`: the empty sequence
item is `None`, the unquoted boolean is `true`. -/
def ovDoc3typed : Yaml := .map [("spec", .map [("template", .map [("spec", .map [
  ("containers", .seq [
    .null,
    .map [("volumeMounts", vmSeq)],
    .map [("securityContext", .map [("allowPrivilegeEscalation", .bool true)])]]),
  ("volumes", .seq [
    .map [("persistentVolumeClaim", .null)],
    dockerVol])])])])]

/-- Document 3 of `MERGE_CHANGES` under `yaml.BaseLoader`: the empty item
is the literal `""`, the tilde the literal `"~"`, the boolean the literal
`"true"`. -/
def ovDoc3base : Yaml := .map [("spec", .map [("template", .map [("spec", .map [
  ("containers", .seq [
    .str "",
    .map [("volumeMounts", vmSeq)],
    .map [("securityContext", .map [("allowPrivilegeEscalation", .str "true")])]]),
  ("volumes", .seq [
    .map [("persistentVolumeClaim", .str "~")],
    dockerVol])])])])]

/-- Document 3 of `MERGE_EXPECTED`, with merged-mapping keys in the order
the code produces (override keys first, carryovers after). -/
def expDoc3 : Yaml := .map [
  ("spec", .map [
    ("template", .map [
      ("spec", .map [
        ("containers", .seq [
          mkContainer "first-container" "IfNotPresent" "first-container:latest",
          .map [("volumeMounts", vmSeq),
                ("name", .str "second-container"),
                ("imagePullPolicy", .str "IfNotPresent"),
                ("image", .str "second-container:latest")],
          .map [("securityContext",
                 .map [("allowPrivilegeEscalation", .bool true)]),
                ("name", .str "third-container"),
                ("imagePullPolicy", .str "Never"),
                ("image", .str "third-container:latest")]]),
        ("volumes", .seq [
          .map [("name", .str "some-data")],
          dockerVol])]),
      ("metadata", .map [("labels", .map [("app", .str "big-deployment")])])]),
    ("replicas", .int 2),
    ("selector", .map [("matchLabels", .map [("app", .str "big-deployment")])])]),
  ("apiVersion", .str "apps/v1"), ("kind", .str "Deployment"),
  ("metadata", .map [("name", .str "big-deployment")])]

/-! ## Structural predicates for the idempotence analysis -/

mutual
/-- No sequence node anywhere in the value. -/
def Yaml.seqFree : Yaml → Bool
  | .seq _ => false
  | .map kvs => Yaml.seqFreePairs kvs
  | _ => true

/-- `seqFree` over mapping entries. -/
def Yaml.seqFreePairs : List (String × Yaml) → Bool
  | [] => true
  | (_, v) :: rest => Yaml.seqFree v && Yaml.seqFreePairs rest
end

mutual
/-- Every mapping in the value has distinct keys (true of every document
PyYAML produces: Python dicts cannot hold a key twice). -/
def Yaml.mapsNodup : Yaml → Bool
  | .map kvs => decide (kvs.map Prod.fst).Nodup && Yaml.mapsNodupPairs kvs
  | .seq xs => Yaml.mapsNodupSeq xs
  | _ => true

/-- `mapsNodup` over mapping entries. -/
def Yaml.mapsNodupPairs : List (String × Yaml) → Bool
  | [] => true
  | (_, v) :: rest => Yaml.mapsNodup v && Yaml.mapsNodupPairs rest

/-- `mapsNodup` over sequence entries. -/
def Yaml.mapsNodupSeq : List Yaml → Bool
  | [] => true
  | v :: rest => Yaml.mapsNodup v && Yaml.mapsNodupSeq rest
end

mutual
/-- The typed (`yaml.Loader`) and literal (`yaml.BaseLoader`) parses of one
override file correspond: literal scalars are strings, an empty raw scalar
types as `None`, and containers align pointwise. -/
def dialectMatch : Yaml → Yaml → Bool
  | .map okvs, .map bkvs => dialectMatchPairs okvs bkvs
  | .seq os, .seq bs => dialectMatchSeq os bs
  | .null, .str _ => true
  | .str _, .str t => !(t == "")
  | .int _, .str t => !(t == "")
  | .bool _, .str t => !(t == "")
  | _, _ => false

/-- `dialectMatch` over aligned mapping entries. -/
def dialectMatchPairs : List (String × Yaml) → List (String × Yaml) → Bool
  | [], [] => true
  | (k, o) :: os, (k2, b) :: bs =>
    k == k2 && dialectMatch o b && dialectMatchPairs os bs
  | _, _ => false

/-- `dialectMatch` over aligned sequence entries. -/
def dialectMatchSeq : List Yaml → List Yaml → Bool
  | [], [] => true
  | o :: os, b :: bs => dialectMatch o b && dialectMatchSeq os bs
  | _, _ => false
end

/-! ### Secrets: base64 encode/decode (`tasks.py` lines 434-479)

`base64_decode_secrets` / `base64_encode_secrets` parse a Secret
document, transform every non-`None` value of its `data` mapping with
`base64.b64decode(v.encode("utf-8")).decode("utf-8")` (resp.
`b64encode`), and re-serialise.  The YAML load/dump pair is modelled at
the data level (the `data` mapping of the Secret), and the CPython
`bytes.encode`/`decode` and `base64` library calls are modelled by the
UTF-8 and RFC 4648 base64 codecs below; `b64decode` is modelled on its
canonical domain (the range of `b64encode`), which is the domain
exercised by the round-trip.  The final
`stream.getvalue().rstrip() + "\n"` of both functions is `finalizeDump`. -/

/-- UTF-8 encoding of one Unicode scalar value, as a list of bytes
(CPython `str.encode("utf-8")`, one code point). -/
def utf8EncodeChar (n : Nat) : List Nat :=
  if n < 0x80 then [n]
  else if n < 0x800 then [0xC0 + n / 64, 0x80 + n % 64]
  else if n < 0x10000 then [0xE0 + n / 4096, 0x80 + n / 64 % 64, 0x80 + n % 64]
  else [0xF0 + n / 262144, 0x80 + n / 4096 % 64, 0x80 + n / 64 % 64, 0x80 + n % 64]

/-- UTF-8 encoding of a string (CPython `str.encode("utf-8")`). -/
def utf8Encode : List Char → List Nat
  | [] => []
  | c :: cs => utf8EncodeChar c.toNat ++ utf8Encode cs

mutual
/-- UTF-8 decoding of a byte list (CPython `bytes.decode("utf-8")`):
strict, rejecting truncated sequences, bad continuation bytes, overlong
encodings, surrogates and out-of-range code points.  The multi-byte
sequences are consumed one byte per helper so the recursion stays
structural in the list. -/
def utf8Decode : List Nat → Option (List Char)
  | [] => some []
  | b0 :: rest =>
    if b0 < 0x80 then
      (utf8Decode rest).map (fun cs => Char.ofNat b0 :: cs)
    else utf8DecodeTail1 b0 rest
termination_by structural l => l

/-- Second byte of a multi-byte UTF-8 sequence led by `b0`. -/
def utf8DecodeTail1 (b0 : Nat) : List Nat → Option (List Char)
  | [] => none
  | b1 :: rest2 =>
    if b0 < 0xE0 then
      if 0xC2 ≤ b0 ∧ 0x80 ≤ b1 ∧ b1 < 0xC0 then
        (utf8Decode rest2).map
          (fun cs => Char.ofNat ((b0 - 0xC0) * 64 + (b1 - 0x80)) :: cs)
      else none
    else utf8DecodeTail2 b0 b1 rest2
termination_by structural l => l

/-- Third byte of a 3- or 4-byte UTF-8 sequence. -/
def utf8DecodeTail2 (b0 b1 : Nat) : List Nat → Option (List Char)
  | [] => none
  | b2 :: rest3 =>
    if b0 < 0xF0 then
      if (0x80 ≤ b1 ∧ b1 < 0xC0) ∧ (0x80 ≤ b2 ∧ b2 < 0xC0)
          ∧ 0x800 ≤ (b0 - 0xE0) * 4096 + (b1 - 0x80) * 64 + (b2 - 0x80)
          ∧ ((b0 - 0xE0) * 4096 + (b1 - 0x80) * 64 + (b2 - 0x80) < 0xD800
             ∨ 0xE000 ≤ (b0 - 0xE0) * 4096 + (b1 - 0x80) * 64 + (b2 - 0x80)) then
        (utf8Decode rest3).map
          (fun cs => Char.ofNat ((b0 - 0xE0) * 4096 + (b1 - 0x80) * 64 + (b2 - 0x80)) :: cs)
      else none
    else utf8DecodeTail3 b0 b1 b2 rest3
termination_by structural l => l

/-- Fourth byte of a 4-byte UTF-8 sequence. -/
def utf8DecodeTail3 (b0 b1 b2 : Nat) : List Nat → Option (List Char)
  | [] => none
  | b3 :: rest4 =>
    if b0 < 0xF5 then
      if (0x80 ≤ b1 ∧ b1 < 0xC0) ∧ (0x80 ≤ b2 ∧ b2 < 0xC0) ∧ (0x80 ≤ b3 ∧ b3 < 0xC0)
          ∧ 0x10000 ≤ (b0 - 0xF0) * 262144 + (b1 - 0x80) * 4096 + (b2 - 0x80) * 64 + (b3 - 0x80)
          ∧ (b0 - 0xF0) * 262144 + (b1 - 0x80) * 4096 + (b2 - 0x80) * 64 + (b3 - 0x80) < 0x110000 then
        (utf8Decode rest4).map
          (fun cs =>
            Char.ofNat ((b0 - 0xF0) * 262144 + (b1 - 0x80) * 4096 + (b2 - 0x80) * 64 + (b3 - 0x80)) :: cs)
      else none
    else none
termination_by structural l => l
end

/-- The RFC 4648 base64 alphabet, index to character. -/
def b64Char (n : Nat) : Char :=
  if n < 26 then Char.ofNat (65 + n)
  else if n < 52 then Char.ofNat (97 + (n - 26))
  else if n < 62 then Char.ofNat (48 + (n - 52))
  else if n = 62 then Char.ofNat 43
  else Char.ofNat 47

/-- The RFC 4648 base64 alphabet, character to index. -/
def b64Index (c : Char) : Option Nat :=
  if 65 ≤ c.toNat ∧ c.toNat ≤ 90 then some (c.toNat - 65)
  else if 97 ≤ c.toNat ∧ c.toNat ≤ 122 then some (c.toNat - 97 + 26)
  else if 48 ≤ c.toNat ∧ c.toNat ≤ 57 then some (c.toNat - 48 + 52)
  else if c.toNat = 43 then some 62
  else if c.toNat = 47 then some 63
  else none

/-- `base64.b64encode` on a byte list: three bytes per four characters,
`=`-padded final quantum. -/
def b64EncodeBytes : List Nat → List Char
  | [] => []
  | [b0] => [b64Char (b0 / 4), b64Char (b0 % 4 * 16), '=', '=']
  | [b0, b1] =>
    [b64Char (b0 / 4), b64Char (b0 % 4 * 16 + b1 / 16), b64Char (b1 % 16 * 4), '=']
  | b0 :: b1 :: b2 :: bs =>
    b64Char (b0 / 4) :: b64Char (b0 % 4 * 16 + b1 / 16)
      :: b64Char (b1 % 16 * 4 + b2 / 64) :: b64Char (b2 % 64) :: b64EncodeBytes bs

/-- One base64 quantum of four characters, as bytes; `last` says whether
this quantum ends the input, since `=`-padding is only legal there. -/
def b64Quad (c0 c1 c2 c3 : Char) (last : Bool) : Option (List Nat) :=
  (b64Index c0).bind fun n0 =>
  (b64Index c1).bind fun n1 =>
  if c2 = '=' then
    if c3 = '=' ∧ last = true ∧ n1 % 16 = 0 then some [n0 * 4 + n1 / 16] else none
  else
    (b64Index c2).bind fun n2 =>
    if c3 = '=' then
      if last = true ∧ n2 % 4 = 0 then
        some [n0 * 4 + n1 / 16, n1 % 16 * 16 + n2 / 4]
      else none
    else
      (b64Index c3).map fun n3 =>
      [n0 * 4 + n1 / 16, n1 % 16 * 16 + n2 / 4, n2 % 4 * 64 + n3]

/-- `base64.b64decode` on its canonical domain: four characters per
three bytes, `=`-padding only in the final quantum, zero padding bits. -/
def b64DecodeChars : List Char → Option (List Nat)
  | [] => some []
  | c0 :: c1 :: c2 :: c3 :: cs =>
    match b64Quad c0 c1 c2 c3 cs.isEmpty with
    | some bytes => (b64DecodeChars cs).map (fun bs => bytes ++ bs)
    | none => none
  | _ => none

/-- One `data` value through `base64.b64encode(value.encode("utf-8")).decode("utf-8")`
(`tasks.py` line 472). -/
def encodeValue (v : String) : String :=
  ⟨b64EncodeBytes (utf8Encode v.data)⟩

/-- One `data` value through `base64.b64decode(value.encode("utf-8")).decode("utf-8")`
(`tasks.py` line 445); base64 characters are their own UTF-8 bytes. -/
def decodeValue (v : String) : Option String :=
  match b64DecodeChars v.data with
  | some bs =>
    match utf8Decode bs with
    | some cs => some ⟨cs⟩
    | none => none
  | none => none

/-- The `data` mapping of a Secret document: keys to optional string
values (`None` entries stay `None`). -/
abbrev SecretData : Type := List (String × Option String)

/-- `base64_encode_secrets` (`tasks.py` lines 461-479) on the `data`
mapping: every non-`None` value is base64-encoded in place (the
`PlainScalarString` wrapper only affects quoting style, not the value). -/
def base64_encode_secrets (d : SecretData) : SecretData :=
  d.map (fun p => (p.1, p.2.map encodeValue))

/-- `base64_decode_secrets` (`tasks.py` lines 434-458) on the `data`
mapping: every non-`None` value is base64-decoded in place, failing on
invalid base64 or invalid UTF-8 (the `LiteralScalarString` wrapper for
values containing a newline only affects presentation, not the value). -/
def base64_decode_secrets : SecretData → Option SecretData
  | [] => some []
  | (k, none) :: rest => (base64_decode_secrets rest).map (fun d => (k, none) :: d)
  | (k, some v) :: rest =>
    match decodeValue v with
    | some w => (base64_decode_secrets rest).map (fun d => (k, some w) :: d)
    | none => none

/-- The whitespace set of CPython `str.rstrip()` (ASCII part; the
values at hand are YAML output). -/
def isPySpace (c : Char) : Bool :=
  c.toNat = 32 ∨ c.toNat = 9 ∨ c.toNat = 10 ∨ c.toNat = 13 ∨ c.toNat = 11 ∨ c.toNat = 12

/-- `str.rstrip()` on a character list. -/
def pyRstrip (s : List Char) : List Char :=
  (s.reverse.dropWhile isPySpace).reverse

/-- `stream.getvalue().rstrip() + "\n"` (`tasks.py` lines 457 and 479). -/
def finalizeDump (s : List Char) : List Char :=
  pyRstrip s ++ [Char.ofNat 10]

/-! ### Heap embedding of `merge_docs` (`utils.py` lines 133-245)

For the frame claim the merge is embedded a second time against an
explicit heap: mutable containers (dicts, lists) live at numbered
addresses, scalars are immediate values.  `deepcopy` allocates fresh
copies, `del doc[key]` is a store write at the copy's address, `res`
containers are allocated when complete, and the `res.append(value_override)`
branch for positions beyond the source length stores the *reference* to
the override container, exactly as CPython does.  The dialect semantics
(the `"~"`/`""`/scalar/nest dispatch) mirrors the value-level embedding
`mergePart` above, which is validated against the repository's tests. -/

/-- A Python value: scalars are immediate, containers are references. -/
inductive HVal where
  | null : HVal
  | str (s : String) : HVal
  | int (n : Int) : HVal
  | bool (b : Bool) : HVal
  | ref (a : Nat) : HVal
deriving DecidableEq

/-- A heap node: the contents of one mutable container. -/
inductive HNode where
  | hmap (kvs : List (String × HVal)) : HNode
  | hseq (vs : List HVal) : HNode
deriving DecidableEq

/-- The object store: addresses to container contents, plus the next
fresh address. -/
structure Heap where
  store : List (Nat × HNode)
  next : Nat
deriving DecidableEq

/-- First binding of an address in a store. -/
def lookupStore : List (Nat × HNode) → Nat → Option HNode
  | [], _ => none
  | (k, nd) :: rest, a => if k = a then some nd else lookupStore rest a

/-- Dereference an address. -/
def lookupH (h : Heap) (a : Nat) : Option HNode :=
  lookupStore h.store a

/-- Overwrite the node at an existing address. -/
def writeStore : List (Nat × HNode) → Nat → HNode → List (Nat × HNode)
  | [], _, _ => []
  | (k, nd0) :: rest, a, nd =>
    if k = a then (a, nd) :: rest else (k, nd0) :: writeStore rest a nd

/-- In-place mutation of one container. -/
def writeH (h : Heap) (a : Nat) (nd : HNode) : Heap :=
  ⟨writeStore h.store a nd, h.next⟩

/-- Allocate a new container at the next fresh address. -/
def allocH (h : Heap) (nd : HNode) : Heap × Nat :=
  (⟨(h.next, nd) :: h.store, h.next + 1⟩, h.next)

/-- Ordered-dict lookup over heap values. -/
def lookupKeyH (kvs : List (String × HVal)) (k : String) : Option HVal :=
  match kvs with
  | [] => none
  | (k2, v) :: rest => if k2 = k then some v else lookupKeyH rest k

/-- `del doc[key]` over heap values. -/
def eraseKeyH (kvs : List (String × HVal)) (k : String) : List (String × HVal) :=
  match kvs with
  | [] => []
  | (k2, v) :: rest => if k2 = k then rest else (k2, v) :: eraseKeyH rest k

/-- `type(x) in (str, int, bool, float, complex)` over heap values:
containers are references, `None` is not a scalar. -/
def isScalarH : HVal → Bool
  | .str _ => true
  | .int _ => true
  | .bool _ => true
  | _ => false

/-- `overrides[key]` over heap values: dict lookup (KeyError when
absent), TypeError on anything that is not a dict. -/
def hOvSub (h : Heap) (ov : HVal) (k : String) : Except String HVal :=
  match ov with
  | .ref o =>
    match lookupH h o with
    | some (.hmap okvs) =>
      match lookupKeyH okvs k with
      | some v => .ok v
      | none => .error "KeyError"
    | some (.hseq _) => .error "TypeError"
    | none => .error "InternalError"
  | _ => .error "TypeError"

/-- `len(x)` over heap values. -/
def hPyLen (h : Heap) (v : HVal) : Except String Nat :=
  match v with
  | .str s => .ok s.length
  | .ref a =>
    match lookupH h a with
    | some (.hmap kvs) => .ok kvs.length
    | some (.hseq vs) => .ok vs.length
    | none => .error "InternalError"
  | _ => .error "TypeError"

mutual
/-- `copy.deepcopy` over the heap (`utils.py` line 150): containers are
re-allocated recursively at fresh addresses, scalars pass through.  The
fuel bounds the recursion depth; YAML-loaded documents are finite, so a
fuel beyond the document depth never runs out. -/
def hCopy : Nat → Heap → HVal → Except String (Heap × HVal)
  | 0, _, _ => .error "RecursionError"
  | fuel + 1, h, v =>
    match v with
    | .ref a =>
      match lookupH h a with
      | some (.hmap kvs) =>
        match hCopyPairs fuel h kvs with
        | .ok (h2, kvs2) =>
          match allocH h2 (.hmap kvs2) with
          | (h3, r) => .ok (h3, .ref r)
        | .error e => .error e
      | some (.hseq vs) =>
        match hCopySeq fuel h vs with
        | .ok (h2, vs2) =>
          match allocH h2 (.hseq vs2) with
          | (h3, r) => .ok (h3, .ref r)
        | .error e => .error e
      | none => .error "InternalError"
    | x => .ok (h, x)
termination_by structural fuel => fuel

/-- `deepcopy` of dict entries. -/
def hCopyPairs : Nat → Heap → List (String × HVal) →
    Except String (Heap × List (String × HVal))
  | 0, _, _ => .error "RecursionError"
  | _ + 1, h, [] => .ok (h, [])
  | fuel + 1, h, (k, v) :: rest =>
    match hCopy fuel h v with
    | .ok (h2, v2) =>
      match hCopyPairs fuel h2 rest with
      | .ok (h3, rest2) => .ok (h3, (k, v2) :: rest2)
      | .error e => .error e
    | .error e => .error e
termination_by structural fuel => fuel

/-- `deepcopy` of list elements. -/
def hCopySeq : Nat → Heap → List HVal → Except String (Heap × List HVal)
  | 0, _, _ => .error "RecursionError"
  | _ + 1, h, [] => .ok (h, [])
  | fuel + 1, h, v :: rest =>
    match hCopy fuel h v with
    | .ok (h2, v2) =>
      match hCopySeq fuel h2 rest with
      | .ok (h3, rest2) => .ok (h3, v2 :: rest2)
      | .error e => .error e
    | .error e => .error e
termination_by structural fuel => fuel
end

mutual
/-- `_merge_part` over the heap (`utils.py` lines 152-240): dispatches on
the type of the source node; dicts iterate `base_overrides` keys with the
`del doc[key]` write-backs, lists iterate positions; anything else raises
`NotImplementedError`.  Since `doc` is always part of the private
`deepcopy`, the `base_overrides` key snapshot taken here matches the live
CPython iterator. -/
def hMergePart : Nat → Heap → HVal → HVal → HVal → Except String (Heap × HVal)
  | 0, _, _, _, _ => .error "RecursionError"
  | fuel + 1, h, doc, ov, base =>
    match doc with
    | .ref a =>
      match lookupH h a with
      | some (.hmap _) =>
        match base with
        | .ref b =>
          match lookupH h b with
          | some (.hmap bkvs) =>
            match hMergeMapGo fuel h a ov bkvs with
            | .ok (h2, res) =>
              match lookupH h2 a with
              | some (.hmap rem) =>
                match allocH h2 (.hmap (res ++ rem)) with
                | (h3, r) => .ok (h3, .ref r)
              | _ => .error "InternalError"
            | .error e => .error e
          | some (.hseq []) =>
            -- `for key in []` runs zero times; the copy loop rebuilds `res`
            match lookupH h a with
            | some nd =>
              match allocH h nd with
              | (h2, r) => .ok (h2, .ref r)
            | none => .error "InternalError"
          | some (.hseq (_ :: _)) => .error "TypeError"
          | none => .error "InternalError"
        | .str s =>
          if s = "" then
            match lookupH h a with
            | some nd =>
              match allocH h nd with
              | (h2, r) => .ok (h2, .ref r)
            | none => .error "InternalError"
          else .error "TypeError"
        | _ => .error "TypeError"
      | some (.hseq ds) =>
        match base with
        | .ref b =>
          match lookupH h b with
          | some (.hseq bs) =>
            match ov with
            | .ref o =>
              match lookupH h o with
              | some (.hseq os) =>
                match hMergeSeqGo fuel h ds os bs with
                | .ok (h2, rs) =>
                  match allocH h2 (.hseq rs) with
                  | (h3, r) => .ok (h3, .ref r)
                | .error e => .error e
              | _ =>
                match bs with
                | [] =>
                  match hPyLen h ov with
                  | .ok n =>
                    match allocH h (.hseq (List.drop n ds)) with
                    | (h2, r) => .ok (h2, .ref r)
                  | .error e => .error e
                | _ :: _ => .error "TypeError"
            | _ =>
              match bs with
              | [] =>
                match hPyLen h ov with
                | .ok n =>
                  match allocH h (.hseq (List.drop n ds)) with
                  | (h2, r) => .ok (h2, .ref r)
                | .error e => .error e
              | _ :: _ => .error "TypeError"
          | some (.hmap _) => .error "TypeError"
          | none => .error "InternalError"
        | .str s =>
          if s = "" then
            match hPyLen h ov with
            | .ok n =>
              match allocH h (.hseq (List.drop n ds)) with
              | (h2, r) => .ok (h2, .ref r)
            | .error e => .error e
          else .error "TypeError"
        | _ => .error "TypeError"
      | none => .error "InternalError"
    | _ => .error "NotImplementedError"
termination_by structural fuel => fuel

/-- `_nest` (`utils.py` lines 157-164): a `None` source becomes the empty
container of the typed override's type — a *fresh allocation* — before
merging; scalar typed overrides make `_merge_part` raise. -/
def hNest : Nat → Heap → HVal → HVal → HVal → Except String (Heap × HVal)
  | 0, _, _, _, _ => .error "RecursionError"
  | fuel + 1, h, doc, ov, base =>
    match doc with
    | .null =>
      match ov with
      | .ref oa =>
        match lookupH h oa with
        | some (.hmap _) =>
          match allocH h (.hmap []) with
          | (h2, e) => hMergePart fuel h2 (.ref e) ov base
        | some (.hseq _) =>
          match allocH h (.hseq []) with
          | (h2, e) => hMergePart fuel h2 (.ref e) ov base
        | none => .error "InternalError"
      | _ => .error "NotImplementedError"
    | d => hMergePart fuel h d ov base
termination_by structural fuel => fuel

/-- The dict loop of `_merge_part` over the heap (`utils.py` lines
166-192): per key the `"~"`/`""`/scalar/added/nest dispatch, each
iteration ending with `if key in doc: del doc[key]` as a store write at
the source copy's address. -/
def hMergeMapGo : Nat → Heap → Nat → HVal → List (String × HVal) →
    Except String (Heap × List (String × HVal))
  | 0, _, _, _, _ => .error "RecursionError"
  | _ + 1, h, _, _, [] => .ok (h, [])
  | fuel + 1, h, a, ov, (k, b) :: rest =>
    if b = .str "~" then
      match lookupH h a with
      | some (.hmap dkvs) =>
        hMergeMapGo fuel (writeH h a (.hmap (eraseKeyH dkvs k))) a ov rest
      | _ => .error "InternalError"
    else
      match hOvSub h ov k with
      | .error e => .error e
      | .ok o =>
        if o = .str "" then
          match lookupH h a with
          | some (.hmap dkvs) =>
            match lookupKeyH dkvs k with
            | none => .error "KeyError"
            | some d =>
              match hMergeMapGo fuel (writeH h a (.hmap (eraseKeyH dkvs k))) a ov rest with
              | .ok (h2, res) => .ok (h2, (k, d) :: res)
              | .error e => .error e
          | _ => .error "InternalError"
        else if isScalarH o then
          match lookupH h a with
          | some (.hmap dkvs) =>
            match hMergeMapGo fuel (writeH h a (.hmap (eraseKeyH dkvs k))) a ov rest with
            | .ok (h2, res) => .ok (h2, (k, o) :: res)
            | .error e => .error e
          | _ => .error "InternalError"
        else
          match lookupH h a with
          | some (.hmap dkvs) =>
            match hNest fuel h (match lookupKeyH dkvs k with | none => .null | some d => d) o b with
            | .ok (h2, v) =>
              match lookupH h2 a with
              | some (.hmap dkvs2) =>
                match hMergeMapGo fuel (writeH h2 a (.hmap (eraseKeyH dkvs2 k))) a ov rest with
                | .ok (h3, res) => .ok (h3, (k, v) :: res)
                | .error e => .error e
              | _ => .error "InternalError"
            | .error e => .error e
          | _ => .error "InternalError"
termination_by structural fuel => fuel

/-- The list loop of `_merge_part` over the heap (`utils.py` lines
198-238).  Beyond the source length the *typed override value itself* is
appended (`res.append(value_override)`, line 214): for a container this
stores the reference, so the result shares that container with the
overrides input. -/
def hMergeSeqGo : Nat → Heap → List HVal → List HVal → List HVal →
    Except String (Heap × List HVal)
  | 0, _, _, _, _ => .error "RecursionError"
  | _ + 1, h, ds, os, [] => .ok (h, List.drop os.length ds)
  | _ + 1, _, _, [], _ :: _ => .error "IndexError"
  | fuel + 1, h, [], o :: os, _ :: bs =>
    match hMergeSeqGo fuel h [] os bs with
    | .ok (h2, rs) => .ok (h2, o :: rs)
    | .error e => .error e
  | fuel + 1, h, d :: ds, o :: os, b :: bs =>
    if b = .str "~" then hMergeSeqGo fuel h ds os bs
    else if b = .str "" then
      match hMergeSeqGo fuel h ds os bs with
      | .ok (h2, rs) => .ok (h2, d :: rs)
      | .error e => .error e
    else if isScalarH o then
      match hMergeSeqGo fuel h ds os bs with
      | .ok (h2, rs) => .ok (h2, o :: rs)
      | .error e => .error e
    else
      match hNest fuel h d o b with
      | .ok (h2, v) =>
        match hMergeSeqGo fuel h2 ds os bs with
        | .ok (h3, rs) => .ok (h3, v :: rs)
        | .error e => .error e
      | .error e => .error e
termination_by structural fuel => fuel
end

/-- The document loop of `merge_docs` over the heap (`utils.py` lines
242-244). -/
def hMergeDocsGo : Nat → Heap → List HVal → List HVal → List HVal →
    Except String (Heap × List HVal)
  | 0, _, _, _, _ => .error "RecursionError"
  | _ + 1, h, [], _, _ => .ok (h, [])
  | _ + 1, _, _ :: _, [], _ => .error "IndexError"
  | _ + 1, _, _ :: _, _ :: _, [] => .error "IndexError"
  | fuel + 1, h, d :: ds, o :: os, b :: bs =>
    match hMergePart fuel h d o b with
    | .ok (h2, r) =>
      match hMergeDocsGo fuel h2 ds os bs with
      | .ok (h3, rs) => .ok (h3, r :: rs)
      | .error e => .error e
    | .error e => .error e
termination_by structural fuel => fuel

/-- `merge_docs` over the heap: `docs = deepcopy(src)` followed by the
per-document merge. -/
def hMergeDocs (fuel : Nat) (h : Heap) (src ov base : List HVal) :
    Except String (Heap × List HVal) :=
  match hCopySeq fuel h src with
  | .ok (h2, docs) => hMergeDocsGo fuel h2 docs ov base
  | .error e => .error e

/-- A heap value stays inside the address region `D` (scalars always do). -/
def hvalInD (D : List Nat) : HVal → Prop
  | .ref a => a ∈ D
  | _ => True

/-- All container references of a node stay inside the region `D`. -/
def nodeInD (D : List Nat) : HNode → Prop
  | .hmap kvs => ∀ p ∈ kvs, hvalInD D p.2
  | .hseq vs => ∀ v ∈ vs, hvalInD D v

/-- A heap value references only addresses below `n`. -/
def hvalBelow (n : Nat) : HVal → Bool
  | .ref a => decide (a < n)
  | _ => true

/-- All container references of a node lie below `n`. -/
def nodeBelow (n : Nat) : HNode → Bool
  | .hmap kvs => kvs.all (fun p => hvalBelow n p.2)
  | .hseq vs => vs.all (fun v => hvalBelow n v)

/-- Every pre-existing container of the heap references only
pre-existing addresses (true of any heap built by allocation). -/
def heapSealed (h : Heap) (n : Nat) : Bool :=
  h.store.all (fun p => !(decide (p.1 < n)) || nodeBelow n p.2)

/-- The merge's private write region: `n0` splits the heap into the
caller's objects (below) and the addresses the call may allocate or
mutate; `D` is the set of container addresses the running merge owns —
the `deepcopy` output plus the empty containers `_nest` creates. -/
def RegionOK (h : Heap) (n0 : Nat) (D : List Nat) : Prop :=
  n0 ≤ h.next
  ∧ (∀ a ∈ D, n0 ≤ a ∧ a < h.next)
  ∧ (∀ a ∈ D, ∀ nd, lookupH h a = some nd → nodeInD D nd)

/-- One step of the merge preserves every address below `n0` and only
grows the owned region. -/
def FrameStep (h h2 : Heap) (n0 : Nat) (D D2 : List Nat) : Prop :=
  D ⊆ D2 ∧ RegionOK h2 n0 D2 ∧ h.next ≤ h2.next
  ∧ ∀ a, a < n0 → lookupH h2 a = lookupH h a

/-- Frame property of `hMergePart` at one fuel level. -/
def SPart (fuel : Nat) : Prop :=
  ∀ h doc ov base h2 r n0 D, RegionOK h n0 D → hvalInD D doc →
    hMergePart fuel h doc ov base = .ok (h2, r) →
    ∃ D2, FrameStep h h2 n0 D D2

/-- Frame property of `hNest` at one fuel level. -/
def SNest (fuel : Nat) : Prop :=
  ∀ h doc ov base h2 r n0 D, RegionOK h n0 D → hvalInD D doc →
    hNest fuel h doc ov base = .ok (h2, r) →
    ∃ D2, FrameStep h h2 n0 D D2

/-- Frame property of the dict loop at one fuel level. -/
def SMap (fuel : Nat) : Prop :=
  ∀ h a0 ov bkvs h2 res n0 D, RegionOK h n0 D → a0 ∈ D →
    hMergeMapGo fuel h a0 ov bkvs = .ok (h2, res) →
    ∃ D2, FrameStep h h2 n0 D D2

/-- Frame property of the list loop at one fuel level. -/
def SSeq (fuel : Nat) : Prop :=
  ∀ h ds os bs h2 rs n0 D, RegionOK h n0 D → (∀ d ∈ ds, hvalInD D d) →
    hMergeSeqGo fuel h ds os bs = .ok (h2, rs) →
    ∃ D2, FrameStep h h2 n0 D D2

mutual
/-- Read a heap value back into a pure document tree (used to state that
the *values* of the inputs are unchanged by the merge). -/
def hValueAt : Nat → Heap → HVal → Option Yaml
  | 0, _, _ => none
  | _ + 1, _, .null => some .null
  | _ + 1, _, .str s => some (.str s)
  | _ + 1, _, .int n => some (.int n)
  | _ + 1, _, .bool b => some (.bool b)
  | fuel + 1, h, .ref a =>
    match lookupH h a with
    | some (.hmap kvs) =>
      match hValuePairs fuel h kvs with
      | some kvs2 => some (.map kvs2)
      | none => none
    | some (.hseq vs) =>
      match hValueSeq fuel h vs with
      | some vs2 => some (.seq vs2)
      | none => none
    | none => none
termination_by structural fuel => fuel

/-- Read dict entries back. -/
def hValuePairs : Nat → Heap → List (String × HVal) → Option (List (String × Yaml))
  | 0, _, _ => none
  | _ + 1, _, [] => some []
  | fuel + 1, h, (k, v) :: rest =>
    match hValueAt fuel h v with
    | some y =>
      match hValuePairs fuel h rest with
      | some rest2 => some ((k, y) :: rest2)
      | none => none
    | none => none
termination_by structural fuel => fuel

/-- Read list elements back. -/
def hValueSeq : Nat → Heap → List HVal → Option (List Yaml)
  | 0, _, _ => none
  | _ + 1, _, [] => some []
  | fuel + 1, h, v :: rest =>
    match hValueAt fuel h v with
    | some y =>
      match hValueSeq fuel h rest with
      | some rest2 => some (y :: rest2)
      | none => none
    | none => none
termination_by structural fuel => fuel
end

/-! ## Theorems

First, validation of the embedding against the repository's own test
vectors (`test_utils.py::test_kube_merge`, `test_component.py`). -/

/-- The merge model reproduces document 2 of the repository's merge test. -/
theorem merge_model_matches_test_doc2 :
    mergePart srcDoc2 ovDoc2 ovDoc2 = .ok expDoc2 := by decide

/-- The merge model reproduces document 3 (sequence sentinels, appended
volume, typed boolean) of the repository's merge test. -/
theorem merge_model_matches_test_doc3 :
    mergePart srcDoc3 ovDoc3typed ovDoc3base = .ok expDoc3 := by decide

/-- An empty override document (typed `None`, literal `""`) leaves the
source unchanged, as document 1 of the repository's merge test expects. -/
theorem merge_model_empty_override :
    mergePart srcDoc2 .null (.str "") = .ok srcDoc2 := by decide

/-- The patch model reproduces `test_patch_containers`: image
`test-image`, tag `v6.6.6` yield container image `"test-image:v6.6.6"`. -/
theorem patch_model_matches_test :
    _patch_containers ⟨some "test-image", some "v6.6.6", []⟩ testDeployment
      = .ok (deploymentWithImage "test-image:v6.6.6") := by decide

/-- The pull-secret patch model reproduces `test_patch_image_pull_secrets`:
with `image_pull_secrets = {"imagined.registry.tld": "secret"}` the patched
Deployment's `spec.template.spec.imagePullSecrets[0].name` is `"secret"`. -/
theorem pull_secret_model_matches_test :
    _patch_image_pull_secrets ⟨none, some "latest", [("imagined.registry.tld", "secret")]⟩
        testDeployment
      = .ok (.map [
          ("apiVersion", .str "apps/v1"), ("kind", .str "Deployment"),
          ("metadata", .map [("name", .str "test-deployment")]),
          ("spec", .map [
            ("replicas", .int 2),
            ("selector", .map [("matchLabels", .map [("app", .str "test-deployment")])]),
            ("template", .map [
              ("metadata", .map [("labels", .map [("app", .str "test-deployment")])]),
              ("spec", .map [
                ("containers", .seq [
                  .map [("name", .str "test-deployment"),
                        ("imagePullPolicy", .str "IfNotPresent"),
                        ("image", .str "imagined.registry.tld/myproj-service-test-deployment:latest")]]),
                ("imagePullSecrets", .seq [.map [("name", .str "secret")]])])])])]) := by
  decide

/-- Replacing semantics of dict assignment: after `m[k] = v` the binding
of `k` is `v`. -/
theorem lookupKey_setKey (kvs : List (String × Yaml)) (k : String) (v : Yaml) :
    lookupKey (setKey kvs k v) k = some v := by
  induction kvs with
  | nil => simp [setKey, lookupKey]
  | cons hd tl ih =>
    obtain ⟨k2, w⟩ := hd
    by_cases h : k2 = k <;> simp [setKey, lookupKey, h, ih]

/-- C1: during the apply phase, the path handed to `kubectl delete -f` for
an obsolete manifest is looked up in `kube_configs`, not
`obsolete_kube_configs`.  A component whose obsolete name is not among the
prepared manifests crashes with `KeyError`; a colliding name deletes the
prepared manifest's path instead of the stored obsolete path. -/
theorem c1_do_release_reads_kube_configs :
    _do_release [("deployment.yaml", "temp/rel1/service-a/kube/deployment.yaml")]
        [("old.yaml", "service-a/kube/obsolete/old.yaml")] false
      = .error "KeyError"
    ∧ _do_release [("a.yaml", "temp/rel1/service-a/kube/a.yaml")]
        [("a.yaml", "service-a/kube/obsolete/a.yaml")] false
      = .ok [["kubectl", "apply", "-f", "temp/rel1/service-a/kube/a.yaml"],
             ["kubectl", "delete", "-f", "temp/rel1/service-a/kube/a.yaml"]] := by
  exact ⟨rfl, rfl⟩

/-- C4 (counterexample): the container rewrite crashes with `ValueError`
on an image with two `:` (registry with port) and on an image with no
`:`, instead of splitting at the first `:`. -/
theorem c4_counterexample :
    _patch_containers ⟨some "test-image", some "v6.6.6", []⟩
        (deploymentWithImage "registry.example.com:5000/app:latest")
      = .error "ValueError"
    ∧ _patch_containers ⟨some "test-image", some "v6.6.6", []⟩
        (deploymentWithImage "plain-image")
      = .error "ValueError" := by
  exact ⟨rfl, rfl⟩

/-- C4 (amended): for a container whose image string contains exactly one
`:` the rewrite succeeds, replacing the ref with `component.image` and
the tag with `component.tag` when those are truthy and recomposing
`ref:tag`; when the split does not yield exactly two parts (zero or more
than one `:`) the patcher raises `ValueError`. -/
theorem c4_amended (c : Component) (kvs : List (String × Yaml))
    (s ref tag0 : String)
    (himg : lookupKey kvs "image" = some (.str s)) :
    (pySplit s ':' = [ref, tag0] →
      patchOneContainer c (.map kvs)
        = .ok (.map (setKey kvs "image"
            (.str (pickOverride c.image ref ++ ":" ++ pickOverride c.tag tag0)))))
    ∧ ((pySplit s ':').length ≠ 2 →
      patchOneContainer c (.map kvs) = .error "ValueError") := by
  constructor
  · intro hs
    simp [patchOneContainer, getItem, himg, hs, setItem]
  · intro hs
    match h : pySplit s ':' with
    | [] => simp [patchOneContainer, getItem, himg, h]
    | [a] => simp [patchOneContainer, getItem, himg, h]
    | [a, b] => rw [h] at hs; simp at hs
    | a :: b :: cc :: t => simp [patchOneContainer, getItem, himg, h]

/-- C4 (witness): the amended theorem at the repository's test Deployment
container reproduces `"test-image:v6.6.6"`. -/
theorem c4_witness :
    patchOneContainer ⟨some "test-image", some "v6.6.6", []⟩
        (.map [("name", .str "test-deployment"),
               ("imagePullPolicy", .str "IfNotPresent"),
               ("image", .str "imagined.registry.tld/myproj-service-test-deployment:latest")])
      = .ok (.map [("name", .str "test-deployment"),
               ("imagePullPolicy", .str "IfNotPresent"),
               ("image", .str "test-image:v6.6.6")]) := by
  have h := (c4_amended ⟨some "test-image", some "v6.6.6", []⟩
      [("name", .str "test-deployment"),
       ("imagePullPolicy", .str "IfNotPresent"),
       ("image", .str "imagined.registry.tld/myproj-service-test-deployment:latest")]
      "imagined.registry.tld/myproj-service-test-deployment:latest"
      "imagined.registry.tld/myproj-service-test-deployment" "latest"
      (by decide)).1 (by decide)
  exact h.trans (by decide)

/-- C6 (counterexample): with `component.image` set to a ref containing
two `/` (registry/org/name), pull-secret injection crashes with
`ValueError` instead of taking the text before the first `/`. -/
theorem c6_counterexample :
    _patch_image_pull_secrets
        ⟨some "reg.example.com/org/app", some "latest", [("reg.example.com", "secret")]⟩
        testDeployment
      = .error "ValueError" := by
  exact rfl

/-- C6 (amended): pull-secret injection chooses the effective ref
(`component.image` when truthy, else the first container's ref).  When
the ref contains `/` and splits into exactly two parts, the text before
the `/` is the host: a known host replaces
`spec.template.spec.imagePullSecrets` with the one-element list (dict
assignment makes the new value the binding of the key), an unknown host
leaves the document unchanged.  When the split does not yield exactly two
parts (two or more `/`) the patcher raises `ValueError`. -/
theorem c6_amended (c : Component) (dk sk tk ck : List (String × Yaml))
    (containers : Yaml) (ref host hrest secret : String)
    (h1 : lookupKey dk "spec" = some (.map sk))
    (h2 : lookupKey sk "template" = some (.map tk))
    (h3 : lookupKey tk "spec" = some (.map ck))
    (h4 : lookupKey ck "containers" = some containers)
    (h5 : effectiveImage c containers = .ok ref)
    (h6 : pyContains ref '/' = true) :
    (pySplit ref '/' = [host, hrest] →
      (lookupStr c.image_pull_secrets host = some secret →
        _patch_image_pull_secrets c (.map dk)
          = .ok (.map (setKey dk "spec" (.map (setKey sk "template"
              (.map (setKey tk "spec" (.map (setKey ck "imagePullSecrets"
                (.seq [.map [("name", .str secret)]]))))))))))
      ∧ (lookupStr c.image_pull_secrets host = none →
        _patch_image_pull_secrets c (.map dk) = .ok (.map dk)))
    ∧ ((pySplit ref '/').length ≠ 2 →
      _patch_image_pull_secrets c (.map dk) = .error "ValueError")
    ∧ (∀ kvs v, lookupKey (setKey kvs "imagePullSecrets" v) "imagePullSecrets"
        = some v) := by
  refine ⟨?_, ?_, fun kvs v => lookupKey_setKey kvs "imagePullSecrets" v⟩
  · intro hsplit
    constructor
    · intro hsec
      simp [_patch_image_pull_secrets, getItem, h1, h2, h3, h4, h5, h6,
        hsplit, hsec, setItem]
    · intro hsec
      simp [_patch_image_pull_secrets, getItem, h1, h2, h3, h4, h5, h6,
        hsplit, hsec, setItem]
  · intro hlen
    match h : pySplit ref '/' with
    | [] => simp [_patch_image_pull_secrets, getItem, h1, h2, h3, h4, h5, h6, h]
    | [a] => simp [_patch_image_pull_secrets, getItem, h1, h2, h3, h4, h5, h6, h]
    | [a, b] => rw [h] at hlen; simp at hlen
    | a :: b :: cc :: t =>
      simp [_patch_image_pull_secrets, getItem, h1, h2, h3, h4, h5, h6, h]

/-- C6 (witness): the amended theorem at the repository's
`test_patch_image_pull_secrets` scenario: host `imagined.registry.tld`
maps to secret `"secret"` and the Deployment gains the one-element
`imagePullSecrets`. -/
theorem c6_witness :
    _patch_image_pull_secrets ⟨none, some "latest", [("imagined.registry.tld", "secret")]⟩
        (.map [("spec", .map [("template", .map [("spec", .map [
          ("containers", .seq [.map [("image",
            .str "imagined.registry.tld/myproj-service-test-deployment:latest")]])])])])])
      = .ok (.map [("spec", .map [("template", .map [("spec", .map [
          ("containers", .seq [.map [("image",
            .str "imagined.registry.tld/myproj-service-test-deployment:latest")]]),
          ("imagePullSecrets", .seq [.map [("name", .str "secret")]])])])])]) := by
  have h := ((c6_amended ⟨none, some "latest", [("imagined.registry.tld", "secret")]⟩
      [("spec", .map [("template", .map [("spec", .map [
        ("containers", .seq [.map [("image",
          .str "imagined.registry.tld/myproj-service-test-deployment:latest")]])])])])]
      [("template", .map [("spec", .map [
        ("containers", .seq [.map [("image",
          .str "imagined.registry.tld/myproj-service-test-deployment:latest")]])])])]
      [("spec", .map [
        ("containers", .seq [.map [("image",
          .str "imagined.registry.tld/myproj-service-test-deployment:latest")]])])]
      [("containers", .seq [.map [("image",
        .str "imagined.registry.tld/myproj-service-test-deployment:latest")]])]
      (.seq [.map [("image",
        .str "imagined.registry.tld/myproj-service-test-deployment:latest")]])
      "imagined.registry.tld/myproj-service-test-deployment"
      "imagined.registry.tld" "myproj-service-test-deployment" "secret"
      (by decide) (by decide) (by decide) (by decide) (by decide) (by decide)).1
      (by decide)).1 (by decide)
  exact h.trans (by decide)

/-- C7 (counterexample): a secrets file whose name ends in the unsealed
extension matches the `*.yaml` glob yet is never applied: `release_env`
issues no command for it. -/
theorem c7_counterexample :
    release_env ["01-a.unsealed.yaml"] [] false = []
    ∧ pyEndsWith "01-a.unsealed.yaml" ".yaml" = true := by
  exact ⟨rfl, rfl⟩

/-- Python string order is total. -/
theorem chListLe_total (a : List Char) : ∀ b, chListLe a b = true ∨ chListLe b a = true := by
  induction a with
  | nil => intro b; left; simp [chListLe]
  | cons x xs ih =>
    intro b
    cases b with
    | nil => right; simp [chListLe]
    | cons y ys =>
      by_cases h1 : x.toNat < y.toNat
      · left; simp [chListLe, h1]
      · by_cases h2 : y.toNat < x.toNat
        · right; simp [chListLe, h1, h2]
        · have := ih ys
          simpa [chListLe, h1, h2] using this

/-- Python string order is total (string form). -/
theorem pyStrLe_total (a b : String) : pyStrLe a b = true ∨ pyStrLe b a = true :=
  chListLe_total a.data b.data

/-- Python string order is transitive. -/
theorem chListLe_trans (a : List Char) :
    ∀ b c, chListLe a b = true → chListLe b c = true → chListLe a c = true := by
  induction a with
  | nil => intro b c _ _; simp [chListLe]
  | cons x xs ih =>
    intro b c hab hbc
    cases b with
    | nil => simp [chListLe] at hab
    | cons y ys =>
      cases c with
      | nil => simp [chListLe] at hbc
      | cons z zs =>
        rcases Nat.lt_trichotomy x.toNat y.toNat with hxy | hxy | hxy
        · rcases Nat.lt_trichotomy y.toNat z.toNat with hyz | hyz | hyz
          · have hxz : x.toNat < z.toNat := Nat.lt_trans hxy hyz
            simp [chListLe, hxz]
          · have hxz : x.toNat < z.toNat := hyz ▸ hxy
            simp [chListLe, hxz]
          · rw [chListLe, if_neg (by omega), if_pos hyz] at hbc
            exact absurd hbc (by simp)
        · rcases Nat.lt_trichotomy y.toNat z.toNat with hyz | hyz | hyz
          · have hxz : x.toNat < z.toNat := hxy ▸ hyz
            simp [chListLe, hxz]
          · have hxz : ¬ x.toNat < z.toNat := by omega
            have hzx : ¬ z.toNat < x.toNat := by omega
            rw [chListLe, if_neg (by omega), if_neg (by omega)] at hab
            rw [chListLe, if_neg (by omega), if_neg (by omega)] at hbc
            rw [chListLe, if_neg hxz, if_neg hzx]
            exact ih ys zs hab hbc
          · rw [chListLe, if_neg (by omega), if_pos hyz] at hbc
            exact absurd hbc (by simp)
        · rw [chListLe, if_neg (by omega), if_pos hxy] at hab
          exact absurd hab (by simp)

/-- Python string order is transitive (string form). -/
theorem pyStrLe_trans (a b c : String) :
    pyStrLe a b = true → pyStrLe b c = true → pyStrLe a c = true :=
  chListLe_trans a.data b.data c.data

/-- C7 (amended): `release_env` applies exactly the secrets files that do
not end in the unsealed extension, in ascending name order, then deletes
exactly the obsolete files in descending name order; dry-run issues no
command. -/
theorem c7_amended (secretFiles obsoleteFiles : List String) :
    release_env secretFiles obsoleteFiles true = []
    ∧ (∃ A D : List String,
        release_env secretFiles obsoleteFiles false
          = A.map (fun f => ["kubectl", "apply", "-f", f])
            ++ D.map (fun f => ["kubectl", "delete", "-f", f])
        ∧ List.Pairwise (fun a b => pyStrLe a b = true) A
        ∧ List.Pairwise (fun a b => pyStrLe b a = true) D
        ∧ (∀ f, f ∈ A ↔ f ∈ secretFiles
            ∧ pyEndsWith f UNSEALED_SECRETS_EXTENSION = false)
        ∧ (∀ f, f ∈ D ↔ f ∈ obsoleteFiles)) := by
  constructor
  · simp [release_env]
  · refine ⟨sortedAsc (secretFiles.filter
        (fun f => !(pyEndsWith f UNSEALED_SECRETS_EXTENSION))),
      sortedDesc obsoleteFiles, ?_, ?_, ?_, ?_, ?_⟩
    · simp [release_env]
    · haveI : IsTotal String (fun a b => pyStrLe a b = true) := ⟨pyStrLe_total⟩
      haveI : IsTrans String (fun a b => pyStrLe a b = true) :=
        ⟨fun a b c => pyStrLe_trans a b c⟩
      exact List.sorted_insertionSort _ _
    · haveI : IsTotal String (fun a b => pyStrLe b a = true) :=
        ⟨fun a b => pyStrLe_total b a⟩
      haveI : IsTrans String (fun a b => pyStrLe b a = true) :=
        ⟨fun a b c h1 h2 => pyStrLe_trans c b a h2 h1⟩
      exact List.sorted_insertionSort _ _
    · intro f
      rw [sortedAsc, (List.perm_insertionSort _ _).mem_iff, List.mem_filter]
      simp
    · intro f
      rw [sortedDesc, (List.perm_insertionSort _ _).mem_iff]

/-- C7 (witness): the amended theorem instantiated at a concrete listing:
dry-run is silent, and the apply/delete commands come out sorted. -/
theorem c7_witness :
    release_env ["02-b.yaml", "01-a.unsealed.yaml"] ["a.yaml"] true = []
    ∧ release_env ["02-b.yaml", "01-a.yaml"] ["a.yaml", "z.yaml"] false
      = [["kubectl", "apply", "-f", "01-a.yaml"],
         ["kubectl", "apply", "-f", "02-b.yaml"],
         ["kubectl", "delete", "-f", "z.yaml"],
         ["kubectl", "delete", "-f", "a.yaml"]] := by
  exact ⟨(c7_amended ["02-b.yaml", "01-a.unsealed.yaml"] ["a.yaml"]).1, by decide⟩

/-- C8: `run` propagates *ProcessFailure* (`CalledProcessError`) exactly
when `check` is set and the child exited nonzero, carrying the captured
streams (absent when streaming); with `check=false` a completed child is
always returned as its `{returncode, stdout, stderr}` record; a timeout
raises *ProcessTimeout*, never *ProcessFailure*. -/
theorem c8_run_check_semantics (check stream : Bool) (child : ChildResult) :
    ((∃ rc so se, run child check stream = .error (.processFailure rc so se))
      ↔ (check = true ∧ ∃ rc out err, child = .completed rc out err ∧ rc ≠ 0))
    ∧ (∀ rc out err,
        run (.completed rc out err) false stream
          = .ok ⟨rc, if stream then none else some out,
                 if stream then none else some err⟩)
    ∧ (∀ rc out err,
        (run (.completed rc out err) check stream
            = .error (.processFailure rc (if stream then none else some out)
                (if stream then none else some err)))
          ↔ (check = true ∧ rc ≠ 0)) := by
  refine ⟨?_, ?_, ?_⟩
  · cases child with
    | timedOut => cases check <;> simp [run]
    | completed rc out err =>
      cases check with
      | false => simp [run]
      | true =>
        by_cases h : rc = 0
        · simp [run, h]
        · simp [run, h]
  · intro rc out err; simp [run]
  · intro rc out err
    cases check with
    | false => simp [run]
    | true =>
      by_cases h : rc = 0
      · simp [run, h]
      · simp [run, h]

/-! ## Dictionary bookkeeping lemmas for the merger -/

/-- A key is absent exactly when lookup fails. -/
theorem lookupKey_eq_none_iff (kvs : List (String × Yaml)) (k : String) :
    lookupKey kvs k = none ↔ k ∉ kvs.map Prod.fst := by
  induction kvs with
  | nil => simp [lookupKey]
  | cons hd tl ih =>
    obtain ⟨k2, v⟩ := hd
    by_cases h : k2 = k
    · simp [lookupKey, h, ih]
    · simp [lookupKey, h, ih]
      tauto

/-- Erasing a key yields a sublist. -/
theorem eraseKey_sublist (kvs : List (String × Yaml)) (k : String) :
    List.Sublist (eraseKey kvs k) kvs := by
  induction kvs with
  | nil => simp [eraseKey]
  | cons hd tl ih =>
    obtain ⟨k2, v⟩ := hd
    by_cases h : k2 = k
    · rw [eraseKey, if_pos h]
      exact List.sublist_cons_self _ _
    · rw [eraseKey, if_neg h]
      exact ih.cons₂ _

/-- Erasing can only remove keys. -/
theorem eraseKey_keys_subset (kvs : List (String × Yaml)) (k k' : String)
    (h : k' ∈ (eraseKey kvs k).map Prod.fst) : k' ∈ kvs.map Prod.fst :=
  ((eraseKey_sublist kvs k).map Prod.fst).subset h

/-- Erasing preserves key distinctness. -/
theorem eraseKey_keys_nodup (kvs : List (String × Yaml)) (k : String)
    (h : (kvs.map Prod.fst).Nodup) : ((eraseKey kvs k).map Prod.fst).Nodup :=
  h.sublist ((eraseKey_sublist kvs k).map Prod.fst)

/-- With distinct keys, erasing `k` removes it entirely. -/
theorem lookupKey_eraseKey_self (kvs : List (String × Yaml)) (k : String)
    (h : (kvs.map Prod.fst).Nodup) : lookupKey (eraseKey kvs k) k = none := by
  induction kvs with
  | nil => simp [eraseKey, lookupKey]
  | cons hd tl ih =>
    obtain ⟨k2, v⟩ := hd
    simp only [List.map_cons, List.nodup_cons] at h
    by_cases h2 : k2 = k
    · subst h2
      rw [eraseKey, if_pos rfl, lookupKey_eq_none_iff]
      exact h.1
    · rw [eraseKey, if_neg h2, lookupKey, if_neg h2]
      exact ih h.2

/-- Erasing a different key does not change a lookup. -/
theorem lookupKey_eraseKey_ne (kvs : List (String × Yaml)) (k k' : String)
    (h : k' ≠ k) : lookupKey (eraseKey kvs k') k = lookupKey kvs k := by
  induction kvs with
  | nil => simp [eraseKey]
  | cons hd tl ih =>
    obtain ⟨k2, v⟩ := hd
    by_cases h2 : k2 = k'
    · subst h2
      rw [eraseKey, if_pos rfl, lookupKey, if_neg (fun hh : k2 = k => h (hh ▸ rfl))]
    · rw [eraseKey, if_neg h2, lookupKey, lookupKey]
      by_cases h3 : k2 = k
      · rw [if_pos h3, if_pos h3]
      · rw [if_neg h3, if_neg h3]
        exact ih

/-- An absent key stays absent under erasure. -/
theorem lookupKey_none_eraseKey (kvs : List (String × Yaml)) (k k' : String)
    (h : lookupKey kvs k = none) : lookupKey (eraseKey kvs k') k = none := by
  rw [lookupKey_eq_none_iff] at h ⊢
  exact fun hmem => h (eraseKey_keys_subset kvs k' k hmem)

/-- Erasing an absent key is the identity. -/
theorem eraseKey_of_absent (kvs : List (String × Yaml)) (k : String)
    (h : lookupKey kvs k = none) : eraseKey kvs k = kvs := by
  induction kvs with
  | nil => simp [eraseKey]
  | cons hd tl ih =>
    obtain ⟨k2, v⟩ := hd
    rw [lookupKey] at h
    by_cases h2 : k2 = k
    · rw [if_pos h2] at h
      exact absurd h (by simp)
    · rw [if_neg h2] at h
      rw [eraseKey, if_neg h2, ih h]

/-- Inversion of one step of the dict merge loop: a successful
`mergeMapGo` on `(k2, b2) :: rest` took exactly one of the five branches
of `utils.py` lines 168-192. -/
theorem mergeMapGo_cons_inv (dkvs : List (String × Yaml)) (ov : Yaml)
    (k2 : String) (b2 : Yaml) (rest res rem : List (String × Yaml))
    (h : mergeMapGo dkvs ov ((k2, b2) :: rest) = .ok (res, rem)) :
    (b2 = .str "~" ∧ mergeMapGo (eraseKey dkvs k2) ov rest = .ok (res, rem))
    ∨ (b2 ≠ .str "~" ∧ ∃ o, ovSubscript ov k2 = .ok o ∧
        ((o = .str "" ∧ ∃ d res2, lookupKey dkvs k2 = some d
            ∧ mergeMapGo (eraseKey dkvs k2) ov rest = .ok (res2, rem)
            ∧ res = (k2, d) :: res2)
         ∨ (o ≠ .str "" ∧ o.isScalarPy = true
            ∧ ∃ res2, mergeMapGo (eraseKey dkvs k2) ov rest = .ok (res2, rem)
            ∧ res = (k2, o) :: res2)
         ∨ (o ≠ .str "" ∧ o.isScalarPy = false ∧ lookupKey dkvs k2 = none
            ∧ ∃ v res2, mergePart (Yaml.emptyLike o) o b2 = .ok v
            ∧ mergeMapGo (eraseKey dkvs k2) ov rest = .ok (res2, rem)
            ∧ res = (k2, v) :: res2)
         ∨ (o ≠ .str "" ∧ o.isScalarPy = false
            ∧ ∃ d v res2, lookupKey dkvs k2 = some d
            ∧ mergePart (match d with | .null => Yaml.emptyLike o | x => x) o b2 = .ok v
            ∧ mergeMapGo (eraseKey dkvs k2) ov rest = .ok (res2, rem)
            ∧ res = (k2, v) :: res2))) := by
  simp only [mergeMapGo] at h
  by_cases hb : b2 = .str "~"
  · rw [if_pos hb] at h
    exact Or.inl ⟨hb, h⟩
  · rw [if_neg hb] at h
    refine Or.inr ⟨hb, ?_⟩
    match hov : ovSubscript ov k2 with
    | .error e => rw [hov] at h; simp at h
    | .ok o =>
      rw [hov] at h
      dsimp only at h
      refine ⟨o, rfl, ?_⟩
      by_cases ho : o = .str ""
      · rw [if_pos ho] at h
        match hd : lookupKey dkvs k2 with
        | none => rw [hd] at h; simp at h
        | some d =>
          rw [hd] at h
          dsimp only at h
          match hrec : mergeMapGo (eraseKey dkvs k2) ov rest with
          | .error e => rw [hrec] at h; simp at h
          | .ok (res2, rem2) =>
            rw [hrec] at h
            simp only [Except.ok.injEq, Prod.mk.injEq] at h
            obtain ⟨h1, h2⟩ := h
            exact Or.inl ⟨ho, d, res2, rfl, by rw [h2], h1.symm⟩
      · rw [if_neg ho] at h
        by_cases hsc : o.isScalarPy = true
        · rw [if_pos hsc] at h
          match hrec : mergeMapGo (eraseKey dkvs k2) ov rest with
          | .error e => rw [hrec] at h; simp at h
          | .ok (res2, rem2) =>
            rw [hrec] at h
            simp only [Except.ok.injEq, Prod.mk.injEq] at h
            obtain ⟨h1, h2⟩ := h
            exact Or.inr (Or.inl ⟨ho, hsc, res2, by rw [h2], h1.symm⟩)
        · rw [if_neg hsc] at h
          match hd : lookupKey dkvs k2 with
          | none =>
            rw [hd] at h
            dsimp only at h
            match hmp : mergePart (Yaml.emptyLike o) o b2 with
            | .error e => rw [hmp] at h; simp at h
            | .ok v =>
              rw [hmp] at h
              dsimp only at h
              match hrec : mergeMapGo (eraseKey dkvs k2) ov rest with
              | .error e => rw [hrec] at h; simp at h
              | .ok (res2, rem2) =>
                rw [hrec] at h
                simp only [Except.ok.injEq, Prod.mk.injEq] at h
                obtain ⟨h1, h2⟩ := h
                exact Or.inr (Or.inr (Or.inl
                  ⟨ho, by simpa using hsc, rfl, v, res2, rfl, by rw [h2], h1.symm⟩))
          | some d =>
            rw [hd] at h
            dsimp only at h
            generalize hnb :
              (match d with | Yaml.null => Yaml.emptyLike o | x => x) = nb at h ⊢
            match hmp : mergePart nb o b2 with
            | .error e => rw [hmp] at h; simp at h
            | .ok v =>
              rw [hmp] at h
              dsimp only at h
              match hrec : mergeMapGo (eraseKey dkvs k2) ov rest with
              | .error e => rw [hrec] at h; simp at h
              | .ok (res2, rem2) =>
                rw [hrec] at h
                simp only [Except.ok.injEq, Prod.mk.injEq] at h
                obtain ⟨h1, h2⟩ := h
                exact Or.inr (Or.inr (Or.inr
                  ⟨ho, by simpa using hsc, d, v, res2, rfl,
                   by rw [hnb]; exact hmp, by rw [h2], h1.symm⟩))

/-- Every override-driven result key comes from the override keys. -/
theorem mergeMapGo_res_keys :
    ∀ (bkvs dkvs res rem : List (String × Yaml)) (ov : Yaml),
    mergeMapGo dkvs ov bkvs = .ok (res, rem) →
    ∀ k, k ∈ res.map Prod.fst → k ∈ bkvs.map Prod.fst := by
  intro bkvs
  induction bkvs with
  | nil =>
    intro dkvs res rem ov h k hk
    simp only [mergeMapGo, Except.ok.injEq, Prod.mk.injEq] at h
    rw [← h.1] at hk
    simp at hk
  | cons hd rest ih =>
    obtain ⟨k2, b2⟩ := hd
    intro dkvs res rem ov h k hk
    rcases mergeMapGo_cons_inv dkvs ov k2 b2 rest res rem h with
      ⟨_, hrec⟩ | ⟨_, o, _, hcase⟩
    · exact List.mem_cons_of_mem _ (ih _ _ _ _ hrec k hk)
    · rcases hcase with ⟨_, d, res2, _, hrec, hres⟩ |
        ⟨_, _, res2, hrec, hres⟩ |
        ⟨_, _, _, v, res2, _, hrec, hres⟩ |
        ⟨_, _, d, v, res2, _, _, hrec, hres⟩ <;>
      · subst hres
        simp only [List.map_cons, List.mem_cons] at hk ⊢
        rcases hk with hk | hk
        · exact Or.inl hk
        · exact Or.inr (ih _ _ _ _ hrec k hk)

/-- The carried-over entries form a sublist of the source dict. -/
theorem mergeMapGo_rem_sublist :
    ∀ (bkvs dkvs res rem : List (String × Yaml)) (ov : Yaml),
    mergeMapGo dkvs ov bkvs = .ok (res, rem) →
    List.Sublist rem dkvs := by
  intro bkvs
  induction bkvs with
  | nil =>
    intro dkvs res rem ov h
    simp only [mergeMapGo, Except.ok.injEq, Prod.mk.injEq] at h
    rw [← h.2]
  | cons hd rest ih =>
    obtain ⟨k2, b2⟩ := hd
    intro dkvs res rem ov h
    rcases mergeMapGo_cons_inv dkvs ov k2 b2 rest res rem h with
      ⟨_, hrec⟩ | ⟨_, o, _, hcase⟩
    · exact (ih _ _ _ _ hrec).trans (eraseKey_sublist dkvs k2)
    · rcases hcase with ⟨_, d, res2, _, hrec, hres⟩ |
        ⟨_, _, res2, hrec, hres⟩ |
        ⟨_, _, _, v, res2, _, hrec, hres⟩ |
        ⟨_, _, d, v, res2, _, _, hrec, hres⟩ <;>
      exact (ih _ _ _ _ hrec).trans (eraseKey_sublist dkvs k2)

/-- A key absent from the source dict is absent from the carryovers. -/
theorem mergeMapGo_absent_rem (bkvs dkvs res rem : List (String × Yaml))
    (ov : Yaml) (k : String)
    (habs : lookupKey dkvs k = none)
    (h : mergeMapGo dkvs ov bkvs = .ok (res, rem)) :
    lookupKey rem k = none := by
  rw [lookupKey_eq_none_iff] at habs ⊢
  exact fun hmem =>
    habs (((mergeMapGo_rem_sublist bkvs dkvs res rem ov h).map Prod.fst).subset hmem)

/-- Every override key (with distinct source keys) is erased from the
carryovers, whatever branch processed it. -/
theorem mergeMapGo_key_rem :
    ∀ (bkvs dkvs res rem : List (String × Yaml)) (ov : Yaml) (k : String),
    k ∈ bkvs.map Prod.fst →
    (dkvs.map Prod.fst).Nodup →
    mergeMapGo dkvs ov bkvs = .ok (res, rem) →
    lookupKey rem k = none := by
  intro bkvs
  induction bkvs with
  | nil =>
    intro dkvs res rem ov k hk
    simp at hk
  | cons hd rest ih =>
    obtain ⟨k2, b2⟩ := hd
    intro dkvs res rem ov k hk hnd h
    simp only [List.map_cons, List.mem_cons] at hk
    rcases hk with hk2 | hk2
    · -- k = k2: the step erased it (or it was already absent)
      subst hk2
      rcases mergeMapGo_cons_inv dkvs ov k b2 rest res rem h with
        ⟨_, hrec⟩ | ⟨_, o, _, hcase⟩
      · exact mergeMapGo_absent_rem rest _ res rem ov k
          (lookupKey_eraseKey_self dkvs k hnd) hrec
      · rcases hcase with ⟨_, d, res2, _, hrec, hres⟩ |
          ⟨_, _, res2, hrec, hres⟩ |
          ⟨_, _, _, v, res2, _, hrec, hres⟩ |
          ⟨_, _, d, v, res2, _, _, hrec, hres⟩ <;>
        exact mergeMapGo_absent_rem rest _ res2 rem ov k
          (lookupKey_eraseKey_self dkvs k hnd) hrec
    · -- k ∈ rest
      rcases mergeMapGo_cons_inv dkvs ov k2 b2 rest res rem h with
        ⟨_, hrec⟩ | ⟨_, o, _, hcase⟩
      · exact ih _ res rem ov k hk2
          (eraseKey_keys_nodup dkvs k2 hnd) hrec
      · rcases hcase with ⟨_, d, res2, _, hrec, hres⟩ |
          ⟨_, _, res2, hrec, hres⟩ |
          ⟨_, _, _, v, res2, _, hrec, hres⟩ |
          ⟨_, _, d, v, res2, _, _, hrec, hres⟩ <;>
        exact ih _ res2 rem ov k hk2
          (eraseKey_keys_nodup dkvs k2 hnd) hrec

/-- A key whose literal override is `"~"` never enters the
override-driven entries (override keys distinct). -/
theorem mergeMapGo_tilde_res :
    ∀ (bkvs dkvs res rem : List (String × Yaml)) (ov : Yaml) (k : String),
    (k, Yaml.str "~") ∈ bkvs →
    (bkvs.map Prod.fst).Nodup →
    mergeMapGo dkvs ov bkvs = .ok (res, rem) →
    k ∉ res.map Prod.fst := by
  intro bkvs
  induction bkvs with
  | nil =>
    intro dkvs res rem ov k hk
    simp at hk
  | cons hd rest ih =>
    obtain ⟨k2, b2⟩ := hd
    intro dkvs res rem ov k hk hnd h
    simp only [List.map_cons, List.nodup_cons] at hnd
    rcases List.mem_cons.mp hk with hk2 | hk2
    · -- the head is exactly (k, "~")
      obtain ⟨hkk, hbb⟩ := Prod.mk.injEq .. ▸ hk2
      subst hkk
      rcases mergeMapGo_cons_inv dkvs ov k b2 rest res rem h with
        ⟨_, hrec⟩ | ⟨hb, o, _, _⟩
      · intro hmem
        exact hnd.1 (mergeMapGo_res_keys rest _ res rem ov hrec k hmem)
      · exact absurd hbb.symm hb
    · -- (k, "~") is further down; the head key differs
      have hne : k ≠ k2 := by
        intro he
        subst he
        exact hnd.1 (by
          simpa using List.mem_map_of_mem Prod.fst hk2)
      rcases mergeMapGo_cons_inv dkvs ov k2 b2 rest res rem h with
        ⟨_, hrec⟩ | ⟨_, o, _, hcase⟩
      · exact ih _ res rem ov k hk2 hnd.2 hrec
      · rcases hcase with ⟨_, d, res2, _, hrec, hres⟩ |
          ⟨_, _, res2, hrec, hres⟩ |
          ⟨_, _, _, v, res2, _, hrec, hres⟩ |
          ⟨_, _, d, v, res2, _, _, hrec, hres⟩ <;>
        · subst hres
          intro hmem
          simp only [List.map_cons, List.mem_cons] at hmem
          rcases hmem with hm | hm
          · exact hne hm
          · exact ih _ res2 rem ov k hk2 hnd.2 hrec hm

/-- Against an exhausted source, every override position appends its
*typed* value — the "~" and "" sentinels included. -/
theorem mergeSeqGo_nil_append :
    ∀ (bs os : List Yaml), bs.length ≤ os.length →
    mergeSeqGo [] os bs = .ok (os.take bs.length) := by
  intro bs
  induction bs with
  | nil =>
    intro os h
    simp [mergeSeqGo]
  | cons b bs ih =>
    intro os h
    match os with
    | [] => simp at h
    | o :: os =>
      simp only [List.length_cons, Nat.add_le_add_iff_right] at h
      simp [mergeSeqGo, ih os h]

/-- Deleting a position with `"~"` inside the source range is the same as
merging with that position removed from all three lists. -/
theorem mergeSeqGo_erase_tilde :
    ∀ (i : Nat) (ds os bs : List Yaml),
    i < ds.length → os.length = bs.length → bs.get? i = some (.str "~") →
    mergeSeqGo ds os bs
      = mergeSeqGo (ds.eraseIdx i) (os.eraseIdx i) (bs.eraseIdx i) := by
  intro i
  induction i with
  | zero =>
    intro ds os bs hd hlen hb
    match ds, os, bs with
    | [], _, _ => simp at hd
    | d :: ds2, [], b :: bs2 => simp at hlen
    | d :: ds2, o :: os2, [] => simp at hb
    | d :: ds2, [], [] => simp at hb
    | d :: ds2, o :: os2, b :: bs2 =>
      simp only [List.get?] at hb
      injection hb with hb
      subst hb
      simp [mergeSeqGo, List.eraseIdx]
  | succ i ih =>
    intro ds os bs hd hlen hb
    match ds, os, bs with
    | [], _, _ => simp at hd
    | d :: ds2, os, [] => simp at hb
    | d :: ds2, [], b :: bs2 => simp at hlen
    | d :: ds2, o :: os2, b :: bs2 =>
      have hd2 : i < ds2.length := by simpa using Nat.lt_of_succ_lt_succ hd
      have hlen2 : os2.length = bs2.length := by simpa using hlen
      have hb2 : bs2.get? i = some (.str "~") := by simpa using hb
      have IH := ih ds2 os2 bs2 hd2 hlen2 hb2
      simp only [List.eraseIdx_cons_succ]
      by_cases hbt : b = .str "~"
      · subst hbt
        simp only [mergeSeqGo, if_pos rfl]
        exact IH
      · by_cases hbe : b = .str ""
        · subst hbe
          simp only [mergeSeqGo, if_neg hbt, if_pos rfl, IH]
        · by_cases hsc : o.isScalarPy = true
          · simp [mergeSeqGo, hbt, hbe, hsc, IH]
          · simp [mergeSeqGo, hbt, hbe, hsc, IH]

/-- C2 (counterexample): a sequence position at index 0 of an empty source
sequence whose literal override is `"~"` is not skipped — the typed value
(`None`) is appended instead. -/
theorem c2_counterexample :
    merge_docs [.map [("xs", .seq [])]]
        [.map [("xs", .seq [.null])]]
        [.map [("xs", .seq [.str "~"])]]
      = .ok [.map [("xs", .seq [.null])]]
    ∧ (Yaml.seq [.null] ≠ .seq []) := by
  exact ⟨rfl, by decide⟩

/-- C2 (amended): a mapping key whose literal override is `"~"` is absent
from the merged mapping; a sequence position with literal `"~"` *within
the source range* is skipped (merging equals merging with that position
removed everywhere); at or beyond the source length every position —
`"~"` included — appends its typed override value. -/
theorem c2_amended :
    (∀ (dkvs bkvs rkvs : List (String × Yaml)) (ov : Yaml) (k : String),
      (k, Yaml.str "~") ∈ bkvs →
      (bkvs.map Prod.fst).Nodup → (dkvs.map Prod.fst).Nodup →
      mergePart (.map dkvs) ov (.map bkvs) = .ok (.map rkvs) →
      k ∉ rkvs.map Prod.fst)
    ∧ (∀ (ds os bs : List Yaml) (i : Nat),
      i < ds.length → os.length = bs.length → bs.get? i = some (.str "~") →
      mergePart (.seq ds) (.seq os) (.seq bs)
        = mergePart (.seq (ds.eraseIdx i)) (.seq (os.eraseIdx i))
            (.seq (bs.eraseIdx i)))
    ∧ (∀ (os bs : List Yaml), bs.length ≤ os.length →
      mergePart (.seq []) (.seq os) (.seq bs) = .ok (.seq (os.take bs.length))) := by
  refine ⟨?_, ?_, ?_⟩
  · intro dkvs bkvs rkvs ov k hmem hndb hndd h
    simp only [mergePart] at h
    match hgo : mergeMapGo dkvs ov bkvs with
    | .error e => rw [hgo] at h; simp at h
    | .ok (res, rem) =>
      rw [hgo] at h
      simp only [Except.ok.injEq, Yaml.map.injEq] at h
      rw [← h]
      simp only [List.map_append, List.mem_append]
      rintro (hk | hk)
      · exact mergeMapGo_tilde_res bkvs dkvs res rem ov k hmem hndb hgo hk
      · have habs := mergeMapGo_key_rem bkvs dkvs res rem ov k
          (by simpa using List.mem_map_of_mem Prod.fst hmem) hndd hgo
        rw [lookupKey_eq_none_iff] at habs
        exact habs hk
  · intro ds os bs i h1 h2 h3
    simp only [mergePart]
    rw [mergeSeqGo_erase_tilde i ds os bs h1 h2 h3]
  · intro os bs h
    simp only [mergePart]
    rw [mergeSeqGo_nil_append bs os h]

/-- C2 (witness): the amended theorem at the repository's
persistent-volume-claim example and at concrete sequences. -/
theorem c2_witness :
    ("persistentVolumeClaim" ∉
      ([("name", Yaml.str "some-data")] : List (String × Yaml)).map Prod.fst)
    ∧ (mergePart (.seq [.int 1, .int 2]) (.seq [.null, .str ""])
          (.seq [.str "~", .str ""])
        = mergePart (.seq [.int 2]) (.seq [.str ""]) (.seq [.str ""]))
    ∧ mergePart (.seq []) (.seq [.null]) (.seq [.str "~"]) = .ok (.seq [.null]) := by
  refine ⟨?_, ?_, ?_⟩
  · exact c2_amended.1
      [("name", Yaml.str "some-data"),
       ("persistentVolumeClaim", Yaml.map [("claimName", Yaml.str "some-data")])]
      [("persistentVolumeClaim", Yaml.str "~")]
      [("name", Yaml.str "some-data")]
      (Yaml.map [("persistentVolumeClaim", Yaml.null)])
      "persistentVolumeClaim" (by decide) (by decide) (by decide) (by decide)
  · exact c2_amended.2.1 [.int 1, .int 2] [.null, .str ""] [.str "~", .str ""] 0
      (by decide) (by decide) (by decide)
  · exact c2_amended.2.2 [.null] [.str "~"] (by decide)

/-- The "keep" branch: a key whose *typed* override value is `""` and
which is present in the source keeps its source value. -/
theorem mergeMapGo_keep :
    ∀ (bkvs dkvs res rem okvs : List (String × Yaml)) (k : String) (d b : Yaml),
    (k, b) ∈ bkvs → b ≠ .str "~" →
    lookupKey okvs k = some (.str "") →
    lookupKey dkvs k = some d →
    (bkvs.map Prod.fst).Nodup →
    mergeMapGo dkvs (.map okvs) bkvs = .ok (res, rem) →
    (k, d) ∈ res := by
  intro bkvs
  induction bkvs with
  | nil =>
    intro dkvs res rem okvs k d b hk
    simp at hk
  | cons hd rest ih =>
    obtain ⟨k2, b2⟩ := hd
    intro dkvs res rem okvs k d b hk hbt hok hdk hnd h
    simp only [List.map_cons, List.nodup_cons] at hnd
    rcases List.mem_cons.mp hk with hk2 | hk2
    · obtain ⟨hkk, hbb⟩ := Prod.mk.injEq .. ▸ hk2
      subst hkk
      rcases mergeMapGo_cons_inv dkvs (.map okvs) k b2 rest res rem h with
        ⟨hb, _⟩ | ⟨_, o, hov, hcase⟩
      · exact absurd (hbb ▸ hb) hbt
      · have ho : o = .str "" := by
          simp only [ovSubscript, hok] at hov
          exact (Except.ok.injEq .. ▸ hov).symm
        subst ho
        rcases hcase with ⟨_, d2, res2, hd2, _, hres⟩ |
          ⟨hne, _, _, _, _⟩ | ⟨hne, _, _, _, _⟩ | ⟨hne, _, _, _, _⟩
        · rw [hdk] at hd2
          injection hd2 with hd2
          subst hd2
          rw [hres]
          exact List.mem_cons_self _ _
        all_goals exact absurd rfl hne
    · have hne : k ≠ k2 := by
        intro he
        subst he
        exact hnd.1 (by simpa using List.mem_map_of_mem Prod.fst hk2)
      have hdk2 : lookupKey (eraseKey dkvs k2) k = some d := by
        rw [lookupKey_eraseKey_ne dkvs k k2 (fun hh => hne hh.symm)]
        exact hdk
      rcases mergeMapGo_cons_inv dkvs (.map okvs) k2 b2 rest res rem h with
        ⟨_, hrec⟩ | ⟨_, o, _, hcase⟩
      · exact ih _ res rem okvs k d b hk2 hbt hok hdk2 hnd.2 hrec
      · rcases hcase with ⟨_, d2, res2, _, hrec, hres⟩ |
          ⟨_, _, res2, hrec, hres⟩ |
          ⟨_, _, _, v, res2, _, hrec, hres⟩ |
          ⟨_, _, d2, v, res2, _, _, hrec, hres⟩ <;>
        · subst hres
          exact List.mem_cons_of_mem _
            (ih _ res2 rem okvs k d b hk2 hbt hok hdk2 hnd.2 hrec)

/-- The "keep" branch on an absent key: `res[key] = doc[key]` raises
`KeyError`, so the merge of the enclosing mapping never succeeds. -/
theorem mergeMapGo_keep_absent :
    ∀ (bkvs dkvs okvs : List (String × Yaml)) (k : String) (b : Yaml),
    (k, b) ∈ bkvs → b ≠ .str "~" →
    lookupKey okvs k = some (.str "") →
    lookupKey dkvs k = none →
    ∀ res rem, mergeMapGo dkvs (.map okvs) bkvs ≠ .ok (res, rem) := by
  intro bkvs
  induction bkvs with
  | nil =>
    intro dkvs okvs k b hk
    simp at hk
  | cons hd rest ih =>
    obtain ⟨k2, b2⟩ := hd
    intro dkvs okvs k b hk hbt hok hdk res rem h
    rcases List.mem_cons.mp hk with hk2 | hk2
    · obtain ⟨hkk, hbb⟩ := Prod.mk.injEq .. ▸ hk2
      subst hkk
      rcases mergeMapGo_cons_inv dkvs (.map okvs) k b2 rest res rem h with
        ⟨hb, _⟩ | ⟨_, o, hov, hcase⟩
      · exact absurd (hbb ▸ hb) hbt
      · have ho : o = .str "" := by
          simp only [ovSubscript, hok] at hov
          exact (Except.ok.injEq .. ▸ hov).symm
        subst ho
        rcases hcase with ⟨_, d2, res2, hd2, _, _⟩ |
          ⟨hne, _, _, _, _⟩ | ⟨hne, _, _, _, _⟩ | ⟨hne, _, _, _, _⟩
        · rw [hdk] at hd2
          exact absurd hd2 (by simp)
        all_goals exact absurd rfl hne
    · have hdk2 : lookupKey (eraseKey dkvs k2) k = none :=
        lookupKey_none_eraseKey dkvs k k2 hdk
      rcases mergeMapGo_cons_inv dkvs (.map okvs) k2 b2 rest res rem h with
        ⟨_, hrec⟩ | ⟨_, o, _, hcase⟩
      · exact ih _ okvs k b hk2 hbt hok hdk2 res rem hrec
      · rcases hcase with ⟨_, d2, res2, _, hrec, _⟩ |
          ⟨_, _, res2, hrec, _⟩ |
          ⟨_, _, _, v, res2, _, hrec, _⟩ |
          ⟨_, _, d2, v, res2, _, _, hrec, _⟩ <;>
        exact ih _ okvs k b hk2 hbt hok hdk2 res2 rem hrec

/-- C3 (counterexample): with override `k:` (typed `None`, literal `""`)
against source `{k: 5}`, the merge raises `NotImplementedError` instead of
keeping the source value — the decision is keyed on the typed dialect. -/
theorem c3_counterexample :
    merge_docs [.map [("k", .int 5)]] [.map [("k", .null)]] [.map [("k", .str "")]]
      = .error "NotImplementedError"
    ∧ (Except.error "NotImplementedError"
        ≠ (.ok [Yaml.map [("k", Yaml.int 5)]] : Except String (List Yaml))) := by
  exact ⟨rfl, by decide⟩

/-- C3 (amended): the "keep" decision reads the *typed* dialect
(`overrides[key] == ""`), and `res[key] = doc[key]` demands the key in the
source: when the typed value is `""` and the key is present, the source
value is kept; when the key is absent, the merge fails with `KeyError`
rather than leaving the key absent. -/
theorem c3_amended :
    (∀ (bkvs dkvs res okvs : List (String × Yaml)) (k : String) (d b : Yaml),
      (k, b) ∈ bkvs → b ≠ .str "~" →
      lookupKey okvs k = some (.str "") →
      lookupKey dkvs k = some d →
      (bkvs.map Prod.fst).Nodup →
      mergePart (.map dkvs) (.map okvs) (.map bkvs) = .ok (.map res) →
      (k, d) ∈ res)
    ∧ (∀ (bkvs dkvs okvs : List (String × Yaml)) (k : String) (b : Yaml)
        (r : Yaml),
      (k, b) ∈ bkvs → b ≠ .str "~" →
      lookupKey okvs k = some (.str "") →
      lookupKey dkvs k = none →
      mergePart (.map dkvs) (.map okvs) (.map bkvs) ≠ .ok r) := by
  constructor
  · intro bkvs dkvs res okvs k d b hk hbt hok hdk hnd h
    simp only [mergePart] at h
    match hgo : mergeMapGo dkvs (.map okvs) bkvs with
    | .error e => rw [hgo] at h; simp at h
    | .ok (res1, rem1) =>
      rw [hgo] at h
      simp only [Except.ok.injEq, Yaml.map.injEq] at h
      rw [← h]
      exact List.mem_append_left _
        (mergeMapGo_keep bkvs dkvs res1 rem1 okvs k d b hk hbt hok hdk hnd hgo)
  · intro bkvs dkvs okvs k b r hk hbt hok hdk h
    simp only [mergePart] at h
    match hgo : mergeMapGo dkvs (.map okvs) bkvs with
    | .error e => rw [hgo] at h; simp at h
    | .ok (res1, rem1) =>
      exact mergeMapGo_keep_absent bkvs dkvs okvs k b hk hbt hok hdk res1 rem1 hgo

/-- C3 (witness): the amended theorem at a concrete mapping — the typed
`""` keeps `MY_SETTING: "foo"`, and the same override against an empty
source fails. -/
theorem c3_witness :
    (("MY_SETTING", Yaml.str "foo")
      ∈ ([("MY_SETTING", Yaml.str "foo"), ("OTHER", Yaml.int 1)]
          : List (String × Yaml)))
    ∧ mergePart (.map []) (.map [("k", .str "")]) (.map [("k", .str "")])
        ≠ .ok (.map []) := by
  constructor
  · have h := c3_amended.1
      [("MY_SETTING", Yaml.str "")]
      [("MY_SETTING", Yaml.str "foo"), ("OTHER", Yaml.int 1)]
      [("MY_SETTING", Yaml.str "foo"), ("OTHER", Yaml.int 1)]
      [("MY_SETTING", Yaml.str "")]
      "MY_SETTING" (Yaml.str "foo") (Yaml.str "")
      (by decide) (by decide) (by decide) (by decide) (by decide) (by decide)
    exact h
  · exact c3_amended.2 [("k", Yaml.str "")] [] [("k", Yaml.str "")]
      "k" (Yaml.str "") (.map []) (by decide) (by decide) (by decide) (by decide)

/-- Projection of `seqFreePairs` to the entries. -/
theorem seqFreePairs_mem :
    ∀ (kvs : List (String × Yaml)), Yaml.seqFreePairs kvs = true →
    ∀ p ∈ kvs, Yaml.seqFree p.2 = true := by
  intro kvs
  induction kvs with
  | nil => intro _ p hp; simp at hp
  | cons hd tl ih =>
    obtain ⟨k, v⟩ := hd
    intro h p hp
    rw [Yaml.seqFreePairs, Bool.and_eq_true] at h
    rcases List.mem_cons.mp hp with hp | hp
    · rw [hp]; exact h.1
    · exact ih h.2 p hp

/-- Projection of `mapsNodupPairs` to the entries. -/
theorem mapsNodupPairs_mem :
    ∀ (kvs : List (String × Yaml)), Yaml.mapsNodupPairs kvs = true →
    ∀ p ∈ kvs, Yaml.mapsNodup p.2 = true := by
  intro kvs
  induction kvs with
  | nil => intro _ p hp; simp at hp
  | cons hd tl ih =>
    obtain ⟨k, v⟩ := hd
    intro h p hp
    rw [Yaml.mapsNodupPairs, Bool.and_eq_true] at h
    rcases List.mem_cons.mp hp with hp | hp
    · rw [hp]; exact h.1
    · exact ih h.2 p hp

/-- Introduction of `mapsNodupPairs` from the entries. -/
theorem mapsNodupPairs_intro :
    ∀ (kvs : List (String × Yaml)),
    (∀ p ∈ kvs, Yaml.mapsNodup p.2 = true) → Yaml.mapsNodupPairs kvs = true := by
  intro kvs
  induction kvs with
  | nil => intro _; rfl
  | cons hd tl ih =>
    obtain ⟨k, v⟩ := hd
    intro h
    rw [Yaml.mapsNodupPairs, Bool.and_eq_true]
    exact ⟨h (k, v) (List.mem_cons_self _ _), ih (fun p hp => h p (List.mem_cons_of_mem _ hp))⟩

/-- `mapsNodup` on a mapping unpacked. -/
theorem mapsNodup_map_iff (kvs : List (String × Yaml)) :
    Yaml.mapsNodup (.map kvs) = true
      ↔ (kvs.map Prod.fst).Nodup ∧ ∀ p ∈ kvs, Yaml.mapsNodup p.2 = true := by
  rw [Yaml.mapsNodup, Bool.and_eq_true, decide_eq_true_iff]
  constructor
  · rintro ⟨h1, h2⟩
    exact ⟨h1, mapsNodupPairs_mem kvs h2⟩
  · rintro ⟨h1, h2⟩
    exact ⟨h1, mapsNodupPairs_intro kvs h2⟩

/-- Every `type(x)()` empty value satisfies `mapsNodup`. -/
theorem mapsNodup_emptyLike (o : Yaml) : Yaml.mapsNodup (Yaml.emptyLike o) = true := by
  match o with
  | .null | .str _ | .int _ | .bool _ | .map _ | .seq _ => rfl

/-- Aligned dialect mappings list the same keys in the same order. -/
theorem dialectMatchPairs_keys :
    ∀ (okvs bkvs : List (String × Yaml)), dialectMatchPairs okvs bkvs = true →
    okvs.map Prod.fst = bkvs.map Prod.fst := by
  intro okvs
  induction okvs with
  | nil =>
    intro bkvs h
    match bkvs with
    | [] => rfl
    | _ :: _ => simp [dialectMatchPairs] at h
  | cons hd tl ih =>
    obtain ⟨k, o⟩ := hd
    intro bkvs h
    match bkvs with
    | [] => simp [dialectMatchPairs] at h
    | (k2, b) :: bs =>
      rw [dialectMatchPairs, Bool.and_eq_true, Bool.and_eq_true] at h
      obtain ⟨⟨hk, _⟩, hrest⟩ := h
      simp only [List.map_cons]
      rw [ih bs hrest]
      congr 1
      exact beq_iff_eq.mp hk

/-- The typed value looked up for an override key corresponds to its
literal value (keys of the literal dict distinct). -/
theorem dialectMatchPairs_lookup :
    ∀ (bkvs okvs : List (String × Yaml)),
    dialectMatchPairs okvs bkvs = true →
    (bkvs.map Prod.fst).Nodup →
    ∀ k b o, (k, b) ∈ bkvs → lookupKey okvs k = some o →
    dialectMatch o b = true := by
  intro bkvs
  induction bkvs with
  | nil =>
    intro okvs _ _ k b o hk
    simp at hk
  | cons hd tl ih =>
    obtain ⟨k2, b2⟩ := hd
    intro okvs hdm hnd k b o hk hok
    match okvs with
    | [] => simp [dialectMatchPairs] at hdm
    | (k3, o3) :: orest =>
      rw [dialectMatchPairs, Bool.and_eq_true, Bool.and_eq_true] at hdm
      obtain ⟨⟨hk32, hdm1⟩, hdmrest⟩ := hdm
      have hk32' : k3 = k2 := beq_iff_eq.mp hk32
      subst hk32'
      simp only [List.map_cons, List.nodup_cons] at hnd
      rcases List.mem_cons.mp hk with hk2 | hk2
      · obtain ⟨hkk, hbb⟩ := Prod.mk.injEq .. ▸ hk2
        subst hkk
        rw [lookupKey, if_pos rfl] at hok
        injection hok with hok
        subst hok
        exact hbb ▸ hdm1
      · have hne : k3 ≠ k := by
          intro he
          subst he
          exact hnd.1 (by simpa using List.mem_map_of_mem Prod.fst hk2)
        rw [lookupKey, if_neg hne] at hok
        exact ih orest hdmrest hnd.2 k b o hk2 hok

/-- A successful merge of a node yields a mapping or a sequence. -/
theorem mergePart_ok_shape :
    ∀ (doc ov base r : Yaml), mergePart doc ov base = .ok r →
    (∃ kvs, r = .map kvs) ∨ (∃ xs, r = .seq xs) := by
  intro doc ov base r h
  cases doc with
  | null => simp [mergePart.eq_def] at h
  | int n => simp [mergePart.eq_def] at h
  | bool b => simp [mergePart.eq_def] at h
  | str s => simp [mergePart.eq_def] at h
  | map dkvs =>
    left
    rw [mergePart.eq_def] at h
    dsimp only at h
    repeat' split at h
    all_goals try exact Except.noConfusion h
    all_goals rw [Except.ok.injEq] at h
    all_goals exact ⟨_, h.symm⟩
  | seq ds =>
    right
    rw [mergePart.eq_def] at h
    dsimp only at h
    repeat' split at h
    all_goals try exact Except.noConfusion h
    all_goals rw [Except.ok.injEq] at h
    all_goals exact ⟨_, h.symm⟩

/-- The override-driven keys form a sublist of the override keys. -/
theorem mergeMapGo_res_keys_sublist :
    ∀ (bkvs dkvs res rem : List (String × Yaml)) (ov : Yaml),
    mergeMapGo dkvs ov bkvs = .ok (res, rem) →
    List.Sublist (res.map Prod.fst) (bkvs.map Prod.fst) := by
  intro bkvs
  induction bkvs with
  | nil =>
    intro dkvs res rem ov h
    simp only [mergeMapGo, Except.ok.injEq, Prod.mk.injEq] at h
    rw [← h.1]
  | cons hd rest ih =>
    obtain ⟨k2, b2⟩ := hd
    intro dkvs res rem ov h
    rcases mergeMapGo_cons_inv dkvs ov k2 b2 rest res rem h with
      ⟨_, hrec⟩ | ⟨_, o, _, hcase⟩
    · exact (ih _ _ _ _ hrec).trans (List.sublist_cons_self _ _)
    · rcases hcase with ⟨_, d, res2, _, hrec, hres⟩ |
        ⟨_, _, res2, hrec, hres⟩ |
        ⟨_, _, _, v, res2, _, hrec, hres⟩ |
        ⟨_, _, d, v, res2, _, _, hrec, hres⟩ <;>
      · subst hres
        simpa using (ih _ _ _ _ hrec).cons₂ k2

/-- Erasing a key absent from the front of an append skips the front. -/
theorem eraseKey_append_absent :
    ∀ (l1 l2 : List (String × Yaml)) (k : String),
    lookupKey l1 k = none →
    eraseKey (l1 ++ l2) k = l1 ++ eraseKey l2 k := by
  intro l1
  induction l1 with
  | nil => intro l2 k _; rfl
  | cons hd tl ih =>
    obtain ⟨k2, v⟩ := hd
    intro l2 k h
    rw [lookupKey] at h
    by_cases h2 : k2 = k
    · rw [if_pos h2] at h
      exact absurd h (by simp)
    · rw [if_neg h2] at h
      simp only [List.cons_append]
      rw [eraseKey, if_neg h2, ih l2 k h]

/-- A successful lookup is a membership. -/
theorem lookupKey_some_mem :
    ∀ (kvs : List (String × Yaml)) (k : String) (v : Yaml),
    lookupKey kvs k = some v → (k, v) ∈ kvs := by
  intro kvs
  induction kvs with
  | nil => intro k v h; simp [lookupKey] at h
  | cons hd tl ih =>
    obtain ⟨k2, w⟩ := hd
    intro k v h
    rw [lookupKey] at h
    by_cases h2 : k2 = k
    · rw [if_pos h2] at h
      injection h with h
      subst h2 h
      exact List.mem_cons_self _ _
    · rw [if_neg h2] at h
      exact List.mem_cons_of_mem _ (ih k v h)

/-- Unfolding a successful dict subscript. -/
theorem ovSubscript_ok_lookup (okvs : List (String × Yaml)) (k : String) (o : Yaml)
    (h : ovSubscript (.map okvs) k = .ok o) : lookupKey okvs k = some o := by
  rw [ovSubscript] at h
  match hl : lookupKey okvs k with
  | none => rw [hl] at h; exact absurd h (by simp)
  | some v => rw [hl] at h; injection h with h; rw [h]

/-- Scalars trivially satisfy `mapsNodup`. -/
theorem mapsNodup_of_scalar (o : Yaml) (h : Yaml.isScalarPy o = true) :
    Yaml.mapsNodup o = true := by
  match o with
  | .str _ | .int _ | .bool _ => rfl
  | .null | .map _ | .seq _ => simp [Yaml.isScalarPy] at h

/-- The `_nest` adjustment preserves `mapsNodup`. -/
theorem mapsNodup_nest (d o : Yaml) (h : Yaml.mapsNodup d = true) :
    Yaml.mapsNodup (match d with | Yaml.null => Yaml.emptyLike o | x => x) = true := by
  match d with
  | .null => exact mapsNodup_emptyLike o
  | .str _ | .int _ | .bool _ | .map _ | .seq _ => exact h

/-- A typed value dialect-matching a literal mapping is a mapping with
aligned entries. -/
theorem dialectMatch_map_inv (ov : Yaml) (bkvs : List (String × Yaml))
    (h : dialectMatch ov (.map bkvs) = true) :
    ∃ okvs, ov = .map okvs ∧ dialectMatchPairs okvs bkvs = true := by
  match ov with
  | .map okvs => exact ⟨okvs, rfl, h⟩
  | .null | .str _ | .int _ | .bool _ | .seq _ => simp [dialectMatch] at h

/-- One override application is a fixed point of the dict merge loop: the
first run's output, merged again under the same overrides, reproduces
itself, and all override-driven values keep distinct mapping keys.  `IH`
is the induction hypothesis of the enclosing size induction. -/
theorem mergeMapGoIdem (n : Nat)
    (IH : ∀ b2 : Yaml, sizeOf b2 < n →
      ∀ ov doc r, Yaml.seqFree b2 = true → dialectMatch ov b2 = true →
      Yaml.mapsNodup doc = true → Yaml.mapsNodup b2 = true →
      mergePart doc ov b2 = .ok r →
      Yaml.mapsNodup r = true ∧ mergePart r ov b2 = .ok r) :
    ∀ (bkvs okvs dkvs res rem : List (String × Yaml)),
    (∀ p ∈ bkvs, sizeOf p.2 < n) →
    (∀ p ∈ bkvs, Yaml.seqFree p.2 = true) →
    (∀ k b o, (k, b) ∈ bkvs → lookupKey okvs k = some o →
      dialectMatch o b = true) →
    (dkvs.map Prod.fst).Nodup →
    (∀ p ∈ dkvs, Yaml.mapsNodup p.2 = true) →
    (bkvs.map Prod.fst).Nodup →
    (∀ p ∈ bkvs, Yaml.mapsNodup p.2 = true) →
    mergeMapGo dkvs (.map okvs) bkvs = .ok (res, rem) →
    (∀ p ∈ res, Yaml.mapsNodup p.2 = true)
    ∧ mergeMapGo (res ++ rem) (.map okvs) bkvs = .ok (res, rem) := by
  intro bkvs
  induction bkvs with
  | nil =>
    intro okvs dkvs res rem _ _ _ _ _ _ _ h
    simp only [mergeMapGo, Except.ok.injEq, Prod.mk.injEq] at h
    obtain ⟨h1, h2⟩ := h
    subst h1
    subst h2
    constructor
    · intro p hp; simp at hp
    · simp [mergeMapGo]
  | cons hd rest ihl =>
    obtain ⟨k2, b2⟩ := hd
    intro okvs dkvs res rem hsz hsf hdl hndd hvd hndb hvb h
    simp only [List.map_cons, List.nodup_cons] at hndb
    -- restrictions of the hereditary hypotheses to the tail
    have hsz2 : ∀ p ∈ rest, sizeOf p.2 < n :=
      fun p hp => hsz p (List.mem_cons_of_mem _ hp)
    have hsf2 : ∀ p ∈ rest, Yaml.seqFree p.2 = true :=
      fun p hp => hsf p (List.mem_cons_of_mem _ hp)
    have hdl2 : ∀ k b o, (k, b) ∈ rest → lookupKey okvs k = some o →
        dialectMatch o b = true :=
      fun k b o hk ho => hdl k b o (List.mem_cons_of_mem _ hk) ho
    have hvb2 : ∀ p ∈ rest, Yaml.mapsNodup p.2 = true :=
      fun p hp => hvb p (List.mem_cons_of_mem _ hp)
    have hndd2 : ((eraseKey dkvs k2).map Prod.fst).Nodup :=
      eraseKey_keys_nodup dkvs k2 hndd
    have hvd2 : ∀ p ∈ eraseKey dkvs k2, Yaml.mapsNodup p.2 = true :=
      fun p hp => hvd p ((eraseKey_sublist dkvs k2).subset hp)
    rcases mergeMapGo_cons_inv dkvs (.map okvs) k2 b2 rest res rem h with
      ⟨hb, hrec⟩ | ⟨hb, o, hov, hcase⟩
    · -- branch: delete (b2 = "~")
      subst hb
      obtain ⟨hresv, hsec⟩ := ihl okvs (eraseKey dkvs k2) res rem
        hsz2 hsf2 hdl2 hndd2 hvd2 hndb.2 hvb2 hrec
      refine ⟨hresv, ?_⟩
      have hk2res : lookupKey res k2 = none := by
        rw [lookupKey_eq_none_iff]
        intro hmem
        exact hndb.1
          ((mergeMapGo_res_keys_sublist rest _ res rem _ hrec).subset hmem)
      have hk2rem : lookupKey rem k2 = none :=
        mergeMapGo_absent_rem rest _ res rem _ k2
          (lookupKey_eraseKey_self dkvs k2 hndd) hrec
      simp only [mergeMapGo, if_pos rfl]
      rw [eraseKey_append_absent res rem k2 hk2res,
        eraseKey_of_absent rem k2 hk2rem]
      exact hsec
    · -- the four non-delete branches share the override lookup
      have hlook := ovSubscript_ok_lookup okvs k2 o hov
      rcases hcase with ⟨ho, d, res2, hd2, hrec, hres⟩ |
        ⟨ho, hsc, res2, hrec, hres⟩ |
        ⟨ho, hsc, hd2, v, res2, hmp, hrec, hres⟩ |
        ⟨ho, hsc, d, v, res2, hd2, hmp, hrec, hres⟩
      · -- keep branch (typed "")
        subst hres
        subst ho
        obtain ⟨hresv, hsec⟩ := ihl okvs (eraseKey dkvs k2) res2 rem
          hsz2 hsf2 hdl2 hndd2 hvd2 hndb.2 hvb2 hrec
        constructor
        · intro p hp
          rcases List.mem_cons.mp hp with hp | hp
          · rw [hp]
            exact hvd (k2, d) (lookupKey_some_mem dkvs k2 d hd2)
          · exact hresv p hp
        · simp only [mergeMapGo, if_neg hb, List.cons_append]
          rw [hov]
          dsimp only
          rw [if_pos rfl, lookupKey, if_pos rfl, eraseKey, if_pos rfl, hsec]
      · -- scalar branch
        subst hres
        obtain ⟨hresv, hsec⟩ := ihl okvs (eraseKey dkvs k2) res2 rem
          hsz2 hsf2 hdl2 hndd2 hvd2 hndb.2 hvb2 hrec
        constructor
        · intro p hp
          rcases List.mem_cons.mp hp with hp | hp
          · rw [hp]
            exact mapsNodup_of_scalar o hsc
          · exact hresv p hp
        · simp only [mergeMapGo, if_neg hb, List.cons_append]
          rw [hov]
          dsimp only
          rw [if_neg ho, if_pos hsc, eraseKey, if_pos rfl, hsec]
      · -- added branch (key absent from the source)
        subst hres
        obtain ⟨hvnd, hvid⟩ := IH b2
          (hsz (k2, b2) (List.mem_cons_self _ _))
          o (Yaml.emptyLike o) v
          (hsf (k2, b2) (List.mem_cons_self _ _))
          (hdl k2 b2 o (List.mem_cons_self _ _) hlook)
          (mapsNodup_emptyLike o)
          (hvb (k2, b2) (List.mem_cons_self _ _)) hmp
        obtain ⟨hresv, hsec⟩ := ihl okvs (eraseKey dkvs k2) res2 rem
          hsz2 hsf2 hdl2 hndd2 hvd2 hndb.2 hvb2 hrec
        constructor
        · intro p hp
          rcases List.mem_cons.mp hp with hp | hp
          · rw [hp]; exact hvnd
          · exact hresv p hp
        · have hvshape := mergePart_ok_shape _ _ _ _ hmp
          rcases hvshape with ⟨kvs1, hv⟩ | ⟨xs1, hv⟩ <;> subst hv <;>
          · simp only [mergeMapGo, if_neg hb, List.cons_append]
            rw [hov]
            dsimp only
            rw [if_neg ho, if_neg (by simp [hsc]), lookupKey, if_pos rfl]
            dsimp only
            rw [hvid, eraseKey, if_pos rfl, hsec]
      · -- nesting branch (key present in the source)
        subst hres
        have hd_mem := hvd (k2, d) (lookupKey_some_mem dkvs k2 d hd2)
        obtain ⟨hresv, hsec⟩ := ihl okvs (eraseKey dkvs k2) res2 rem
          hsz2 hsf2 hdl2 hndd2 hvd2 hndb.2 hvb2 hrec
        cases d <;> dsimp only at hmp <;>
        · obtain ⟨hvnd, hvid⟩ := IH b2
            (hsz (k2, b2) (List.mem_cons_self _ _)) o _ v
            (hsf (k2, b2) (List.mem_cons_self _ _))
            (hdl k2 b2 o (List.mem_cons_self _ _) hlook)
            (by first | exact mapsNodup_emptyLike o | exact hd_mem)
            (hvb (k2, b2) (List.mem_cons_self _ _)) hmp
          constructor
          · intro p hp
            rcases List.mem_cons.mp hp with hp | hp
            · rw [hp]; exact hvnd
            · exact hresv p hp
          · have hvshape := mergePart_ok_shape _ _ _ _ hmp
            rcases hvshape with ⟨kvs1, hv⟩ | ⟨xs1, hv⟩ <;> subst hv <;>
            · simp only [mergeMapGo, if_neg hb, List.cons_append]
              rw [hov]
              dsimp only
              rw [if_neg ho, if_neg (by simp [hsc]), lookupKey, if_pos rfl]
              dsimp only
              rw [hvid, eraseKey, if_pos rfl, hsec]

/-- Size induction wrapper: one merge is a fixed point of a second merge
with the same typed/literal override node, for sequence-free overrides. -/
theorem mergePartIdemAux :
    ∀ (n : Nat) (base : Yaml), sizeOf base ≤ n →
    ∀ ov doc r, Yaml.seqFree base = true → dialectMatch ov base = true →
    Yaml.mapsNodup doc = true → Yaml.mapsNodup base = true →
    mergePart doc ov base = .ok r →
    Yaml.mapsNodup r = true ∧ mergePart r ov base = .ok r := by
  intro n
  induction n using Nat.strong_induction_on with
  | _ n IHn =>
    intro base hsz ov doc r hsf hdm hndd hndb h
    cases base with
    | seq bs => rw [Yaml.seqFree] at hsf; exact absurd hsf (by simp)
    | null => cases ov <;> simp [dialectMatch] at hdm
    | int m => cases ov <;> simp [dialectMatch] at hdm
    | bool bb => cases ov <;> simp [dialectMatch] at hdm
    | str t =>
      cases doc with
      | null => simp [mergePart.eq_def] at h
      | int _ => simp [mergePart.eq_def] at h
      | bool _ => simp [mergePart.eq_def] at h
      | str _ => simp [mergePart.eq_def] at h
      | map dkvs =>
        rw [mergePart.eq_def] at h
        dsimp only at h
        by_cases ht : t = ""
        · rw [if_pos ht] at h
          rw [Except.ok.injEq] at h
          subst h
          refine ⟨hndd, ?_⟩
          rw [mergePart.eq_def]
          dsimp only
          rw [if_pos ht]
        · rw [if_neg ht] at h
          exact absurd h (by simp)
      | seq ds =>
        rw [mergePart.eq_def] at h
        dsimp only at h
        by_cases ht : t = ""
        · subst ht
          cases ov with
          | null =>
            rw [if_pos rfl] at h
            simp [Yaml.pyLen] at h
          | str s => simp [dialectMatch] at hdm
          | int _ => simp [dialectMatch] at hdm
          | bool _ => simp [dialectMatch] at hdm
          | map _ => simp [dialectMatch] at hdm
          | seq _ => simp [dialectMatch] at hdm
        · rw [if_neg ht] at h
          exact absurd h (by simp)
    | map bkvs =>
      obtain ⟨okvs, hovm, hpairs⟩ := dialectMatch_map_inv ov bkvs hdm
      subst hovm
      obtain ⟨hndbk, hvbk⟩ := (mapsNodup_map_iff bkvs).mp hndb
      cases doc with
      | null => simp [mergePart.eq_def] at h
      | int _ => simp [mergePart.eq_def] at h
      | bool _ => simp [mergePart.eq_def] at h
      | str _ => simp [mergePart.eq_def] at h
      | seq ds =>
        rw [mergePart.eq_def] at h
        dsimp only at h
        exact absurd h (by simp)
      | map dkvs =>
        obtain ⟨hnddk, hvdk⟩ := (mapsNodup_map_iff dkvs).mp hndd
        rw [mergePart.eq_def] at h
        dsimp only at h
        match hgo : mergeMapGo dkvs (.map okvs) bkvs with
        | .error e => rw [hgo] at h; exact absurd h (by simp)
        | .ok (res, rem) =>
          rw [hgo] at h
          rw [Except.ok.injEq] at h
          subst h
          have hszb : ∀ p ∈ bkvs, sizeOf p.2 < n := by
            intro p hp
            have h1 : sizeOf p < sizeOf bkvs := List.sizeOf_lt_of_mem hp
            have h2 : sizeOf p.2 < sizeOf p := by
              obtain ⟨a, b⟩ := p
              simp
            have h3 : sizeOf (Yaml.map bkvs) = 1 + sizeOf bkvs := by
              simp
            omega
          have IH2 : ∀ b2 : Yaml, sizeOf b2 < n →
              ∀ ov doc r, Yaml.seqFree b2 = true → dialectMatch ov b2 = true →
              Yaml.mapsNodup doc = true → Yaml.mapsNodup b2 = true →
              mergePart doc ov b2 = .ok r →
              Yaml.mapsNodup r = true ∧ mergePart r ov b2 = .ok r :=
            fun b2 hb2 => IHn (sizeOf b2) hb2 b2 (Nat.le_refl _)
          have hdl := dialectMatchPairs_lookup bkvs okvs hpairs hndbk
          have hsfp : Yaml.seqFreePairs bkvs = true := by
            rw [Yaml.seqFree] at hsf
            exact hsf
          obtain ⟨hresv, hsec⟩ := mergeMapGoIdem n IH2 bkvs okvs dkvs res rem
            hszb (seqFreePairs_mem bkvs hsfp) hdl hnddk hvdk hndbk hvbk hgo
          constructor
          · rw [mapsNodup_map_iff]
            constructor
            · rw [List.map_append]
              refine List.Nodup.append ?_ ?_ ?_
              · exact hndbk.sublist
                  (mergeMapGo_res_keys_sublist bkvs dkvs res rem _ hgo)
              · exact hnddk.sublist
                  ((mergeMapGo_rem_sublist bkvs dkvs res rem _ hgo).map Prod.fst)
              · intro k hk1 hk2
                have hkb : k ∈ bkvs.map Prod.fst :=
                  (mergeMapGo_res_keys_sublist bkvs dkvs res rem _ hgo).subset hk1
                have := mergeMapGo_key_rem bkvs dkvs res rem _ k hkb hnddk hgo
                rw [lookupKey_eq_none_iff] at this
                exact this hk2
            · intro p hp
              rcases List.mem_append.mp hp with hp | hp
              · exact hresv p hp
              · exact hvdk p ((mergeMapGo_rem_sublist bkvs dkvs res rem _ hgo).subset hp)
          · rw [mergePart.eq_def]
            dsimp only
            rw [hsec]

/-- Idempotence of one node's merge for sequence-free override nodes. -/
theorem mergePartIdem (base ov doc r : Yaml)
    (hsf : Yaml.seqFree base = true) (hdm : dialectMatch ov base = true)
    (hndd : Yaml.mapsNodup doc = true) (hndb : Yaml.mapsNodup base = true)
    (h : mergePart doc ov base = .ok r) : mergePart r ov base = .ok r :=
  (mergePartIdemAux (sizeOf base) base (Nat.le_refl _) ov doc r hsf hdm hndd hndb h).2

/-- C5 (counterexample): merging is not idempotent in general.  Source
`[1, 2]` with overrides whose literal values are `["~", ""]` (typed
`[None, None]`) merges to `[2]`; merging that result again skips index 0
(`"~"`) and *appends* the typed `None` at index 1 (now beyond the new
length), giving `[None]`, not `[2]`. -/
theorem c5_counterexample :
    merge_docs [Yaml.seq [Yaml.int 1, Yaml.int 2]]
        [Yaml.seq [Yaml.null, Yaml.null]]
        [Yaml.seq [Yaml.str "~", Yaml.str ""]] = .ok [Yaml.seq [Yaml.int 2]]
    ∧ merge_docs [Yaml.seq [Yaml.int 2]]
        [Yaml.seq [Yaml.null, Yaml.null]]
        [Yaml.seq [Yaml.str "~", Yaml.str ""]] ≠ .ok [Yaml.seq [Yaml.int 2]] := by
  decide

/-- C5 (amended): `merge_docs` is idempotent on *sequence-free* override
streams: when no override document contains a sequence anywhere (so the
length-sensitive append/skip branch never runs), the typed and literal
override streams describe the same file (`dialectMatch`), and all
mappings have distinct keys, then re-merging the merged result with the
same overrides returns it unchanged. -/
theorem c5_amended (src overrides base_overrides res : List Yaml)
    (hsf : ∀ b ∈ base_overrides, Yaml.seqFree b = true)
    (hdm : ∀ p ∈ overrides.zip base_overrides, dialectMatch p.1 p.2 = true)
    (hnd : ∀ d ∈ src, Yaml.mapsNodup d = true)
    (hndb : ∀ b ∈ base_overrides, Yaml.mapsNodup b = true)
    (h : merge_docs src overrides base_overrides = .ok res) :
    merge_docs res overrides base_overrides = .ok res := by
  unfold merge_docs at h ⊢
  induction src generalizing overrides base_overrides res with
  | nil =>
    simp only [mergeDocsGo, Except.ok.injEq] at h
    subst h
    simp only [mergeDocsGo]
  | cons d ds IH =>
    cases overrides with
    | nil => simp [mergeDocsGo] at h
    | cons o os =>
      cases base_overrides with
      | nil => simp [mergeDocsGo] at h
      | cons b bs =>
        simp only [mergeDocsGo] at h
        match hmp : mergePart d o b with
        | .error e => rw [hmp] at h; exact absurd h (by simp)
        | .ok r =>
          rw [hmp] at h
          dsimp only at h
          match hgo : mergeDocsGo ds os bs with
          | .error e => rw [hgo] at h; exact absurd h (by simp)
          | .ok rs =>
            rw [hgo] at h
            dsimp only at h
            rw [Except.ok.injEq] at h
            subst h
            have hb : Yaml.seqFree b = true := hsf b (List.mem_cons_self _ _)
            have hdmb : dialectMatch o b = true := by
              refine hdm (o, b) ?_
              rw [List.zip_cons_cons]
              exact List.mem_cons_self _ _
            have h1 := mergePartIdemAux (sizeOf b) b (Nat.le_refl _) o d r hb
              hdmb (hnd d (List.mem_cons_self _ _)) (hndb b (List.mem_cons_self _ _)) hmp
            have h2 := IH os bs rs
              (fun x hx => hsf x (List.mem_cons_of_mem _ hx))
              (fun p hp => by
                refine hdm p ?_
                rw [List.zip_cons_cons]
                exact List.mem_cons_of_mem _ hp)
              (fun x hx => hnd x (List.mem_cons_of_mem _ hx))
              (fun x hx => hndb x (List.mem_cons_of_mem _ hx))
              hgo
            simp only [mergeDocsGo]
            rw [h1.2]
            dsimp only
            rw [h2]

/-- C5 (witness): the amended idempotence theorem at a concrete merge —
one mapping document whose key `a` is replaced by the scalar override
`2` (typed `int 2`, literal `"2"`). -/
theorem c5_witness :
    merge_docs [Yaml.map [("a", Yaml.int 2)]] [Yaml.map [("a", Yaml.int 2)]]
        [Yaml.map [("a", Yaml.str "2")]] = .ok [Yaml.map [("a", Yaml.int 2)]] :=
  c5_amended [Yaml.map [("a", Yaml.int 1)]] [Yaml.map [("a", Yaml.int 2)]]
    [Yaml.map [("a", Yaml.str "2")]] [Yaml.map [("a", Yaml.int 2)]]
    (by decide) (by decide) (by decide) (by decide) (by decide)

/-- Decoding inverts the one-character UTF-8 encoding, for any valid
Unicode scalar value. -/
theorem utf8Decode_encodeChar (n : Nat)
    (hv : n < 0xD800 ∨ (0xDFFF < n ∧ n < 0x110000)) (rest : List Nat) :
    utf8Decode (utf8EncodeChar n ++ rest)
      = (utf8Decode rest).map (fun cs => Char.ofNat n :: cs) := by
  rw [utf8EncodeChar]
  by_cases h1 : n < 0x80
  · rw [if_pos h1, List.cons_append, List.nil_append]
    simp only [utf8Decode]
    rw [if_pos h1]
  · rw [if_neg h1]
    by_cases h2 : n < 0x800
    · rw [if_pos h2, List.cons_append, List.cons_append, List.nil_append]
      simp only [utf8Decode]
      rw [if_neg (by omega)]
      simp only [utf8DecodeTail1]
      rw [if_pos (by omega), if_pos (by omega)]
      have he : (0xC0 + n / 64 - 0xC0) * 64 + (0x80 + n % 64 - 0x80) = n := by omega
      rw [he]
    · rw [if_neg h2]
      by_cases h3 : n < 0x10000
      · rw [if_pos h3, List.cons_append, List.cons_append, List.cons_append, List.nil_append]
        simp only [utf8Decode]
        rw [if_neg (by omega)]
        simp only [utf8DecodeTail1]
        rw [if_neg (by omega)]
        simp only [utf8DecodeTail2]
        rw [if_pos (by omega), if_pos (by omega)]
        have he : (0xE0 + n / 4096 - 0xE0) * 4096 + (0x80 + n / 64 % 64 - 0x80) * 64
            + (0x80 + n % 64 - 0x80) = n := by omega
        rw [he]
      · rw [if_neg h3]
        rw [List.cons_append, List.cons_append, List.cons_append, List.cons_append,
          List.nil_append]
        simp only [utf8Decode]
        rw [if_neg (by omega)]
        simp only [utf8DecodeTail1]
        rw [if_neg (by omega)]
        simp only [utf8DecodeTail2]
        rw [if_neg (by omega)]
        simp only [utf8DecodeTail3]
        rw [if_pos (by omega), if_pos (by omega)]
        have he : (0xF0 + n / 262144 - 0xF0) * 262144 + (0x80 + n / 4096 % 64 - 0x80) * 4096
            + (0x80 + n / 64 % 64 - 0x80) * 64 + (0x80 + n % 64 - 0x80) = n := by omega
        rw [he]

/-- `bytes.decode("utf-8")` inverts `str.encode("utf-8")`. -/
theorem utf8Decode_encode (cs : List Char) :
    utf8Decode (utf8Encode cs) = some cs := by
  induction cs with
  | nil => rfl
  | cons c cs ih =>
    rw [utf8Encode]
    have hv : c.toNat < 0xD800 ∨ (0xDFFF < c.toNat ∧ c.toNat < 0x110000) := by
      have h := c.valid
      rw [UInt32.isValidChar] at h
      exact h
    rw [utf8Decode_encodeChar c.toNat hv (utf8Encode cs), ih]
    simp only [Option.map_some']
    rw [Char.ofNat_toNat]

/-- UTF-8 encodings consist of bytes. -/
theorem utf8EncodeChar_lt (n : Nat) (hn : n < 0x110000) :
    ∀ b ∈ utf8EncodeChar n, b < 256 := by
  intro b hb
  rw [utf8EncodeChar] at hb
  split_ifs at hb <;> simp at hb <;> omega

/-- UTF-8 encodings of strings consist of bytes. -/
theorem utf8Encode_lt (cs : List Char) : ∀ b ∈ utf8Encode cs, b < 256 := by
  induction cs with
  | nil => intro b hb; simp [utf8Encode] at hb
  | cons c cs ih =>
    intro b hb
    rw [utf8Encode] at hb
    rcases List.mem_append.mp hb with hb | hb
    · have hv : c.toNat < 0x110000 := by
        have h := c.valid
        rw [UInt32.isValidChar] at h
        rcases h with h | h
        · exact Nat.lt_trans h (by norm_num)
        · exact h.2
      exact utf8EncodeChar_lt c.toNat hv b hb
    · exact ih b hb

/-- The base64 alphabet tables invert each other. -/
theorem b64Index_b64Char : ∀ n, n < 64 → b64Index (b64Char n) = some n := by decide

/-- No alphabet character is the padding character. -/
theorem b64Char_ne_pad : ∀ n, n < 64 → ¬(b64Char n = '=') := by decide

/-- `base64.b64decode` inverts `base64.b64encode` on byte lists. -/
theorem b64DecodeChars_encode (bs : List Nat) (hb : ∀ b ∈ bs, b < 256) :
    b64DecodeChars (b64EncodeBytes bs) = some bs := by
  induction bs using b64EncodeBytes.induct with
  | case1 => rfl
  | case2 b0 =>
    have h0 : b0 < 256 := hb b0 (by simp)
    have hi0 := b64Index_b64Char (b0 / 4) (by omega)
    have hi1 := b64Index_b64Char (b0 % 4 * 16) (by omega)
    have hm : b0 % 4 * 16 % 16 = 0 := by omega
    simp only [b64EncodeBytes, b64DecodeChars, b64Quad, hi0, hi1, Option.bind_some]
    simp [hm]
    omega
  | case3 b0 b1 =>
    have h0 : b0 < 256 := hb b0 (by simp)
    have h1 : b1 < 256 := hb b1 (by simp)
    have hi0 := b64Index_b64Char (b0 / 4) (by omega)
    have hi1 := b64Index_b64Char (b0 % 4 * 16 + b1 / 16) (by omega)
    have hi2 := b64Index_b64Char (b1 % 16 * 4) (by omega)
    have hne : ¬(b64Char (b1 % 16 * 4) = '=') := b64Char_ne_pad _ (by omega)
    have hm : b1 % 16 * 4 % 4 = 0 := by omega
    simp only [b64EncodeBytes, b64DecodeChars, b64Quad, hi0, hi1, hi2, Option.bind_some]
    simp [hne, hm]
    constructor <;> omega
  | case4 b0 b1 b2 rest ih =>
    have h0 : b0 < 256 := hb b0 (by simp)
    have h1 : b1 < 256 := hb b1 (by simp)
    have h2 : b2 < 256 := hb b2 (by simp)
    have hrest : ∀ b ∈ rest, b < 256 := fun b hbm => hb b (by simp [hbm])
    have hi0 := b64Index_b64Char (b0 / 4) (by omega)
    have hi1 := b64Index_b64Char (b0 % 4 * 16 + b1 / 16) (by omega)
    have hi2 := b64Index_b64Char (b1 % 16 * 4 + b2 / 64) (by omega)
    have hi3 := b64Index_b64Char (b2 % 64) (by omega)
    have hne2 : ¬(b64Char (b1 % 16 * 4 + b2 / 64) = '=') := b64Char_ne_pad _ (by omega)
    have hne3 : ¬(b64Char (b2 % 64) = '=') := b64Char_ne_pad _ (by omega)
    simp only [b64EncodeBytes, b64DecodeChars, b64Quad, hi0, hi1, hi2, hi3, Option.bind_some]
    simp [hne2, hne3, ih hrest]
    refine ⟨by omega, by omega, by omega⟩

/-- Decoding one `data` value inverts encoding it. -/
theorem decodeValue_encodeValue (v : String) : decodeValue (encodeValue v) = some v := by
  obtain ⟨l⟩ := v
  simp only [decodeValue, encodeValue]
  rw [b64DecodeChars_encode (utf8Encode l) (utf8Encode_lt l)]
  dsimp only
  rw [utf8Decode_encode]

/-- The `data`-mapping round trip: decoding an encoded Secret restores it. -/
theorem base64_decode_encode (d : SecretData) :
    base64_decode_secrets (base64_encode_secrets d) = some d := by
  induction d with
  | nil => rfl
  | cons p rest ih =>
    obtain ⟨k, ov⟩ := p
    cases ov with
    | none =>
      simp only [base64_encode_secrets, List.map_cons, Option.map_none']
      rw [base64_decode_secrets]
      simp only [base64_encode_secrets] at ih
      rw [ih]
      rfl
    | some v =>
      simp only [base64_encode_secrets, List.map_cons, Option.map_some']
      rw [base64_decode_secrets]
      rw [decodeValue_encodeValue]
      simp only [base64_encode_secrets] at ih
      rw [ih]
      rfl

/-- The head surviving `dropWhile` falsifies the predicate. -/
theorem head_dropWhile_false (p : Char → Bool) (l : List Char) (a : Char)
    (h : (l.dropWhile p).head? = some a) : p a = false := by
  induction l with
  | nil => simp [List.dropWhile] at h
  | cons x xs ih =>
    rw [List.dropWhile] at h
    cases hx : p x with
    | true => rw [hx] at h; exact ih h
    | false =>
      rw [hx] at h
      simp at h
      rw [← h]
      exact hx

/-- `rstrip() + "\n"` ends in exactly one newline. -/
theorem finalizeDump_newline (s : List Char) :
    (finalizeDump s).getLast? = some (Char.ofNat 10)
    ∧ (finalizeDump s).dropLast.getLast? ≠ some (Char.ofNat 10) := by
  constructor
  · rw [finalizeDump]
    exact List.getLast?_concat _
  · rw [finalizeDump, List.dropLast_concat]
    intro hcon
    rw [pyRstrip, List.getLast?_reverse] at hcon
    have := head_dropWhile_false isPySpace s.reverse (Char.ofNat 10) hcon
    simp [isPySpace] at this

/-- C9: the Secret base64 round trip.  (1) `base64_decode_secrets`
inverts `base64_encode_secrets` on every `data` mapping, so every
non-null value is preserved and null values pass through untouched;
(2) re-encoding the decoded form reproduces the encoded document
(stability); (3) null entries are left in place by the encoder; (4) the
serialised output `getvalue().rstrip() + "\n"` ends with exactly one
trailing newline. -/
theorem c9_secret_roundtrip :
    (∀ d : SecretData, base64_decode_secrets (base64_encode_secrets d) = some d)
    ∧ (∀ d u : SecretData, base64_decode_secrets (base64_encode_secrets d) = some u →
        base64_encode_secrets u = base64_encode_secrets d)
    ∧ (∀ (d : SecretData) (k : String), (k, none) ∈ d → (k, none) ∈ base64_encode_secrets d)
    ∧ (∀ s : List Char, (finalizeDump s).getLast? = some (Char.ofNat 10)
        ∧ (finalizeDump s).dropLast.getLast? ≠ some (Char.ofNat 10)) := by
  refine ⟨base64_decode_encode, ?_, ?_, finalizeDump_newline⟩
  · intro d u h
    rw [base64_decode_encode d] at h
    rw [Option.some.injEq] at h
    rw [h]
  · intro d k hk
    have := List.mem_map_of_mem (fun p : String × Option String => (p.1, p.2.map encodeValue)) hk
    simpa [base64_encode_secrets] using this

/-- C9 (witness): the round trip at a concrete Secret `data` mapping
with one string value and one null value. -/
theorem c9_secret_witness :
    base64_decode_secrets
        (base64_encode_secrets [("password", some "hunter2"), ("extra", none)])
      = some [("password", some "hunter2"), ("extra", none)]
    ∧ base64_encode_secrets [("password", some "hunter2"), ("extra", none)]
      = base64_encode_secrets [("password", some "hunter2"), ("extra", none)]
    ∧ ("extra", (none : Option String))
        ∈ base64_encode_secrets [("password", some "hunter2"), ("extra", none)] :=
  ⟨c9_secret_roundtrip.1 [("password", some "hunter2"), ("extra", none)],
   c9_secret_roundtrip.2.1 [("password", some "hunter2"), ("extra", none)]
     [("password", some "hunter2"), ("extra", none)]
     (c9_secret_roundtrip.1 [("password", some "hunter2"), ("extra", none)]),
   c9_secret_roundtrip.2.2.1 [("password", some "hunter2"), ("extra", none)] "extra"
     (by decide)⟩

theorem FrameStep.refl (h : Heap) (n0 : Nat) (D : List Nat) (hr : RegionOK h n0 D) :
    FrameStep h h n0 D D :=
  ⟨List.Subset.refl D, hr, Nat.le_refl _, fun _ _ => rfl⟩

theorem FrameStep.trans {h h2 h3 : Heap} {n0 : Nat} {D D2 D3 : List Nat}
    (f1 : FrameStep h h2 n0 D D2) (f2 : FrameStep h2 h3 n0 D2 D3) :
    FrameStep h h3 n0 D D3 :=
  ⟨f1.1.trans f2.1, f2.2.1, Nat.le_trans f1.2.2.1 f2.2.2.1,
   fun a ha => (f2.2.2.2 a ha).trans (f1.2.2.2 a ha)⟩

theorem hvalInD_mono {D D' : List Nat} (hsub : D ⊆ D') (v : HVal)
    (hv : hvalInD D v) : hvalInD D' v := by
  cases v <;> simp [hvalInD] at hv ⊢
  exact hsub hv

theorem nodeInD_mono {D D' : List Nat} (hsub : D ⊆ D') (nd : HNode)
    (hv : nodeInD D nd) : nodeInD D' nd := by
  cases nd with
  | hmap kvs =>
    intro p hp
    exact hvalInD_mono hsub p.2 (hv p hp)
  | hseq vs =>
    intro v hvm
    exact hvalInD_mono hsub v (hv v hvm)

theorem lookupStore_write_ne (st : List (Nat × HNode)) (w a : Nat) (nd : HNode)
    (hne : a ≠ w) : lookupStore (writeStore st w nd) a = lookupStore st a := by
  induction st with
  | nil => rfl
  | cons p rest ih =>
    obtain ⟨k, nd0⟩ := p
    rw [writeStore]
    by_cases hk : k = w
    · rw [if_pos hk, lookupStore, lookupStore]
      rw [if_neg (by omega), if_neg (by rw [hk]; omega)]
    · rw [if_neg hk, lookupStore, lookupStore]
      by_cases hka : k = a
      · rw [if_pos hka, if_pos hka]
      · rw [if_neg hka, if_neg hka, ih]

theorem lookupH_write_ne (h : Heap) (w a : Nat) (nd : HNode) (hne : a ≠ w) :
    lookupH (writeH h w nd) a = lookupH h a :=
  lookupStore_write_ne h.store w a nd hne

theorem lookupStore_write_self (st : List (Nat × HNode)) (w : Nat) (nd : HNode) :
    lookupStore (writeStore st w nd) w = some nd
    ∨ (lookupStore st w = none ∧ lookupStore (writeStore st w nd) w = none) := by
  induction st with
  | nil => right; exact ⟨rfl, rfl⟩
  | cons p rest ih =>
    obtain ⟨k, nd0⟩ := p
    rw [writeStore]
    by_cases hk : k = w
    · left
      rw [if_pos hk, lookupStore, if_pos rfl]
    · rw [if_neg hk, lookupStore, lookupStore, if_neg hk, if_neg hk]
      exact ih

theorem writeH_next (h : Heap) (w : Nat) (nd : HNode) : (writeH h w nd).next = h.next := rfl

theorem lookupH_alloc_ne (h : Heap) (nd : HNode) (a : Nat) (hne : a ≠ h.next) :
    lookupH (allocH h nd).1 a = lookupH h a := by
  simp only [allocH, lookupH, lookupStore]
  rw [if_neg (by omega)]

theorem lookupH_alloc_self (h : Heap) (nd : HNode) :
    lookupH (allocH h nd).1 h.next = some nd := by
  simp [allocH, lookupH, lookupStore]

theorem frame_write (h : Heap) (n0 : Nat) (D : List Nat) (w : Nat) (nd : HNode)
    (hr : RegionOK h n0 D) (hw : w ∈ D) (hnd : nodeInD D nd) :
    FrameStep h (writeH h w nd) n0 D D := by
  obtain ⟨h1, h2, h3⟩ := hr
  refine ⟨List.Subset.refl D, ⟨h1, ?_, ?_⟩, Nat.le_refl _, ?_⟩
  · intro a ha
    rw [writeH_next]
    exact h2 a ha
  · intro a ha nd2 hnd2
    by_cases haw : a = w
    · subst haw
      rcases lookupStore_write_self h.store a nd with hc | hc
      · rw [lookupH] at hnd2
        rw [writeH] at hnd2
        dsimp only at hnd2
        rw [hc] at hnd2
        rw [Option.some.injEq] at hnd2
        subst hnd2
        exact hnd
      · rw [lookupH] at hnd2
        rw [writeH] at hnd2
        dsimp only at hnd2
        rw [hc.2] at hnd2
        exact absurd hnd2 (by simp)
    · rw [lookupH_write_ne h w a nd haw] at hnd2
      exact h3 a ha nd2 hnd2
  · intro a ha
    refine lookupH_write_ne h w a nd ?_
    have := (h2 w hw).1
    omega

theorem frame_alloc (h : Heap) (n0 : Nat) (D : List Nat) (nd : HNode)
    (hr : RegionOK h n0 D) :
    FrameStep h (allocH h nd).1 n0 D D := by
  obtain ⟨h1, h2, h3⟩ := hr
  have hnext : (allocH h nd).1.next = h.next + 1 := rfl
  refine ⟨List.Subset.refl D, ⟨by omega, ?_, ?_⟩, by omega, ?_⟩
  · intro a ha
    have := h2 a ha
    omega
  · intro a ha nd2 hnd2
    rw [lookupH_alloc_ne h nd a (by have := h2 a ha; omega)] at hnd2
    exact h3 a ha nd2 hnd2
  · intro a ha
    exact lookupH_alloc_ne h nd a (by omega)

theorem frame_alloc_add (h : Heap) (n0 : Nat) (D : List Nat) (nd : HNode)
    (hr : RegionOK h n0 D) (hnd : nodeInD D nd) :
    FrameStep h (allocH h nd).1 n0 D (h.next :: D)
    ∧ hvalInD (h.next :: D) (.ref (allocH h nd).2) := by
  obtain ⟨h1, h2, h3⟩ := hr
  have hnext : (allocH h nd).1.next = h.next + 1 := rfl
  refine ⟨⟨List.subset_cons_self _ _, ⟨by omega, ?_, ?_⟩, by omega, ?_⟩, ?_⟩
  · intro a ha
    rcases List.mem_cons.mp ha with ha | ha
    · omega
    · have := h2 a ha
      omega
  · intro a ha nd2 hnd2
    rcases List.mem_cons.mp ha with ha | ha
    · subst ha
      rw [lookupH_alloc_self] at hnd2
      rw [Option.some.injEq] at hnd2
      subst hnd2
      exact nodeInD_mono (List.subset_cons_self _ _) nd hnd
    · rw [lookupH_alloc_ne h nd a (by have := h2 a ha; omega)] at hnd2
      exact nodeInD_mono (List.subset_cons_self _ _) nd2 (h3 a ha nd2 hnd2)
  · intro a ha
    exact lookupH_alloc_ne h nd a (by omega)
  · simp [hvalInD, allocH]

theorem eraseKeyH_sublist (kvs : List (String × HVal)) (k : String) :
    List.Sublist (eraseKeyH kvs k) kvs := by
  induction kvs with
  | nil => simp [eraseKeyH]
  | cons p rest ih =>
    obtain ⟨k2, v⟩ := p
    rw [eraseKeyH]
    by_cases hk : k2 = k
    · rw [if_pos hk]
      exact List.sublist_cons_of_sublist _ (List.Sublist.refl rest)
    · rw [if_neg hk]
      exact List.Sublist.cons₂ _ ih

theorem nodeInD_erase (D : List Nat) (kvs : List (String × HVal)) (k : String)
    (hnd : nodeInD D (.hmap kvs)) : nodeInD D (.hmap (eraseKeyH kvs k)) := by
  intro p hp
  exact hnd p ((eraseKeyH_sublist kvs k).subset hp)

theorem lookupKeyH_mem (kvs : List (String × HVal)) (k : String) (v : HVal)
    (h : lookupKeyH kvs k = some v) : (k, v) ∈ kvs := by
  induction kvs with
  | nil => simp [lookupKeyH] at h
  | cons p rest ih =>
    obtain ⟨k2, v2⟩ := p
    rw [lookupKeyH] at h
    by_cases hk : k2 = k
    · rw [if_pos hk] at h
      rw [Option.some.injEq] at h
      subst h hk
      exact List.mem_cons_self _ _
    · rw [if_neg hk] at h
      exact List.mem_cons_of_mem _ (ih h)

theorem hNest_frame_aux (fuel : Nat) (IHpart : SPart fuel) : SNest (fuel + 1) := by
  intro h doc ov base h2 r n0 D hr hdoc hrun
  cases doc with
  | str s =>
    simp only [hNest] at hrun
    exact IHpart h (.str s) ov base h2 r n0 D hr (by trivial) hrun
  | int n =>
    simp only [hNest] at hrun
    exact IHpart h (.int n) ov base h2 r n0 D hr (by trivial) hrun
  | bool b =>
    simp only [hNest] at hrun
    exact IHpart h (.bool b) ov base h2 r n0 D hr (by trivial) hrun
  | ref a =>
    simp only [hNest] at hrun
    exact IHpart h (.ref a) ov base h2 r n0 D hr hdoc hrun
  | null =>
    simp only [hNest] at hrun
    cases ov with
    | null => exact absurd hrun (by simp)
    | str _ => exact absurd hrun (by simp)
    | int _ => exact absurd hrun (by simp)
    | bool _ => exact absurd hrun (by simp)
    | ref oa =>
      dsimp only at hrun
      match hlk : lookupH h oa with
      | none => rw [hlk] at hrun; exact absurd hrun (by simp)
      | some (.hmap okvs) =>
        rw [hlk] at hrun
        dsimp only at hrun
        obtain ⟨f1, hv⟩ := frame_alloc_add h n0 D (.hmap []) hr (by intro p hp; simp at hp)
        obtain ⟨D2, f2⟩ := IHpart _ _ (.ref oa) base h2 r n0 (h.next :: D) f1.2.1 hv hrun
        exact ⟨D2, f1.trans f2⟩
      | some (.hseq vs) =>
        rw [hlk] at hrun
        dsimp only at hrun
        obtain ⟨f1, hv⟩ := frame_alloc_add h n0 D (.hseq []) hr (by intro v hv; simp at hv)
        obtain ⟨D2, f2⟩ := IHpart _ _ (.ref oa) base h2 r n0 (h.next :: D) f1.2.1 hv hrun
        exact ⟨D2, f1.trans f2⟩

theorem hMergeMapGo_frame_aux (fuel : Nat) (IHnest : SNest fuel) (IHself : SMap fuel) :
    SMap (fuel + 1) := by
  intro h a0 ov bkvs h2 res n0 D hr ha0 hrun
  cases bkvs with
  | nil =>
    simp only [hMergeMapGo] at hrun
    rw [Except.ok.injEq, Prod.mk.injEq] at hrun
    obtain ⟨e1, e2⟩ := hrun
    subst e1
    exact ⟨D, FrameStep.refl h n0 D hr⟩
  | cons kb rest =>
    obtain ⟨k, b⟩ := kb
    simp only [hMergeMapGo] at hrun
    by_cases hb : b = HVal.str "~"
    · rw [if_pos hb] at hrun
      match hlk : lookupH h a0 with
      | none => rw [hlk] at hrun; exact absurd hrun (by simp)
      | some (.hseq vs) => rw [hlk] at hrun; exact absurd hrun (by simp)
      | some (.hmap dkvs) =>
        rw [hlk] at hrun
        dsimp only at hrun
        have hnd : nodeInD D (.hmap dkvs) := hr.2.2 a0 ha0 _ hlk
        have f1 := frame_write h n0 D a0 _ hr ha0 (nodeInD_erase D dkvs k hnd)
        obtain ⟨D2, f2⟩ := IHself _ a0 ov rest h2 res n0 D f1.2.1 ha0 hrun
        exact ⟨D2, f1.trans f2⟩
    · rw [if_neg hb] at hrun
      match hov : hOvSub h ov k with
      | .error e => rw [hov] at hrun; exact absurd hrun (by simp)
      | .ok o =>
        rw [hov] at hrun
        dsimp only at hrun
        by_cases ho : o = HVal.str ""
        · rw [if_pos ho] at hrun
          match hlk : lookupH h a0 with
          | none => rw [hlk] at hrun; exact absurd hrun (by simp)
          | some (.hseq vs) => rw [hlk] at hrun; exact absurd hrun (by simp)
          | some (.hmap dkvs) =>
            rw [hlk] at hrun
            dsimp only at hrun
            match hdk : lookupKeyH dkvs k with
            | none => rw [hdk] at hrun; exact absurd hrun (by simp)
            | some d =>
              rw [hdk] at hrun
              dsimp only at hrun
              match hgo : hMergeMapGo fuel (writeH h a0 (.hmap (eraseKeyH dkvs k))) a0 ov rest with
              | .error e => rw [hgo] at hrun; exact absurd hrun (by simp)
              | .ok (h3, res3) =>
                rw [hgo] at hrun
                dsimp only at hrun
                rw [Except.ok.injEq, Prod.mk.injEq] at hrun
                obtain ⟨e1, e2⟩ := hrun
                subst e1
                have hnd : nodeInD D (.hmap dkvs) := hr.2.2 a0 ha0 _ hlk
                have f1 := frame_write h n0 D a0 _ hr ha0 (nodeInD_erase D dkvs k hnd)
                obtain ⟨D2, f2⟩ := IHself _ a0 ov rest h3 res3 n0 D f1.2.1 ha0 hgo
                exact ⟨D2, f1.trans f2⟩
        · rw [if_neg ho] at hrun
          by_cases hsc : isScalarH o = true
          · rw [if_pos hsc] at hrun
            match hlk : lookupH h a0 with
            | none => rw [hlk] at hrun; exact absurd hrun (by simp)
            | some (.hseq vs) => rw [hlk] at hrun; exact absurd hrun (by simp)
            | some (.hmap dkvs) =>
              rw [hlk] at hrun
              dsimp only at hrun
              match hgo : hMergeMapGo fuel (writeH h a0 (.hmap (eraseKeyH dkvs k))) a0 ov rest with
              | .error e => rw [hgo] at hrun; exact absurd hrun (by simp)
              | .ok (h3, res3) =>
                rw [hgo] at hrun
                dsimp only at hrun
                rw [Except.ok.injEq, Prod.mk.injEq] at hrun
                obtain ⟨e1, e2⟩ := hrun
                subst e1
                have hnd : nodeInD D (.hmap dkvs) := hr.2.2 a0 ha0 _ hlk
                have f1 := frame_write h n0 D a0 _ hr ha0 (nodeInD_erase D dkvs k hnd)
                obtain ⟨D2, f2⟩ := IHself _ a0 ov rest h3 res3 n0 D f1.2.1 ha0 hgo
                exact ⟨D2, f1.trans f2⟩
          · rw [if_neg hsc] at hrun
            match hlk : lookupH h a0 with
            | none => rw [hlk] at hrun; exact absurd hrun (by simp)
            | some (.hseq vs) => rw [hlk] at hrun; exact absurd hrun (by simp)
            | some (.hmap dkvs) =>
              rw [hlk] at hrun
              dsimp only at hrun
              have hnd : nodeInD D (.hmap dkvs) := hr.2.2 a0 ha0 _ hlk
              have hdin : hvalInD D (match lookupKeyH dkvs k with | none => HVal.null | some d => d) := by
                match hdk : lookupKeyH dkvs k with
                | none => trivial
                | some d => exact hnd (k, d) (lookupKeyH_mem dkvs k d hdk)
              match hne : hNest fuel h (match lookupKeyH dkvs k with | none => HVal.null | some d => d) o b with
              | .error e => rw [hne] at hrun; exact absurd hrun (by simp)
              | .ok (hn, v) =>
                rw [hne] at hrun
                dsimp only at hrun
                obtain ⟨D2, f1⟩ := IHnest h _ o b hn v n0 D hr hdin hne
                match hlk2 : lookupH hn a0 with
                | none => rw [hlk2] at hrun; exact absurd hrun (by simp)
                | some (.hseq vs) => rw [hlk2] at hrun; exact absurd hrun (by simp)
                | some (.hmap dkvs2) =>
                  rw [hlk2] at hrun
                  dsimp only at hrun
                  match hgo : hMergeMapGo fuel (writeH hn a0 (.hmap (eraseKeyH dkvs2 k))) a0 ov rest with
                  | .error e => rw [hgo] at hrun; exact absurd hrun (by simp)
                  | .ok (h3, res3) =>
                    rw [hgo] at hrun
                    dsimp only at hrun
                    rw [Except.ok.injEq, Prod.mk.injEq] at hrun
                    obtain ⟨e1, e2⟩ := hrun
                    subst e1
                    have ha0n : a0 ∈ D2 := f1.1 ha0
                    have hnd2 : nodeInD D2 (.hmap dkvs2) := f1.2.1.2.2 a0 ha0n _ hlk2
                    have f2 := frame_write hn n0 D2 a0 _ f1.2.1 ha0n (nodeInD_erase D2 dkvs2 k hnd2)
                    obtain ⟨D3, f3⟩ := IHself _ a0 ov rest h3 res3 n0 D2 f2.2.1 ha0n hgo
                    exact ⟨D3, (f1.trans f2).trans f3⟩

theorem hMergeSeqGo_frame_aux (fuel : Nat) (IHnest : SNest fuel) (IHself : SSeq fuel) :
    SSeq (fuel + 1) := by
  intro h ds os bs h2 rs n0 D hr hds hrun
  match bs with
  | [] =>
    simp only [hMergeSeqGo] at hrun
    rw [Except.ok.injEq, Prod.mk.injEq] at hrun
    obtain ⟨e1, e2⟩ := hrun
    subst e1
    exact ⟨D, FrameStep.refl h n0 D hr⟩
  | b :: bs =>
    match os with
    | [] =>
      simp only [hMergeSeqGo] at hrun
      exact absurd hrun (by simp)
    | o :: os =>
      match ds with
      | [] =>
        simp only [hMergeSeqGo] at hrun
        match hgo : hMergeSeqGo fuel h [] os bs with
        | .error e => rw [hgo] at hrun; exact absurd hrun (by simp)
        | .ok (h3, rs3) =>
          rw [hgo] at hrun
          dsimp only at hrun
          rw [Except.ok.injEq, Prod.mk.injEq] at hrun
          obtain ⟨e1, e2⟩ := hrun
          subst e1
          exact IHself h [] os bs h3 rs3 n0 D hr (by intro d hd; simp at hd) hgo
      | d :: ds =>
        simp only [hMergeSeqGo] at hrun
        have hd0 : hvalInD D d := hds d (List.mem_cons_self _ _)
        have hds2 : ∀ x ∈ ds, hvalInD D x := fun x hx => hds x (List.mem_cons_of_mem _ hx)
        by_cases hb : b = HVal.str "~"
        · rw [if_pos hb] at hrun
          exact IHself h ds os bs h2 rs n0 D hr hds2 hrun
        · rw [if_neg hb] at hrun
          by_cases hbe : b = HVal.str ""
          · rw [if_pos hbe] at hrun
            match hgo : hMergeSeqGo fuel h ds os bs with
            | .error e => rw [hgo] at hrun; exact absurd hrun (by simp)
            | .ok (h3, rs3) =>
              rw [hgo] at hrun
              dsimp only at hrun
              rw [Except.ok.injEq, Prod.mk.injEq] at hrun
              obtain ⟨e1, e2⟩ := hrun
              subst e1
              exact IHself h ds os bs h3 rs3 n0 D hr hds2 hgo
          · rw [if_neg hbe] at hrun
            by_cases hsc : isScalarH o = true
            · rw [if_pos hsc] at hrun
              match hgo : hMergeSeqGo fuel h ds os bs with
              | .error e => rw [hgo] at hrun; exact absurd hrun (by simp)
              | .ok (h3, rs3) =>
                rw [hgo] at hrun
                dsimp only at hrun
                rw [Except.ok.injEq, Prod.mk.injEq] at hrun
                obtain ⟨e1, e2⟩ := hrun
                subst e1
                exact IHself h ds os bs h3 rs3 n0 D hr hds2 hgo
            · rw [if_neg hsc] at hrun
              match hne : hNest fuel h d o b with
              | .error e => rw [hne] at hrun; exact absurd hrun (by simp)
              | .ok (hn, v) =>
                rw [hne] at hrun
                dsimp only at hrun
                obtain ⟨D2, f1⟩ := IHnest h d o b hn v n0 D hr hd0 hne
                match hgo : hMergeSeqGo fuel hn ds os bs with
                | .error e => rw [hgo] at hrun; exact absurd hrun (by simp)
                | .ok (h3, rs3) =>
                  rw [hgo] at hrun
                  dsimp only at hrun
                  rw [Except.ok.injEq, Prod.mk.injEq] at hrun
                  obtain ⟨e1, e2⟩ := hrun
                  subst e1
                  obtain ⟨D3, f2⟩ := IHself hn ds os bs h3 rs3 n0 D2 f1.2.1
                    (fun x hx => hvalInD_mono f1.1 x (hds2 x hx)) hgo
                  exact ⟨D3, f1.trans f2⟩

theorem hMergePart_frame_aux (fuel : Nat) (IHmap : SMap fuel) (IHseq : SSeq fuel) :
    SPart (fuel + 1) := by
  intro h doc ov base h2 r n0 D hr hdoc hrun
  cases doc with
  | null => simp only [hMergePart] at hrun; exact absurd hrun (by simp)
  | str s => simp only [hMergePart] at hrun; exact absurd hrun (by simp)
  | int n => simp only [hMergePart] at hrun; exact absurd hrun (by simp)
  | bool b => simp only [hMergePart] at hrun; exact absurd hrun (by simp)
  | ref a =>
    simp only [hMergePart] at hrun
    match hlk : lookupH h a with
    | none => rw [hlk] at hrun; exact absurd hrun (by simp)
    | some (.hmap dkvs0) =>
      rw [hlk] at hrun
      dsimp only at hrun
      cases base with
      | null => exact absurd hrun (by simp)
      | int _ => exact absurd hrun (by simp)
      | bool _ => exact absurd hrun (by simp)
      | str s =>
        dsimp only at hrun
        by_cases hs : s = ""
        · rw [if_pos hs] at hrun
          rw [Except.ok.injEq, Prod.mk.injEq] at hrun
          obtain ⟨e1, e2⟩ := hrun
          subst e1
          exact ⟨D, frame_alloc h n0 D _ hr⟩
        · rw [if_neg hs] at hrun
          exact absurd hrun (by simp)
      | ref b =>
        dsimp only at hrun
        match hlb : lookupH h b with
        | none => rw [hlb] at hrun; exact absurd hrun (by simp)
        | some (.hseq []) =>
          rw [hlb] at hrun
          dsimp only at hrun
          rw [Except.ok.injEq, Prod.mk.injEq] at hrun
          obtain ⟨e1, e2⟩ := hrun
          subst e1
          exact ⟨D, frame_alloc h n0 D _ hr⟩
        | some (.hseq (x :: xs)) => rw [hlb] at hrun; exact absurd hrun (by simp)
        | some (.hmap bkvs) =>
          rw [hlb] at hrun
          dsimp only at hrun
          match hgo : hMergeMapGo fuel h a ov bkvs with
          | .error e => rw [hgo] at hrun; exact absurd hrun (by simp)
          | .ok (h3, res3) =>
            rw [hgo] at hrun
            dsimp only at hrun
            obtain ⟨D2, f1⟩ := IHmap h a ov bkvs h3 res3 n0 D hr hdoc hgo
            match hlk2 : lookupH h3 a with
            | none => rw [hlk2] at hrun; exact absurd hrun (by simp)
            | some (.hseq vs) => rw [hlk2] at hrun; exact absurd hrun (by simp)
            | some (.hmap rem) =>
              rw [hlk2] at hrun
              dsimp only at hrun
              rw [Except.ok.injEq, Prod.mk.injEq] at hrun
              obtain ⟨e1, e2⟩ := hrun
              subst e1
              exact ⟨D2, f1.trans (frame_alloc h3 n0 D2 _ f1.2.1)⟩
    | some (.hseq ds) =>
      rw [hlk] at hrun
      dsimp only at hrun
      have hds : ∀ d ∈ ds, hvalInD D d := by
        have := hr.2.2 a hdoc _ hlk
        exact this
      cases base with
      | null => exact absurd hrun (by simp)
      | int _ => exact absurd hrun (by simp)
      | bool _ => exact absurd hrun (by simp)
      | str s =>
        dsimp only at hrun
        by_cases hs : s = ""
        · rw [if_pos hs] at hrun
          match hpl : hPyLen h ov with
          | .error e => rw [hpl] at hrun; exact absurd hrun (by simp)
          | .ok n =>
            rw [hpl] at hrun
            dsimp only at hrun
            rw [Except.ok.injEq, Prod.mk.injEq] at hrun
            obtain ⟨e1, e2⟩ := hrun
            subst e1
            exact ⟨D, frame_alloc h n0 D _ hr⟩
        · rw [if_neg hs] at hrun
          exact absurd hrun (by simp)
      | ref b =>
        dsimp only at hrun
        match hlb : lookupH h b with
        | none => rw [hlb] at hrun; exact absurd hrun (by simp)
        | some (.hmap bkvs) => rw [hlb] at hrun; exact absurd hrun (by simp)
        | some (.hseq bs) =>
          rw [hlb] at hrun
          dsimp only at hrun
          cases ov with
          | ref o =>
            dsimp only at hrun
            match hlo : lookupH h o with
            | some (.hseq os) =>
              rw [hlo] at hrun
              dsimp only at hrun
              match hgo : hMergeSeqGo fuel h ds os bs with
              | .error e => rw [hgo] at hrun; exact absurd hrun (by simp)
              | .ok (h3, rs3) =>
                rw [hgo] at hrun
                dsimp only at hrun
                rw [Except.ok.injEq, Prod.mk.injEq] at hrun
                obtain ⟨e1, e2⟩ := hrun
                subst e1
                obtain ⟨D2, f1⟩ := IHseq h ds os bs h3 rs3 n0 D hr hds hgo
                exact ⟨D2, f1.trans (frame_alloc h3 n0 D2 _ f1.2.1)⟩
            | some (.hmap okvs) =>
              rw [hlo] at hrun
              dsimp only at hrun
              match bs with
              | [] =>
                match hpl : hPyLen h (.ref o) with
                | .error e => rw [hpl] at hrun; exact absurd hrun (by simp)
                | .ok n =>
                  rw [hpl] at hrun
                  dsimp only at hrun
                  rw [Except.ok.injEq, Prod.mk.injEq] at hrun
                  obtain ⟨e1, e2⟩ := hrun
                  subst e1
                  exact ⟨D, frame_alloc h n0 D _ hr⟩
              | _ :: _ => exact absurd hrun (by simp)
            | none =>
              rw [hlo] at hrun
              dsimp only at hrun
              match bs with
              | [] =>
                match hpl : hPyLen h (.ref o) with
                | .error e => rw [hpl] at hrun; exact absurd hrun (by simp)
                | .ok n =>
                  rw [hpl] at hrun
                  dsimp only at hrun
                  rw [Except.ok.injEq, Prod.mk.injEq] at hrun
                  obtain ⟨e1, e2⟩ := hrun
                  subst e1
                  exact ⟨D, frame_alloc h n0 D _ hr⟩
              | _ :: _ => exact absurd hrun (by simp)
          | null =>
            dsimp only at hrun
            match bs with
            | [] =>
              match hpl : hPyLen h .null with
              | .error e => rw [hpl] at hrun; exact absurd hrun (by simp)
              | .ok n =>
                rw [hpl] at hrun
                dsimp only at hrun
                rw [Except.ok.injEq, Prod.mk.injEq] at hrun
                obtain ⟨e1, e2⟩ := hrun
                subst e1
                exact ⟨D, frame_alloc h n0 D _ hr⟩
            | _ :: _ => exact absurd hrun (by simp)
          | str s2 =>
            dsimp only at hrun
            match bs with
            | [] =>
              match hpl : hPyLen h (.str s2) with
              | .error e => rw [hpl] at hrun; exact absurd hrun (by simp)
              | .ok n =>
                rw [hpl] at hrun
                dsimp only at hrun
                rw [Except.ok.injEq, Prod.mk.injEq] at hrun
                obtain ⟨e1, e2⟩ := hrun
                subst e1
                exact ⟨D, frame_alloc h n0 D _ hr⟩
            | _ :: _ => exact absurd hrun (by simp)
          | int n2 =>
            dsimp only at hrun
            match bs with
            | [] =>
              match hpl : hPyLen h (.int n2) with
              | .error e => rw [hpl] at hrun; exact absurd hrun (by simp)
              | .ok n =>
                rw [hpl] at hrun
                dsimp only at hrun
                rw [Except.ok.injEq, Prod.mk.injEq] at hrun
                obtain ⟨e1, e2⟩ := hrun
                subst e1
                exact ⟨D, frame_alloc h n0 D _ hr⟩
            | _ :: _ => exact absurd hrun (by simp)
          | bool b2 =>
            dsimp only at hrun
            match bs with
            | [] =>
              match hpl : hPyLen h (.bool b2) with
              | .error e => rw [hpl] at hrun; exact absurd hrun (by simp)
              | .ok n =>
                rw [hpl] at hrun
                dsimp only at hrun
                rw [Except.ok.injEq, Prod.mk.injEq] at hrun
                obtain ⟨e1, e2⟩ := hrun
                subst e1
                exact ⟨D, frame_alloc h n0 D _ hr⟩
            | _ :: _ => exact absurd hrun (by simp)

theorem hFrame : ∀ fuel, SPart fuel ∧ SNest fuel ∧ SMap fuel ∧ SSeq fuel := by
  intro fuel
  induction fuel with
  | zero =>
    refine ⟨?_, ?_, ?_, ?_⟩
    · intro h doc ov base h2 r n0 D hr hdoc hrun
      simp [hMergePart] at hrun
    · intro h doc ov base h2 r n0 D hr hdoc hrun
      simp [hNest] at hrun
    · intro h a0 ov bkvs h2 res n0 D hr ha0 hrun
      simp [hMergeMapGo] at hrun
    · intro h ds os bs h2 rs n0 D hr hds hrun
      simp [hMergeSeqGo] at hrun
  | succ fuel IH =>
    exact ⟨hMergePart_frame_aux fuel IH.2.2.1 IH.2.2.2,
      hNest_frame_aux fuel IH.1,
      hMergeMapGo_frame_aux fuel IH.2.1 IH.2.2.1,
      hMergeSeqGo_frame_aux fuel IH.2.1 IH.2.2.2⟩

theorem hCopy_frame : ∀ fuel,
    (∀ h v h2 v2 n0 D, RegionOK h n0 D → hCopy fuel h v = .ok (h2, v2) →
      ∃ D2, FrameStep h h2 n0 D D2 ∧ hvalInD D2 v2)
    ∧ (∀ h kvs h2 kvs2 n0 D, RegionOK h n0 D → hCopyPairs fuel h kvs = .ok (h2, kvs2) →
      ∃ D2, FrameStep h h2 n0 D D2 ∧ ∀ p ∈ kvs2, hvalInD D2 p.2)
    ∧ (∀ h vs h2 vs2 n0 D, RegionOK h n0 D → hCopySeq fuel h vs = .ok (h2, vs2) →
      ∃ D2, FrameStep h h2 n0 D D2 ∧ ∀ v ∈ vs2, hvalInD D2 v) := by
  intro fuel
  induction fuel with
  | zero =>
    refine ⟨?_, ?_, ?_⟩
    · intro h v h2 v2 n0 D hr hrun
      simp [hCopy] at hrun
    · intro h kvs h2 kvs2 n0 D hr hrun
      simp [hCopyPairs] at hrun
    · intro h vs h2 vs2 n0 D hr hrun
      simp [hCopySeq] at hrun
  | succ fuel IH =>
    obtain ⟨IHc, IHp, IHs⟩ := IH
    refine ⟨?_, ?_, ?_⟩
    · intro h v h2 v2 n0 D hr hrun
      cases v with
      | null =>
        simp only [hCopy] at hrun
        rw [Except.ok.injEq, Prod.mk.injEq] at hrun
        obtain ⟨e1, e2⟩ := hrun
        subst e1
        exact ⟨D, FrameStep.refl h n0 D hr, by rw [← e2]; trivial⟩
      | str s =>
        simp only [hCopy] at hrun
        rw [Except.ok.injEq, Prod.mk.injEq] at hrun
        obtain ⟨e1, e2⟩ := hrun
        subst e1
        exact ⟨D, FrameStep.refl h n0 D hr, by rw [← e2]; trivial⟩
      | int n =>
        simp only [hCopy] at hrun
        rw [Except.ok.injEq, Prod.mk.injEq] at hrun
        obtain ⟨e1, e2⟩ := hrun
        subst e1
        exact ⟨D, FrameStep.refl h n0 D hr, by rw [← e2]; trivial⟩
      | bool b =>
        simp only [hCopy] at hrun
        rw [Except.ok.injEq, Prod.mk.injEq] at hrun
        obtain ⟨e1, e2⟩ := hrun
        subst e1
        exact ⟨D, FrameStep.refl h n0 D hr, by rw [← e2]; trivial⟩
      | ref a =>
        simp only [hCopy] at hrun
        match hlk : lookupH h a with
        | none => rw [hlk] at hrun; exact absurd hrun (by simp)
        | some (.hmap kvs) =>
          rw [hlk] at hrun
          dsimp only at hrun
          match hcp : hCopyPairs fuel h kvs with
          | .error e => rw [hcp] at hrun; exact absurd hrun (by simp)
          | .ok (h3, kvs2) =>
            rw [hcp] at hrun
            dsimp only at hrun
            rw [Except.ok.injEq, Prod.mk.injEq] at hrun
            obtain ⟨e1, e2⟩ := hrun
            subst e1
            obtain ⟨D2, f1, hk2⟩ := IHp h kvs h3 kvs2 n0 D hr hcp
            obtain ⟨f2, hv⟩ := frame_alloc_add h3 n0 D2 (.hmap kvs2) f1.2.1 hk2
            refine ⟨h3.next :: D2, f1.trans f2, ?_⟩
            rw [← e2]
            exact hv
        | some (.hseq vs) =>
          rw [hlk] at hrun
          dsimp only at hrun
          match hcp : hCopySeq fuel h vs with
          | .error e => rw [hcp] at hrun; exact absurd hrun (by simp)
          | .ok (h3, vs2) =>
            rw [hcp] at hrun
            dsimp only at hrun
            rw [Except.ok.injEq, Prod.mk.injEq] at hrun
            obtain ⟨e1, e2⟩ := hrun
            subst e1
            obtain ⟨D2, f1, hk2⟩ := IHs h vs h3 vs2 n0 D hr hcp
            obtain ⟨f2, hv⟩ := frame_alloc_add h3 n0 D2 (.hseq vs2) f1.2.1 hk2
            refine ⟨h3.next :: D2, f1.trans f2, ?_⟩
            rw [← e2]
            exact hv
    · intro h kvs h2 kvs2 n0 D hr hrun
      cases kvs with
      | nil =>
        simp only [hCopyPairs] at hrun
        rw [Except.ok.injEq, Prod.mk.injEq] at hrun
        obtain ⟨e1, e2⟩ := hrun
        subst e1
        refine ⟨D, FrameStep.refl h n0 D hr, ?_⟩
        rw [← e2]
        intro p hp
        simp at hp
      | cons kv rest =>
        obtain ⟨k, v⟩ := kv
        simp only [hCopyPairs] at hrun
        match hc : hCopy fuel h v with
        | .error e => rw [hc] at hrun; exact absurd hrun (by simp)
        | .ok (h3, v2) =>
          rw [hc] at hrun
          dsimp only at hrun
          match hcp : hCopyPairs fuel h3 rest with
          | .error e => rw [hcp] at hrun; exact absurd hrun (by simp)
          | .ok (h4, rest2) =>
            rw [hcp] at hrun
            dsimp only at hrun
            rw [Except.ok.injEq, Prod.mk.injEq] at hrun
            obtain ⟨e1, e2⟩ := hrun
            subst e1
            obtain ⟨D2, f1, hv2⟩ := IHc h v h3 v2 n0 D hr hc
            obtain ⟨D3, f2, hr2⟩ := IHp h3 rest h4 rest2 n0 D2 f1.2.1 hcp
            refine ⟨D3, f1.trans f2, ?_⟩
            rw [← e2]
            intro p hp
            rcases List.mem_cons.mp hp with hp | hp
            · subst hp
              exact hvalInD_mono f2.1 v2 hv2
            · exact hr2 p hp
    · intro h vs h2 vs2 n0 D hr hrun
      cases vs with
      | nil =>
        simp only [hCopySeq] at hrun
        rw [Except.ok.injEq, Prod.mk.injEq] at hrun
        obtain ⟨e1, e2⟩ := hrun
        subst e1
        refine ⟨D, FrameStep.refl h n0 D hr, ?_⟩
        rw [← e2]
        intro v hv
        simp at hv
      | cons v rest =>
        simp only [hCopySeq] at hrun
        match hc : hCopy fuel h v with
        | .error e => rw [hc] at hrun; exact absurd hrun (by simp)
        | .ok (h3, v2) =>
          rw [hc] at hrun
          dsimp only at hrun
          match hcp : hCopySeq fuel h3 rest with
          | .error e => rw [hcp] at hrun; exact absurd hrun (by simp)
          | .ok (h4, rest2) =>
            rw [hcp] at hrun
            dsimp only at hrun
            rw [Except.ok.injEq, Prod.mk.injEq] at hrun
            obtain ⟨e1, e2⟩ := hrun
            subst e1
            obtain ⟨D2, f1, hv2⟩ := IHc h v h3 v2 n0 D hr hc
            obtain ⟨D3, f2, hr2⟩ := IHs h3 rest h4 rest2 n0 D2 f1.2.1 hcp
            refine ⟨D3, f1.trans f2, ?_⟩
            rw [← e2]
            intro x hx
            rcases List.mem_cons.mp hx with hx | hx
            · rw [hx]
              exact hvalInD_mono f2.1 v2 hv2
            · exact hr2 x hx

theorem hMergeDocsGo_frame : ∀ fuel h ds os bs h2 rs n0 D,
    RegionOK h n0 D → (∀ d ∈ ds, hvalInD D d) →
    hMergeDocsGo fuel h ds os bs = .ok (h2, rs) →
    ∃ D2, FrameStep h h2 n0 D D2 := by
  intro fuel
  induction fuel with
  | zero =>
    intro h ds os bs h2 rs n0 D hr hds hrun
    simp [hMergeDocsGo] at hrun
  | succ fuel IH =>
    intro h ds os bs h2 rs n0 D hr hds hrun
    match ds with
    | [] =>
      simp only [hMergeDocsGo] at hrun
      rw [Except.ok.injEq, Prod.mk.injEq] at hrun
      obtain ⟨e1, e2⟩ := hrun
      subst e1
      exact ⟨D, FrameStep.refl h n0 D hr⟩
    | d :: ds =>
      match os with
      | [] => simp only [hMergeDocsGo] at hrun; exact absurd hrun (by simp)
      | o :: os =>
        match bs with
        | [] => simp only [hMergeDocsGo] at hrun; exact absurd hrun (by simp)
        | b :: bs =>
          simp only [hMergeDocsGo] at hrun
          match hmp : hMergePart fuel h d o b with
          | .error e => rw [hmp] at hrun; exact absurd hrun (by simp)
          | .ok (h3, r) =>
            rw [hmp] at hrun
            dsimp only at hrun
            match hgo : hMergeDocsGo fuel h3 ds os bs with
            | .error e => rw [hgo] at hrun; exact absurd hrun (by simp)
            | .ok (h4, rs4) =>
              rw [hgo] at hrun
              dsimp only at hrun
              rw [Except.ok.injEq, Prod.mk.injEq] at hrun
              obtain ⟨e1, e2⟩ := hrun
              subst e1
              obtain ⟨D2, f1⟩ := (hFrame fuel).1 h d o b h3 r n0 D hr
                (hds d (List.mem_cons_self _ _)) hmp
              obtain ⟨D3, f2⟩ := IH h3 ds os bs h4 rs4 n0 D2 f1.2.1
                (fun x hx => hvalInD_mono f1.1 x (hds x (List.mem_cons_of_mem _ hx))) hgo
              exact ⟨D3, f1.trans f2⟩

theorem hMergeDocs_frame (fuel : Nat) (h : Heap) (src ov base : List HVal)
    (h2 : Heap) (res : List HVal)
    (hrun : hMergeDocs fuel h src ov base = .ok (h2, res)) :
    (∀ a, a < h.next → lookupH h2 a = lookupH h a) ∧ h.next ≤ h2.next := by
  rw [hMergeDocs] at hrun
  have hr0 : RegionOK h h.next [] :=
    ⟨Nat.le_refl _, by intro a ha; simp at ha, by intro a ha; simp at ha⟩
  match hcp : hCopySeq fuel h src with
  | .error e => rw [hcp] at hrun; exact absurd hrun (by simp)
  | .ok (h3, docs) =>
    rw [hcp] at hrun
    dsimp only at hrun
    obtain ⟨D2, f1, hdocs⟩ := (hCopy_frame fuel).2.2 h src h3 docs h.next [] hr0 hcp
    obtain ⟨D3, f2⟩ := hMergeDocsGo_frame fuel h3 docs ov base h2 res h.next D2
      f1.2.1 hdocs hrun
    have f3 := f1.trans f2
    exact ⟨f3.2.2.2, f3.2.2.1⟩

theorem lookupStore_mem (st : List (Nat × HNode)) (a : Nat) (nd : HNode)
    (h : lookupStore st a = some nd) : (a, nd) ∈ st := by
  induction st with
  | nil => simp [lookupStore] at h
  | cons p rest ih =>
    obtain ⟨k, nd0⟩ := p
    rw [lookupStore] at h
    by_cases hk : k = a
    · rw [if_pos hk] at h
      rw [Option.some.injEq] at h
      subst h hk
      exact List.mem_cons_self _ _
    · rw [if_neg hk] at h
      exact List.mem_cons_of_mem _ (ih h)

theorem heapSealed_node (h : Heap) (n : Nat) (hs : heapSealed h n = true)
    (a : Nat) (nd : HNode) (ha : a < n) (hlk : lookupH h a = some nd) :
    nodeBelow n nd = true := by
  rw [heapSealed, List.all_eq_true] at hs
  have := hs (a, nd) (lookupStore_mem h.store a nd hlk)
  simp at this
  rcases this with hge | hb
  · omega
  · exact hb

theorem hValueAt_frame : ∀ (f : Nat) (h h2 : Heap) (n0 : Nat),
    (∀ a, a < n0 → lookupH h2 a = lookupH h a) →
    (∀ a nd, a < n0 → lookupH h a = some nd → nodeBelow n0 nd = true) →
    (∀ v, hvalBelow n0 v = true → hValueAt f h2 v = hValueAt f h v)
    ∧ (∀ kvs, (∀ p ∈ kvs, hvalBelow n0 p.2 = true) →
        hValuePairs f h2 kvs = hValuePairs f h kvs)
    ∧ (∀ vs, (∀ v ∈ vs, hvalBelow n0 v = true) →
        hValueSeq f h2 vs = hValueSeq f h vs) := by
  intro f
  induction f with
  | zero =>
    intro h h2 n0 hlk hcl
    exact ⟨fun v _ => rfl, fun kvs _ => rfl, fun vs _ => rfl⟩
  | succ f IH =>
    intro h h2 n0 hlk hcl
    obtain ⟨IHv, IHp, IHs⟩ := IH h h2 n0 hlk hcl
    refine ⟨?_, ?_, ?_⟩
    · intro v hv
      cases v with
      | null => rfl
      | str s => rfl
      | int n => rfl
      | bool b => rfl
      | ref a =>
        have ha : a < n0 := by
          rw [hvalBelow] at hv
          exact of_decide_eq_true hv
        simp only [hValueAt]
        rw [hlk a ha]
        match hnd : lookupH h a with
        | none => rfl
        | some (.hmap kvs) =>
          dsimp only
          have hbel := hcl a _ ha hnd
          rw [nodeBelow, List.all_eq_true] at hbel
          rw [IHp kvs (fun p hp => hbel p hp)]
        | some (.hseq vs) =>
          dsimp only
          have hbel := hcl a _ ha hnd
          rw [nodeBelow, List.all_eq_true] at hbel
          rw [IHs vs (fun v hv2 => hbel v hv2)]
    · intro kvs hkvs
      cases kvs with
      | nil => rfl
      | cons p rest =>
        obtain ⟨k, v⟩ := p
        simp only [hValuePairs]
        rw [IHv v (hkvs (k, v) (List.mem_cons_self _ _))]
        rw [IHp rest (fun q hq => hkvs q (List.mem_cons_of_mem _ hq))]
    · intro vs hvs
      cases vs with
      | nil => rfl
      | cons v rest =>
        simp only [hValueSeq]
        rw [IHv v (hvs v (List.mem_cons_self _ _))]
        rw [IHs rest (fun x hx => hvs x (List.mem_cons_of_mem _ hx))]

/-- C10 (amended): `merge_docs` never mutates its arguments.  Whenever
the heap merge succeeds, every address that existed before the call
dereferences to the same node afterwards, and (for a heap whose
pre-existing containers reference only pre-existing addresses) every
pre-existing value — the source, typed-override and literal-override
documents included — reads back unchanged.  The freshness half of the
original claim is refuted separately. -/
theorem c10_amended (fuel : Nat) (h : Heap) (src ov base : List HVal)
    (h2 : Heap) (res : List HVal)
    (hrun : hMergeDocs fuel h src ov base = .ok (h2, res))
    (hsealed : heapSealed h h.next = true) :
    (∀ a, a < h.next → lookupH h2 a = lookupH h a)
    ∧ (∀ f2 v, hvalBelow h.next v = true → hValueAt f2 h2 v = hValueAt f2 h v) := by
  obtain ⟨hpres, hle⟩ := hMergeDocs_frame fuel h src ov base h2 res hrun
  refine ⟨hpres, ?_⟩
  intro f2 v hv
  exact (hValueAt_frame f2 h h2 h.next hpres
    (fun a nd ha hlk => heapSealed_node h h.next hsealed a nd ha hlk)).1 v hv

/-- C10 (counterexample): the result is *not* a fresh structure.  With
source `[[]]` and overrides `[[{"a": 1}]]` the merged document is a list
whose element is the very container at address 0 — the override's dict —
so the result aliases the overrides input (mutating it through the
result would mutate `overrides`). -/
theorem c10_counterexample :
    hMergeDocs 10
        ⟨[(0, .hmap [("a", .int 1)]), (1, .hseq [.ref 0]),
          (2, .hmap [("a", .str "1")]), (3, .hseq [.ref 2]), (4, .hseq [])], 5⟩
        [.ref 4] [.ref 1] [.ref 3]
      = .ok (⟨[(6, .hseq [.ref 0]), (5, .hseq []),
          (0, .hmap [("a", .int 1)]), (1, .hseq [.ref 0]),
          (2, .hmap [("a", .str "1")]), (3, .hseq [.ref 2]), (4, .hseq [])], 7⟩,
          [.ref 6])
    ∧ lookupH ⟨[(6, .hseq [.ref 0]), (5, .hseq []),
          (0, .hmap [("a", .int 1)]), (1, .hseq [.ref 0]),
          (2, .hmap [("a", .str "1")]), (3, .hseq [.ref 2]), (4, .hseq [])], 7⟩ 6
        = some (.hseq [.ref 0])
    ∧ lookupH ⟨[(0, .hmap [("a", .int 1)]), (1, .hseq [.ref 0]),
          (2, .hmap [("a", .str "1")]), (3, .hseq [.ref 2]), (4, .hseq [])], 5⟩ 0
        = some (.hmap [("a", .int 1)])
    ∧ (0 : Nat) < 5 := by
  refine ⟨by decide, by decide, by decide, by decide⟩

/-- C10 (witness): the amended no-mutation theorem at the concrete
five-object heap of the aliasing example — the overrides document at
address 1 dereferences identically before and after the merge. -/
theorem c10_witness :
    lookupH (⟨[(6, .hseq [.ref 0]), (5, .hseq []),
        (0, .hmap [("a", .int 1)]), (1, .hseq [.ref 0]),
        (2, .hmap [("a", .str "1")]), (3, .hseq [.ref 2]), (4, .hseq [])], 7⟩ : Heap) 1
      = lookupH (⟨[(0, .hmap [("a", .int 1)]), (1, .hseq [.ref 0]),
        (2, .hmap [("a", .str "1")]), (3, .hseq [.ref 2]), (4, .hseq [])], 5⟩ : Heap) 1 :=
  (c10_amended 10
    ⟨[(0, .hmap [("a", .int 1)]), (1, .hseq [.ref 0]),
      (2, .hmap [("a", .str "1")]), (3, .hseq [.ref 2]), (4, .hseq [])], 5⟩
    [.ref 4] [.ref 1] [.ref 3]
    ⟨[(6, .hseq [.ref 0]), (5, .hseq []),
      (0, .hmap [("a", .int 1)]), (1, .hseq [.ref 0]),
      (2, .hmap [("a", .str "1")]), (3, .hseq [.ref 2]), (4, .hseq [])], 7⟩
    [.ref 6] (by decide) (by decide)).1 1 (by decide)
